import Mathlib

/-!
# EAGKA: ownership tree and knowledge matrix

A shallow embedding of `KeyGenerationTree` (src/KeyGenerationTree.cc),
`KeyMatrix` (src/KeyMatrix.cc) and the part of `AppReceiver::Receive`
(src/AdhocUdpApplication.cc) that feeds a received message into both, and the
properties of them that the specification states.

Conventions of the embedding.

* `uint32_t` values are natural numbers; the index arithmetic of the source
  (`LeftChild`, `RightChild`, `Parent`, `LeafToNodeIndex`) is taken modulo `2^32`.
* `std::vector<bool>` is a `List Bool`, `std::string` a `List Char`.
* `operator[]` outside a vector is undefined behaviour in C++; here every read
  and write is checked and such an access ends the call with
  `Error.undefined_behaviour`.
* C++ exceptions are the other `Error` values; a function that can throw or
  run into undefined behaviour returns `Except Error _`.
* A `double` that is the quotient of two counters is kept as that exact
  quotient (`Ratio`): rounding is not modelled, and `0 / 0` is NaN.
* `rand()` is a stream of integers handed to the call, `RAND_MAX` a parameter.
* `while` loops run on a step budget; `Error.out_of_fuel` marks a used-up
  budget and the theorems show the calls return without it.
-/

set_option linter.dupNamespace false

namespace EAGKA

/-- Number of values of a `uint32_t`. -/
abbrev U32 : Nat := 4294967296

/-- Ways a call can end without a result: the two exceptions the sources throw
(`std::invalid_argument`, `std::out_of_range`), an access outside a container
or another operation the C++ standard leaves undefined, and a used-up step
budget of a modelled loop. -/
inductive Error where
  | invalid_argument
  | out_of_range
  | undefined_behaviour
  | out_of_fuel
  deriving DecidableEq, Repr

deriving instance DecidableEq for Except

/-! ## Checked container access -/

/-- Value of bit `i` of a bitmap, `false` outside it. -/
def bit (v : List Bool) (i : Nat) : Bool := v.getD i false

/-- Read `v[i]` of a `std::vector<bool>`. -/
def readBit (v : List Bool) (i : Nat) : Except Error Bool :=
  if i < v.length then .ok (bit v i) else .error .undefined_behaviour

/-- Assign `v[i] = b` of a `std::vector<bool>`. -/
def writeBit (v : List Bool) (i : Nat) (b : Bool) : Except Error (List Bool) :=
  if i < v.length then .ok (v.set i b) else .error .undefined_behaviour

/-! ## KeyGenerationTree -/

/-- Member data of `class KeyGenerationTree` (KeyGenerationTree.h). -/
structure KeyGenerationTree where
  m_nodeId : Nat
  m_leafCount : Nat
  m_capacity : Nat
  m_depth : Nat
  m_nodeCount : Nat
  m_owned : List Bool
  deriving DecidableEq, Repr

/-- `LeftChild(i) = 2 * i + 1` in `uint32_t`. -/
def KeyGenerationTree.LeftChild (i : Nat) : Nat := (2 * i + 1) % U32

/-- `RightChild(i) = 2 * i + 2` in `uint32_t`. -/
def KeyGenerationTree.RightChild (i : Nat) : Nat := (2 * i + 2) % U32

/-- `Parent(i) = (i - 1) / 2` in `uint32_t`: `Parent(0)` is `(2^32 - 1) / 2`. -/
def KeyGenerationTree.Parent (i : Nat) : Nat := ((i + U32 - 1) % U32) / 2

/-- The loop `while (n > 0) { n >>= 1; ++l; }` of `CeilLog2`, on a step budget. -/
def KeyGenerationTree.CeilLog2.loop : Nat → Nat → Nat → Nat
  | 0, _, l => l
  | fuel + 1, n, l => if n > 0 then CeilLog2.loop fuel (n / 2) (l + 1) else l

/-- `CeilLog2(n)`: `n -= 1` in `uint32_t`, then count the halvings down to zero.
The value halves in every round, so a budget of `n - 1` rounds is never used up
(`CeilLog2_loop_budget`). -/
def KeyGenerationTree.CeilLog2 (n : Nat) : Nat :=
  CeilLog2.loop ((n + U32 - 1) % U32) ((n + U32 - 1) % U32) 0

/-- `LeafToNodeIndex(leafIdx) = m_capacity - 1 + leafIdx` in `uint32_t`. -/
def KeyGenerationTree.LeafToNodeIndex (t : EAGKA.KeyGenerationTree) (leafIdx : Nat) : Nat :=
  (t.m_capacity + U32 - 1 + leafIdx) % U32

/-- `m_owned[LeftChild(idx)] && m_owned[RightChild(idx)]`; the right child is
read only when the left one is owned. -/
def KeyGenerationTree.bothOwned (owned : List Bool) (idx : Nat) : Except Error Bool := do
  let l ← readBit owned (LeftChild idx)
  if l then readBit owned (RightChild idx) else pure false

/-- A `std::set<uint32_t>` is a list read up to order and repetition: `insert`
is `::`, `erase x` drops every `x`, and `*rbegin()` is the greatest member. -/
def setMax : List Nat → Nat
  | [] => 0
  | x :: xs => max x (setMax xs)

/-- `erase(idx)` of the `std::set`. -/
def setErase (nodes : List Nat) (idx : Nat) : List Nat :=
  nodes.filter (fun x => x != idx)

/-- First loop of `BubbleUpMerge`: the parents of all owned real leaves. -/
def KeyGenerationTree.BubbleUpMerge.collect (t : EAGKA.KeyGenerationTree) :
    Except Error (List Nat) :=
  (List.range t.m_leafCount).foldlM (fun nodes i => do
    let leafIdx := LeafToNodeIndex t i
    let o ← readBit t.m_owned leafIdx
    if o then pure (Parent leafIdx :: nodes) else pure nodes) []

/-- The `while (!nodesToCheck.empty())` loop of `BubbleUpMerge`. -/
def KeyGenerationTree.BubbleUpMerge.loop : Nat → List Bool → List Nat → Except Error (List Bool)
  | 0, owned, nodes => if nodes.isEmpty then .ok owned else .error .out_of_fuel
  | fuel + 1, owned, nodes =>
    if nodes.isEmpty then .ok owned
    else
      let idx := setMax nodes
      let rest := setErase nodes idx
      do
        let o ← readBit owned idx
        if o then BubbleUpMerge.loop fuel owned rest
        else do
          let both ← bothOwned owned idx
          if both then do
            let owned1 ← writeBit owned idx true
            BubbleUpMerge.loop fuel owned1 (if idx ≠ 0 then Parent idx :: rest else rest)
          else BubbleUpMerge.loop fuel owned rest

/-- `KeyGenerationTree::BubbleUpMerge`. Every round removes the greatest member
of the set and inserts at most a smaller one, so `greatest + 1` rounds empty it. -/
def KeyGenerationTree.BubbleUpMerge (t : EAGKA.KeyGenerationTree) :
    Except Error EAGKA.KeyGenerationTree := do
  let nodes ← BubbleUpMerge.collect t
  let owned ← BubbleUpMerge.loop (setMax nodes + 1) t.m_owned nodes
  pure { t with m_owned := owned }

/-- Body of the `for` loop of `AddMultipleContributions`; the state is
`m_owned` and `anyNewContribution`. -/
def KeyGenerationTree.AddMultipleContributions.step (t : EAGKA.KeyGenerationTree) (contributionString :
    List Char)
    (st : List Bool × Bool) (i : Nat) : Except Error (List Bool × Bool) :=
  if contributionString[i]? = some '1' then do
    let idx := LeafToNodeIndex t i
    let o ← readBit st.1 idx
    if !o then do
      let owned1 ← writeBit st.1 idx true
      pure (owned1, true)
    else pure st
  else pure st

/-- `KeyGenerationTree::AddMultipleContributions`. -/
def KeyGenerationTree.AddMultipleContributions (t : EAGKA.KeyGenerationTree) (contributionString :
    List Char) :
    Except Error EAGKA.KeyGenerationTree :=
  if contributionString.length ≠ t.m_leafCount then .error .invalid_argument
  else do
    let st ← (List.range t.m_leafCount).foldlM
      (AddMultipleContributions.step t contributionString) (t.m_owned, false)
    if st.2 then BubbleUpMerge { t with m_owned := st.1 }
    else pure { t with m_owned := st.1 }

/-- `KeyGenerationTree::HasContribution`. -/
def KeyGenerationTree.HasContribution (t : EAGKA.KeyGenerationTree) (contributorId : Nat) :
    Except Error Bool :=
  if contributorId ≥ t.m_leafCount then .error .out_of_range
  else readBit t.m_owned (LeafToNodeIndex t contributorId)

/-- `KeyGenerationTree::HasCompleteKey`. -/
def KeyGenerationTree.HasCompleteKey (t : EAGKA.KeyGenerationTree) : Except Error Bool :=
  readBit t.m_owned 0

/-- `KeyGenerationTree::GetContributionCount`. -/
def KeyGenerationTree.GetContributionCount (t : EAGKA.KeyGenerationTree) : Except Error Nat :=
  (List.range t.m_leafCount).foldlM (fun count i => do
    let o ← readBit t.m_owned (LeafToNodeIndex t i)
    if o then pure (count + 1) else pure count) 0

/-- Modelled from the spec: the walk of `AddContribution` from a newly owned
leaf towards the root. The body of `AddContribution` is not in the sources
(the constructor and `MergeTree` call it). Spec 4.1: it "re-evaluates and
updates every ancestor on the path to the root whose children are now both
owned (bottom-up, stopping as soon as an ancestor is already owned or its
sibling subtree is not fully owned)". The index falls in every round, so a
budget of `idx` rounds is enough. -/
def KeyGenerationTree.AddContribution.climb : Nat → List Bool → Nat → Except Error (List Bool)
  | 0, owned, idx => if idx = 0 then .ok owned else .error .out_of_fuel
  | fuel + 1, owned, idx =>
    if idx = 0 then .ok owned
    else do
      let p := Parent idx
      let po ← readBit owned p
      if po then pure owned
      else do
        let both ← bothOwned owned p
        if both then do
          let owned1 ← writeBit owned p true
          AddContribution.climb fuel owned1 p
        else pure owned

/-- Modelled from the spec: `AddContribution(contributorId)`, whose body is not
in the sources. Spec 4.1: it "marks the contributor's leaf owned; if previously
unowned, re-evaluates and updates every ancestor on the path to the root",
and is a "no-op if already owned"; spec 7: an id that "exceeds the configured
participant count" is rejected with OutOfRange "without mutating state". -/
def KeyGenerationTree.AddContribution (t : EAGKA.KeyGenerationTree) (contributorId : Nat) :
    Except Error EAGKA.KeyGenerationTree :=
  if contributorId ≥ t.m_leafCount then .error .out_of_range
  else do
    let leaf := LeafToNodeIndex t contributorId
    let o ← readBit t.m_owned leaf
    if o then pure t
    else do
      let owned1 ← writeBit t.m_owned leaf true
      let owned2 ← AddContribution.climb leaf owned1 leaf
      pure { t with m_owned := owned2 }

/-- `KeyGenerationTree::MergeTree`. -/
def KeyGenerationTree.MergeTree (t otherTree : EAGKA.KeyGenerationTree) :
    Except Error EAGKA.KeyGenerationTree :=
  if t.m_leafCount ≠ otherTree.m_leafCount then .error .invalid_argument
  else
    (List.range t.m_leafCount).foldlM (fun cur i => do
      let h ← HasContribution otherTree i
      if h then AddContribution cur i else pure cur) t

/-- `KeyGenerationTree::GetForwardingContributions`; in `a && !b` the neighbor
is asked only when the local tree has the contribution. -/
def KeyGenerationTree.GetForwardingContributions (t neighborTree : EAGKA.KeyGenerationTree) :
    Except Error (List Char) := do
  let forwardingContributions := List.replicate t.m_leafCount '0'
  let complete ← HasCompleteKey t
  if complete then
    pure ((List.range t.m_leafCount).foldl (fun s i => s.set i '1') forwardingContributions)
  else
    (List.range t.m_leafCount).foldlM (fun s i => do
      let mine ← HasContribution t i
      if mine then do
        let theirs ← HasContribution neighborTree i
        if !theirs then pure (s.set i '1') else pure s
      else pure s) forwardingContributions

/-- `KeyGenerationTree::TreeToString`. -/
def KeyGenerationTree.TreeToString (t : EAGKA.KeyGenerationTree) : Except Error (List Char) :=
  (List.range t.m_nodeCount).foldlM (fun treeString i => do
    let o ← readBit t.m_owned i
    pure (treeString ++ [if o then '1' else '0'])) []

/-- `KeyGenerationTree::StringToTree`. -/
def KeyGenerationTree.StringToTree (t : EAGKA.KeyGenerationTree) (treeString : List Char) :
    Except Error EAGKA.KeyGenerationTree :=
  if treeString.length ≠ t.m_nodeCount then .error .invalid_argument
  else do
    let owned ← (List.range t.m_nodeCount).foldlM
      (fun owned i => writeBit owned i (decide (treeString[i]? = some '1'))) t.m_owned
    pure { t with m_owned := owned }

/-- The constructor `KeyGenerationTree::KeyGenerationTree(networkSize, nodeId)`.
`1u << m_depth` is undefined for a depth of 32. The second loop starts at
`static_cast<int32_t>(m_capacity) - 2`, which is `m_capacity - 2` for every
capacity: for the capacity `2^31` the cast gives `-2^31` and the subtraction
wraps to `2^31 - 2` in two's complement. For the capacity 1 it is `-1` and the
loop has no round. -/
def KeyGenerationTree.KeyGenerationTree (networkSize nodeId : Nat) :
    Except Error EAGKA.KeyGenerationTree :=
  if networkSize = 0 then .error .invalid_argument
  else if CeilLog2 networkSize ≥ 32 then .error .undefined_behaviour
  else
    let depth := CeilLog2 networkSize
    let capacity := 2 ^ depth % U32
    let nodeCount := (2 * capacity + U32 - 1) % U32
    let t0 : EAGKA.KeyGenerationTree :=
      { m_nodeId := nodeId, m_leafCount := networkSize, m_capacity := capacity,
        m_depth := depth, m_nodeCount := nodeCount,
        m_owned := List.replicate nodeCount false }
    do
      let owned1 ← (List.range (capacity - networkSize)).foldlM
        (fun owned k => writeBit owned (LeafToNodeIndex t0 (networkSize + k)) true) t0.m_owned
      let owned2 ← (List.range (capacity - 1)).reverse.foldlM (fun owned idx => do
        let both ← bothOwned owned idx
        if both then writeBit owned idx true else pure owned) owned1
      AddContribution { t0 with m_owned := owned2 } nodeId

/-! ### Predicates on tree states -/

/-- Shape of an object the constructor has built for `m_leafCount` participants:
the sizes are the ones it computes and the bitmap has `m_nodeCount` bits. -/
def WellFormed (t : EAGKA.KeyGenerationTree) : Prop :=
  1 ≤ t.m_leafCount ∧ t.m_leafCount ≤ 2147483648 ∧
  t.m_depth = KeyGenerationTree.CeilLog2 t.m_leafCount ∧
  t.m_capacity = 2 ^ t.m_depth % U32 ∧
  t.m_nodeCount = (2 * t.m_capacity + U32 - 1) % U32 ∧
  t.m_owned.length = t.m_nodeCount

instance (t : EAGKA.KeyGenerationTree) : Decidable (WellFormed t) := by
  unfold WellFormed; infer_instance

/-- Invariant (a): every internal node is owned iff both its children are. -/
def InternalInv (t : EAGKA.KeyGenerationTree) : Prop :=
  ∀ i < t.m_capacity - 1,
    bit t.m_owned i = (bit t.m_owned (2 * i + 1) && bit t.m_owned (2 * i + 2))

instance (t : EAGKA.KeyGenerationTree) : Decidable (InternalInv t) := by
  unfold InternalInv; infer_instance

/-- Invariant (b): every padding leaf (leaf index from `m_leafCount` on) is owned. -/
def PaddingOwned (t : EAGKA.KeyGenerationTree) : Prop :=
  ∀ leaf < t.m_capacity, t.m_leafCount ≤ leaf → bit t.m_owned (t.m_capacity - 1 + leaf) = true

instance (t : EAGKA.KeyGenerationTree) : Decidable (PaddingOwned t) := by
  unfold PaddingOwned; infer_instance

/-- Invariant (c): the leaf of the local participant is owned. -/
def OwnLeafOwned (t : EAGKA.KeyGenerationTree) : Prop :=
  bit t.m_owned (t.LeafToNodeIndex t.m_nodeId) = true

instance (t : EAGKA.KeyGenerationTree) : Decidable (OwnLeafOwned t) := by
  unfold OwnLeafOwned; infer_instance

/-! ## KeyMatrix -/

/-- Member data of `class KeyMatrix` (KeyMatrix.h). -/
structure KeyMatrix where
  m_matrix : List (List Bool)
  m_networkSize : Nat
  m_nodeId : Nat
  deriving DecidableEq, Repr

/-- Value of cell `(i, j)` of a matrix, `false` outside it. -/
def cell (mat : List (List Bool)) (i j : Nat) : Bool := bit (mat.getD i []) j

/-- Read `m_matrix[i][j]`. -/
def readCell (mat : List (List Bool)) (i j : Nat) : Except Error Bool :=
  if i < mat.length then readBit (mat.getD i []) j else .error .undefined_behaviour

/-- Assign `m_matrix[i][j] = b`. -/
def writeCell (mat : List (List Bool)) (i j : Nat) (b : Bool) : Except Error (List (List Bool)) :=
  if i < mat.length then do
    let row ← writeBit (mat.getD i []) j b
    pure (mat.set i row)
  else .error .undefined_behaviour

/-- A `double` computed as `static_cast<double>(num) / den` from two counters,
kept as the exact quotient. Every quotient formed here has `num ≤ den`, so a
zero denominator is the NaN of `0 / 0`. -/
structure Ratio where
  num : Nat
  den : Nat
  deriving DecidableEq, Repr

/-- Comparison `x < y` of two `double`s as exact quotients (by cross
multiplication); it is false when either is NaN. -/
def Ratio.lt (x y : Ratio) : Bool :=
  decide (x.den ≠ 0 ∧ y.den ≠ 0 ∧ x.num * y.den < y.num * x.den)

/-- The rational number a quotient with a nonzero denominator stands for. -/
def Ratio.toRat (x : Ratio) : ℚ := (x.num : ℚ) / (x.den : ℚ)

/-- The constructor `KeyMatrix::KeyMatrix(networkSize, nodeId)`: the rows are
resized to `networkSize` cells and every cell `(i, j)` is assigned `i == j`. -/
def KeyMatrix.KeyMatrix (networkSize nodeId : Nat) : EAGKA.KeyMatrix :=
  { m_matrix := (List.range networkSize).map (fun i =>
      (List.range networkSize).map (fun j => decide (i = j))),
    m_networkSize := networkSize,
    m_nodeId := nodeId }

/-- `KeyMatrix::HasKeyContribution`. -/
def KeyMatrix.HasKeyContribution (m : EAGKA.KeyMatrix) (AnyNodeId_i AnyNodeId_j : Nat) :
    Except Error Bool :=
  readCell m.m_matrix AnyNodeId_i AnyNodeId_j

/-- `KeyMatrix::ReceiveKeyContribution`. -/
def KeyMatrix.ReceiveKeyContribution (m : EAGKA.KeyMatrix) (contributorId : Nat) :
    Except Error EAGKA.KeyMatrix := do
  let mat ← writeCell m.m_matrix m.m_nodeId contributorId true
  pure { m with m_matrix := mat }

/-- A `for` loop that returns `false` at the first index whose test fails and
`true` after the last one. -/
def allTrueM (test : Nat → Except Error Bool) : List Nat → Except Error Bool
  | [] => pure true
  | i :: rest => do
    let b ← test i
    if b then allTrueM test rest else pure false

/-- `KeyMatrix::SelfIsFull1`. -/
def KeyMatrix.SelfIsFull1 (m : EAGKA.KeyMatrix) : Except Error Bool :=
  allTrueM (fun i => readCell m.m_matrix m.m_nodeId i) (List.range m.m_networkSize)

/-- The loop of `CalculateCR`: `(diffCount, unionCount)`. Both stay at most
`m_networkSize`, so the `uint32_t` counters do not wrap. In `a && !b` and in
`a || b` the neighbor's cell is read only when the result depends on it. -/
def KeyMatrix.CalculateCR.counts (m : EAGKA.KeyMatrix) (NeighborId : Nat) :
    Except Error (Nat × Nat) :=
  (List.range m.m_networkSize).foldlM (fun (c : Nat × Nat) j => do
    let a ← readCell m.m_matrix m.m_nodeId j
    let inDiff ← if a then do
        let b ← readCell m.m_matrix NeighborId j
        pure (!b)
      else pure false
    let a2 ← readCell m.m_matrix m.m_nodeId j
    let inUnion ← if a2 then pure true else readCell m.m_matrix NeighborId j
    pure (if inDiff then c.1 + 1 else c.1, if inUnion then c.2 + 1 else c.2)) (0, 0)

/-- `KeyMatrix::CalculateCR`. -/
def KeyMatrix.CalculateCR (m : EAGKA.KeyMatrix) (NeighborId : Nat) : Except Error Ratio := do
  let c ← CalculateCR.counts m NeighborId
  pure { num := c.1, den := c.2 }

/-- The loop of `CalculateFD`: `receivedCount`. -/
def KeyMatrix.CalculateFD.count (m : EAGKA.KeyMatrix) (ContributorId : Nat) : Except Error Nat :=
  (List.range m.m_networkSize).foldlM (fun receivedCount i => do
    let b ← readCell m.m_matrix i ContributorId
    if b then pure (receivedCount + 1) else pure receivedCount) 0

/-- `KeyMatrix::CalculateFD`. -/
def KeyMatrix.CalculateFD (m : EAGKA.KeyMatrix) (ContributorId : Nat) : Except Error Ratio := do
  let receivedCount ← CalculateFD.count m ContributorId
  pure { num := receivedCount, den := m.m_networkSize }

/-- `KeyMatrix::RandomVariable`, for the value `r` that `rand()` returns. -/
def KeyMatrix.RandomVariable (RAND_MAX r : Nat) : Ratio := { num := r, den := RAND_MAX }

/-- Body of the inner loop of `KeyMatrix::GetForwardingContributions`. The state
is the string and the number of calls of `rand()` made so far; the third operand
of the `&&` chain, and with it the draw, is evaluated only when the first two hold. -/
def KeyMatrix.GetForwardingContributions.step (m : EAGKA.KeyMatrix) (NeighborId RAND_MAX : Nat)
    (rand : Nat → Nat) (st : List Char × Nat) (i : Nat) : Except Error (List Char × Nat) := do
  let fd ← CalculateFD m i
  let mine ← readCell m.m_matrix m.m_nodeId i
  if mine then do
    let theirs ← readCell m.m_matrix NeighborId i
    if !theirs then
      if Ratio.lt fd (RandomVariable RAND_MAX (rand st.2)) then pure (st.1.set i '1', st.2 + 1)
      else pure (st.1, st.2 + 1)
    else pure st
  else pure st

/-- `KeyMatrix::GetForwardingContributions`; `rand k` is what the call number
`k` of `rand()` returns, counted from the start of this call. -/
def KeyMatrix.GetForwardingContributions (m : EAGKA.KeyMatrix) (NeighborId RAND_MAX : Nat)
    (rand : Nat → Nat) : Except Error (List Char) := do
  let forwardingContributions := List.replicate m.m_networkSize '0'
  let full ← SelfIsFull1 m
  if full then
    pure ((List.range m.m_networkSize).foldl (fun s i => s.set i '1') forwardingContributions)
  else do
    let cr ← CalculateCR m NeighborId
    if Ratio.lt (RandomVariable RAND_MAX (rand 0)) cr then do
      let st ← (List.range m.m_networkSize).foldlM
        (GetForwardingContributions.step m NeighborId RAND_MAX rand) (forwardingContributions, 1)
      pure st.1
    else pure forwardingContributions

/-! ### Predicates on matrix states -/

/-- The matrix has `m_networkSize` rows of `m_networkSize` cells. -/
def Square (m : EAGKA.KeyMatrix) : Prop :=
  m.m_matrix.length = m.m_networkSize ∧
  ∀ i < m.m_networkSize, (m.m_matrix.getD i []).length = m.m_networkSize

instance (m : EAGKA.KeyMatrix) : Decidable (Square m) := by
  unfold Square; infer_instance

/-- Diagonal invariant: every participant holds its own contribution. -/
def DiagonalTrue (m : EAGKA.KeyMatrix) : Prop :=
  ∀ i < m.m_networkSize, cell m.m_matrix i i = true

instance (m : EAGKA.KeyMatrix) : Decidable (DiagonalTrue m) := by
  unfold DiagonalTrue; infer_instance

/-! ### Example states -/

/-- A tree for five participants at participant 1, as the constructor builds it. -/
def exTree5 : KeyGenerationTree :=
  { m_nodeId := 1, m_leafCount := 5, m_capacity := 8, m_depth := 3, m_nodeCount := 15,
    m_owned := [false, false, false, false, false, false, true, false, true, false, false,
      false, true, true, true] }

/-- The tree for one participant after `StringToTree("0")`: its only node, leaf 0
and root at once, is not owned. -/
def exTree1 : KeyGenerationTree :=
  { m_nodeId := 0, m_leafCount := 1, m_capacity := 1, m_depth := 0, m_nodeCount := 1,
    m_owned := [false] }

/-! ### Sequences of calls on a tree -/

/-- A mutating call on a tree: `AddMultipleContributions(s)` or `MergeTree(o)`. -/
inductive TreeCall where
  | addMultiple (contributionString : List Char)
  | merge (otherTree : KeyGenerationTree)

/-- The result of one call. -/
def TreeCall.run (t : KeyGenerationTree) : TreeCall → Except Error KeyGenerationTree
  | .addMultiple s => t.AddMultipleContributions s
  | .merge o => t.MergeTree o

/-- The object after a sequence of calls. `std::invalid_argument` is thrown by
the first statement of either operation, before any write, so after such a
call the caller goes on with the object as it was; any other failure ends the run. -/
def runCalls : KeyGenerationTree → List TreeCall → Except Error KeyGenerationTree
  | t, [] => .ok t
  | t, c :: cs =>
    match c.run t with
    | .ok t1 => runCalls t1 cs
    | .error .invalid_argument => runCalls t cs
    | .error e => .error e

/-- `t1` is `t` with possibly more owned nodes: same sizes, same identity, and
every node owned in `t` is owned in `t1`. -/
def Extends (t t1 : KeyGenerationTree) : Prop :=
  t1.m_nodeId = t.m_nodeId ∧ t1.m_leafCount = t.m_leafCount ∧ t1.m_capacity = t.m_capacity ∧
  t1.m_depth = t.m_depth ∧ t1.m_nodeCount = t.m_nodeCount ∧
  t1.m_owned.length = t.m_owned.length ∧
  ∀ j, bit t.m_owned j = true → bit t1.m_owned j = true

/-- The tree of participant 0 of four, as the constructor builds it. -/
def exNode0 : KeyGenerationTree :=
  { m_nodeId := 0, m_leafCount := 4, m_capacity := 4, m_depth := 2, m_nodeCount := 7,
    m_owned := [false, false, false, true, false, false, false] }

/-- The tree of participant 3 of four, as the constructor builds it. -/
def exNode3 : KeyGenerationTree :=
  { m_nodeId := 3, m_leafCount := 4, m_capacity := 4, m_depth := 2, m_nodeCount := 7,
    m_owned := [false, false, false, false, false, false, true] }

/-- The tree of participant 1 of four after `AddContribution(2)`. -/
def exNode1 : KeyGenerationTree :=
  { m_nodeId := 1, m_leafCount := 4, m_capacity := 4, m_depth := 2, m_nodeCount := 7,
    m_owned := [false, false, false, false, true, true, false] }

/-- A sequence of calls on `exTree5`: a batch update, a merge of another tree for
five participants, a batch update with a string of the wrong length (it
throws), and a last batch update. -/
def exCalls : List TreeCall :=
  [.addMultiple ['1', '0', '0', '1', '0'],
   .merge { exTree5 with m_nodeId := 4, m_owned := [false, false, true, false, false, true,
     true, false, false, false, false, true, true, true, true] },
   .addMultiple ['1', '1'],
   .addMultiple ['0', '0', '1', '0', '0']]

/-- The number of the call of `rand()` that decides position `i` in
`KeyMatrix::GetForwardingContributions` when the gate is open: call 0 is the
gate draw, and one call is made for every earlier position that the local row
holds and the neighbor's row lacks. -/
def drawIndex (m : KeyMatrix) (NeighborId i : Nat) : Nat :=
  1 + (List.range i).countP
    (fun j => cell m.m_matrix m.m_nodeId j && !cell m.m_matrix NeighborId j)

/-- The matrix of participant 0 of three after `ReceiveKeyContribution(1)`. -/
def exMatrix1 : KeyMatrix :=
  { m_matrix := [[true, true, false], [false, true, false], [false, false, true]],
    m_networkSize := 3, m_nodeId := 0 }

/-- The matrix of participant 0 of three after `ReceiveKeyContribution(1)` and
`ReceiveKeyContribution(2)`. -/
def exMatrix2 : KeyMatrix :=
  { m_matrix := [[true, true, true], [false, true, false], [false, false, true]],
    m_networkSize := 3, m_nodeId := 0 }

/-- The argument of a call is well formed: the tree handed to `MergeTree` has the
shape the constructor builds. -/
def TreeCall.WellFormed : TreeCall → Prop
  | .addMultiple _ => True
  | .merge otherTree => EAGKA.WellFormed otherTree

/-! ## KeyMatrix: merge and serialization -/

/-- Read `s[pos]` of a `const std::string&`: the character at `pos` below
`size()`, the null character at `pos == size()`, undefined beyond that. -/
def readChar (s : List Char) (pos : Nat) : Except Error Char :=
  if pos ≤ s.length then .ok (s.getD pos (Char.ofNat 0)) else .error .undefined_behaviour

/-- Body of the loops of `MergeMatrix`: `m_matrix[i][j] = m_matrix[i][j] ||
ReceivedMatrix.m_matrix[i][j]`. The cell of the received matrix is read only
when the local cell is false; the local cell is assigned in every round. -/
def KeyMatrix.MergeMatrix.step (ReceivedMatrix : EAGKA.KeyMatrix) (mat : List (List Bool))
    (i j : Nat) : Except Error (List (List Bool)) := do
  let a ← readCell mat i j
  let v ← if a then pure true else readCell ReceivedMatrix.m_matrix i j
  writeCell mat i j v

/-- `KeyMatrix::MergeMatrix`. -/
def KeyMatrix.MergeMatrix (m ReceivedMatrix : EAGKA.KeyMatrix) : Except Error EAGKA.KeyMatrix := do
  let mat ← (List.range m.m_networkSize).foldlM (fun mat i =>
    (List.range m.m_networkSize).foldlM (fun mat j => MergeMatrix.step ReceivedMatrix mat i j)
      mat) m.m_matrix
  pure { m with m_matrix := mat }

/-- Body of the loops of `MatrixToString`: the stream prints the integer `1` or
`0` of the cell and the string is extended by it. -/
def KeyMatrix.MatrixToString.step (m : EAGKA.KeyMatrix) (matrixString : List Char) (i j : Nat) :
    Except Error (List Char) := do
  let b ← readCell m.m_matrix i j
  pure (matrixString ++ [if b then '1' else '0'])

/-- `KeyMatrix::MatrixToString`. -/
def KeyMatrix.MatrixToString (m : EAGKA.KeyMatrix) : Except Error (List Char) :=
  (List.range m.m_networkSize).foldlM (fun matrixString i =>
    (List.range m.m_networkSize).foldlM (fun matrixString j =>
      MatrixToString.step m matrixString i j) matrixString) []

/-- `KeyMatrix::KeyMatrix()`, the default constructor. -/
def KeyMatrix.KeyMatrix_default : EAGKA.KeyMatrix :=
  { m_matrix := [], m_networkSize := 0, m_nodeId := 0 }

/-- `KeyMatrix::InitializeMatrix(networkSize, nodeId)`: the matrix is resized to
`networkSize` rows of `networkSize` cells and the two loops assign `i == j` to
every cell `(i, j)`, so nothing of the cells of the object `m` is kept. -/
def KeyMatrix.InitializeMatrix (m : EAGKA.KeyMatrix) (networkSize nodeId : Nat) : EAGKA.KeyMatrix :=
  { m with
    m_matrix := (List.range networkSize).map (fun i =>
      (List.range networkSize).map (fun j => decide (i = j))),
    m_networkSize := networkSize,
    m_nodeId := nodeId }

/-- Body of the loops of `StringToMatrix`; the index `i * m_networkSize + j` is
computed in `uint32_t`. -/
def KeyMatrix.StringToMatrix.step (m : EAGKA.KeyMatrix) (matrixString : List Char)
    (mat : List (List Bool)) (i j : Nat) : Except Error (List (List Bool)) := do
  let c ← readChar matrixString ((i * m.m_networkSize + j) % U32)
  if c = '1' then writeCell mat i j true else writeCell mat i j false

/-- `KeyMatrix::StringToMatrix`; the receiver is `const` and a new matrix is returned. -/
def KeyMatrix.StringToMatrix (m : EAGKA.KeyMatrix) (matrixString : List Char) :
    Except Error EAGKA.KeyMatrix := do
  let result := InitializeMatrix KeyMatrix_default m.m_networkSize m.m_nodeId
  let mat ← (List.range m.m_networkSize).foldlM (fun mat i =>
    (List.range m.m_networkSize).foldlM (fun mat j =>
      StringToMatrix.step m matrixString mat i j) mat) result.m_matrix
  pure { result with m_matrix := mat }

/-! ## Calls that modify the tree in place -/

/-- What a call of a member function that modifies the tree leaves behind: the
object, and how the call ended. After `Error.undefined_behaviour` the object
is not defined by the language, and the component holds an arbitrary value. -/
structure InPlace where
  object : KeyGenerationTree
  outcome : Except Error Unit
  deriving DecidableEq

/-- `AddMultipleContributions` as a call on the object: the first statement
throws `std::invalid_argument` with nothing written yet; otherwise the object
is what the loops that follow make of it. -/
def KeyGenerationTree.AddMultipleContributions.inPlace (t : EAGKA.KeyGenerationTree)
    (contributionString : List Char) : InPlace :=
  if contributionString.length ≠ t.m_leafCount then
    { object := t, outcome := .error .invalid_argument }
  else
    match AddMultipleContributions t contributionString with
    | .ok t1 => { object := t1, outcome := .ok () }
    | .error e => { object := t, outcome := .error e }

/-- `StringToTree` as a call on the object: the first statement throws
`std::invalid_argument` with nothing written yet. -/
def KeyGenerationTree.StringToTree.inPlace (t : EAGKA.KeyGenerationTree)
    (treeString : List Char) : InPlace :=
  if treeString.length ≠ t.m_nodeCount then
    { object := t, outcome := .error .invalid_argument }
  else
    match StringToTree t treeString with
    | .ok t1 => { object := t1, outcome := .ok () }
    | .error e => { object := t, outcome := .error e }

/-- `MergeTree` as a call on the object: the first statement throws
`std::invalid_argument` with nothing written yet. -/
def KeyGenerationTree.MergeTree.inPlace (t otherTree : EAGKA.KeyGenerationTree) : InPlace :=
  if t.m_leafCount ≠ otherTree.m_leafCount then
    { object := t, outcome := .error .invalid_argument }
  else
    match MergeTree t otherTree with
    | .ok t1 => { object := t1, outcome := .ok () }
    | .error e => { object := t, outcome := .error e }

/-- Position-wise OR of two contribution strings: `'1'` where either has `'1'`. -/
def orStrings (a b : List Char) : List Char :=
  List.zipWith (fun x y => if x = '1' ∨ y = '1' then '1' else '0') a b

/-- `KeyMatrix::IsFull1`: `false` at the first cell, in row-major order, that is
not true; `true` after the last one. -/
def KeyMatrix.IsFull1 (m : EAGKA.KeyMatrix) : Except Error Bool :=
  allTrueM (fun i =>
    allTrueM (fun j => readCell m.m_matrix i j) (List.range m.m_networkSize))
    (List.range m.m_networkSize)

/-- A snapshot string one character longer than the nine cells of `exMatrix1`. -/
def exSnapshotLong : List Char := ['1', '1', '0', '0', '1', '0', '0', '0', '1', '1']

/-- A snapshot string one character shorter than the nine cells of `exMatrix1`. -/
def exSnapshotShort : List Char := ['1', '1', '0', '0', '1', '0', '0', '0']

/-! ## KeyMatrix: the loops of the constructor and of InitializeMatrix -/

/-- `std::vector::resize(n)`: the first `n` elements, filled up with
value-initialized ones (`d`). -/
def resize {α : Type} (l : List α) (n : Nat) (d : α) : List α :=
  l.take n ++ List.replicate (n - l.length) d

/-- One round of the outer loop of `InitializeMatrix` and of the constructor:
`m_matrix[i].resize(m_networkSize)`, then `m_matrix[i][j] = (i == j)` for every
`j < m_networkSize`. -/
def KeyMatrix.InitializeMatrix.row (networkSize : Nat) (mat : List (List Bool)) (i : Nat) :
    Except Error (List (List Bool)) :=
  if i < mat.length then
    (List.range networkSize).foldlM (fun mat j => writeCell mat i j (decide (i = j)))
      (mat.set i (resize (mat.getD i []) networkSize false))
  else .error .undefined_behaviour

/-- The statements of `InitializeMatrix` and of the constructor on the matrix:
`m_matrix.resize(m_networkSize)` followed by the two loops. The constructor
runs them on the empty matrix, `InitializeMatrix` on the matrix the object
holds. `KeyMatrix.KeyMatrix` and `InitializeMatrix` above are their result. -/
def KeyMatrix.InitializeMatrix.loops (m_matrix : List (List Bool)) (networkSize : Nat) :
    Except Error (List (List Bool)) :=
  (List.range networkSize).foldlM (fun mat i => InitializeMatrix.row networkSize mat i)
    (resize m_matrix networkSize [])

/-! ## AppReceiver: handling of a received message -/

/-- The members of `class AppReceiver` that `Receive` uses after the packet is
parsed (AdhocUdpApplication.h). -/
structure AppReceiver where
  m_nodeId : Nat
  m_networkSize : Nat
  m_isCompleted : Bool
  m_keyMatrix : KeyMatrix
  m_keyTree : KeyGenerationTree
  deriving DecidableEq

/-- Body of the loop of `AppReceiver::Receive` over the positions of the
received contribution string: `if (m_keyMatrix.HasKeyContribution(m_nodeId, i))
continue; else m_keyMatrix.ReceiveKeyContribution(i);`. -/
def AppReceiver.Receive.step (m_nodeId : Nat) (m_keyMatrix : KeyMatrix) (i : Nat) :
    Except Error KeyMatrix := do
  let has ← m_keyMatrix.HasKeyContribution m_nodeId i
  if has then pure m_keyMatrix else m_keyMatrix.ReceiveKeyContribution i

/-- The loop `for (i = 0; i < ReceivedKeyContributions.size(); i++)` of
`AppReceiver::Receive`, for a string of fewer than `2^32` characters. -/
def AppReceiver.Receive.contributions (m_nodeId : Nat) (m_keyMatrix : KeyMatrix)
    (ReceivedKeyContributions : List Char) : Except Error KeyMatrix :=
  (List.range ReceivedKeyContributions.length).foldlM
    (fun m i => Receive.step m_nodeId m i) m_keyMatrix

/-- `AppReceiver::Receive` for one packet, from the two strings parsed out of
the message up to the completion flags: the received matrix is built, the tree
takes the contribution string, the loop over its positions runs, the received
matrix is merged, and the two completeness tests set `m_isCompleted`. -/
def AppReceiver.Receive (a : AppReceiver)
    (ReceivedKeyContributions ReceivedKeyMatrixString : List Char) : Except Error AppReceiver := do
  let ReceivedMatrix ← a.m_keyMatrix.StringToMatrix ReceivedKeyMatrixString
  let tree ← a.m_keyTree.AddMultipleContributions ReceivedKeyContributions
  let mat ← Receive.contributions a.m_nodeId a.m_keyMatrix ReceivedKeyContributions
  let merged ← mat.MergeMatrix ReceivedMatrix
  let c1 ← tree.HasCompleteKey
  let c2 ← merged.SelfIsFull1
  pure { a with m_keyMatrix := merged, m_keyTree := tree,
                m_isCompleted := a.m_isCompleted || c1 || c2 }

/-- A receiver as `SetNetworkSize(3)` leaves participant 0 of three. -/
def exReceiver : AppReceiver :=
  { m_nodeId := 0, m_networkSize := 3, m_isCompleted := false,
    m_keyMatrix := KeyMatrix.KeyMatrix 3 0,
    m_keyTree := { m_nodeId := 0, m_leafCount := 3, m_capacity := 4, m_depth := 2,
                   m_nodeCount := 7,
                   m_owned := [false, false, false, true, false, false, true] } }

/-- The tree `KeyGenerationTree(2, 0)` builds: leaf 0 owned, leaf 1 and the
root not. -/
def exTree2 : KeyGenerationTree :=
  { m_nodeId := 0, m_leafCount := 2, m_capacity := 2, m_depth := 1, m_nodeCount := 3,
    m_owned := [false, true, false] }

/-! ## KeyMatrix: sequences of calls -/

/-- A mutating call on a matrix: `ReceiveKeyContribution(c)` or `MergeMatrix(r)`. -/
inductive MatrixCall where
  | receive (contributorId : Nat)
  | merge (ReceivedMatrix : KeyMatrix)

/-- The result of one call. -/
def MatrixCall.run (m : KeyMatrix) : MatrixCall → Except Error KeyMatrix
  | .receive c => m.ReceiveKeyContribution c
  | .merge r => m.MergeMatrix r

/-- The object after a sequence of calls; neither call throws, so a failure
(an index out of range) ends the run. -/
def runMatrixCalls (m : KeyMatrix) (calls : List MatrixCall) : Except Error KeyMatrix :=
  calls.foldlM (fun m1 c => c.run m1) m

/-- The argument of a call fits a matrix of `N` participants: a contributor
below `N`, resp. a received matrix of `N` rows of `N` cells. -/
def MatrixCall.WellFormed (N : Nat) : MatrixCall → Prop
  | .receive c => c < N
  | .merge r => Square r ∧ r.m_networkSize = N

/-- The matrix `StringToMatrix` builds for three participants from a string of
nine `'0'`: no cell is true, the diagonal included. -/
def exZeroMatrix : KeyMatrix :=
  { m_matrix := [[false, false, false], [false, false, false], [false, false, false]],
    m_networkSize := 3, m_nodeId := 0 }

/-- Calls of participant 0 of three: a contribution, a merge of the all-false
matrix, another contribution, a merge of `exMatrix1`. -/
def exMatrixCalls : List MatrixCall :=
  [.receive 1, .merge exZeroMatrix, .receive 2, .merge exMatrix1]

/-! ## KeyGenerationTree: the rounds of BubbleUpMerge -/

/-- The `while` loop of `BubbleUpMerge` with a record of what it does: besides
the bitmap it returns the indices `idx` for which `m_owned[idx] = true` is
executed, in the order of execution, and the number of rounds. The bitmap is
the one `BubbleUpMerge.loop` returns (`bubble_trace_spec`). -/
def KeyGenerationTree.BubbleUpMerge.trace :
    Nat → List Bool → List Nat → Except Error (List Bool × List Nat × Nat)
  | 0, owned, nodes => if nodes.isEmpty then .ok (owned, [], 0) else .error .out_of_fuel
  | fuel + 1, owned, nodes =>
    if nodes.isEmpty then .ok (owned, [], 0)
    else
      let idx := setMax nodes
      let rest := setErase nodes idx
      do
        let o ← readBit owned idx
        if o then do
          let r ← BubbleUpMerge.trace fuel owned rest
          pure (r.1, r.2.1, r.2.2 + 1)
        else do
          let both ← bothOwned owned idx
          if both then do
            let owned1 ← writeBit owned idx true
            let r ← BubbleUpMerge.trace fuel owned1
              (if idx ≠ 0 then Parent idx :: rest else rest)
            pure (r.1, idx :: r.2.1, r.2.2 + 1)
          else do
            let r ← BubbleUpMerge.trace fuel owned rest
            pure (r.1, r.2.1, r.2.2 + 1)

end EAGKA

/-! # Theorems -/

namespace EAGKA

section TreeTheorems

open KeyGenerationTree

/-! ## Bitmaps and loops -/

theorem bit_set (v : List Bool) (i j : Nat) (b : Bool) :
    bit (v.set i b) j = if i = j ∧ i < v.length then b else bit v j := by
  unfold bit
  induction v generalizing i j with
  | nil => simp
  | cons a v ih =>
    cases i with
    | zero =>
      cases j with
      | zero => simp
      | succ j => simp
    | succ i =>
      cases j with
      | zero => simp
      | succ j => simpa using ih i j

theorem bit_set_self {v : List Bool} {i : Nat} (b : Bool) (h : i < v.length) :
    bit (v.set i b) i = b := by
  simp [bit_set, h]

theorem bit_set_ne {v : List Bool} {i j : Nat} (b : Bool) (h : i ≠ j) :
    bit (v.set i b) j = bit v j := by
  simp [bit_set, h]

theorem bit_of_length_le (v : List Bool) (i : Nat) (h : v.length ≤ i) : bit v i = false := by
  unfold bit
  simp [List.getD_eq_getElem?_getD, List.getElem?_eq_none h]

theorem lt_length_of_bit {v : List Bool} {i : Nat} (h : bit v i = true) : i < v.length := by
  by_contra hn
  rw [bit_of_length_le v i (by omega)] at h
  exact Bool.false_ne_true h

theorem readBit_ok {v : List Bool} {i : Nat} (h : i < v.length) : readBit v i = .ok (bit v i) := by
  simp [readBit, h]

theorem writeBit_ok {v : List Bool} {i : Nat} (b : Bool) (h : i < v.length) :
    writeBit v i b = .ok (v.set i b) := by
  simp [writeBit, h]

theorem ok_true_iff {b : Bool} : (Except.ok b : Except Error Bool) = .ok true ↔ b = true := by
  constructor
  · intro h; injection h
  · intro h; rw [h]

/-- Loop rule for a `for (i = 0; i < n; ++i)` loop in the `Except` monad: an
invariant that every round keeps, and under which every round returns, holds
at the end, and the loop returns. -/
theorem foldlM_range_inv {σ : Type} (body : σ → Nat → Except Error σ) (P : Nat → σ → Prop)
    (n : Nat) (s0 : σ) (h0 : P 0 s0)
    (hstep : ∀ i s, i < n → P i s → ∃ s', body s i = .ok s' ∧ P (i + 1) s') :
    ∃ s', (List.range n).foldlM body s0 = .ok s' ∧ P n s' := by
  induction n with
  | zero => exact ⟨s0, by simp [pure, Except.pure], h0⟩
  | succ n ih =>
    obtain ⟨s1, h1, hP1⟩ := ih (fun i s hi hP => hstep i s (Nat.lt_succ_of_lt hi) hP)
    obtain ⟨s2, h2, hP2⟩ := hstep n s1 (Nat.lt_succ_self n) hP1
    refine ⟨s2, ?_, hP2⟩
    rw [List.range_succ, List.foldlM_append, h1]
    simp [bind, Except.bind, h2, pure, Except.pure]

/-! ## Sizes of a tree -/

theorem CeilLog2_loop_lower (fuel n l : Nat) (h : n ≤ fuel) :
    l ≤ CeilLog2.loop fuel n l ∧ n < 2 ^ (CeilLog2.loop fuel n l - l) := by
  induction fuel generalizing n l with
  | zero =>
    have : n = 0 := by omega
    subst this
    simp [CeilLog2.loop]
  | succ fuel ih =>
    unfold CeilLog2.loop
    by_cases hn : n > 0
    · simp only [hn, if_true]
      obtain ⟨h1, h2⟩ := ih (n / 2) (l + 1) (by omega)
      refine ⟨by omega, ?_⟩
      have e : CeilLog2.loop fuel (n / 2) (l + 1) - l
          = (CeilLog2.loop fuel (n / 2) (l + 1) - (l + 1)) + 1 := by omega
      rw [e, Nat.pow_succ]
      omega
    · have : n = 0 := by omega
      subst this
      simp

theorem CeilLog2_loop_upper (fuel n l k : Nat) (h : n < 2 ^ k) :
    CeilLog2.loop fuel n l ≤ l + k := by
  induction fuel generalizing n l k with
  | zero => simp [CeilLog2.loop]
  | succ fuel ih =>
    unfold CeilLog2.loop
    by_cases hn : n > 0
    · simp only [hn, if_true]
      cases k with
      | zero => simp at h; omega
      | succ k =>
        have := ih (n / 2) (l + 1) k (by rw [Nat.pow_succ] at h; omega)
        omega
    · simp [hn]

/-- The step budget of `CeilLog2.loop` is never used up: any budget of at least
`n` rounds gives the same count. -/
theorem CeilLog2_loop_budget (f1 f2 n l : Nat) (h1 : n ≤ f1) (h2 : n ≤ f2) :
    CeilLog2.loop f1 n l = CeilLog2.loop f2 n l := by
  induction f1 generalizing f2 n l with
  | zero =>
    have : n = 0 := by omega
    subst this
    cases f2 <;> simp [CeilLog2.loop]
  | succ f1 ih =>
    cases f2 with
    | zero =>
      have : n = 0 := by omega
      subst this
      simp [CeilLog2.loop]
    | succ f2 =>
      unfold CeilLog2.loop
      by_cases hn : n > 0
      · simp only [hn, if_true]
        exact ih f2 (n / 2) (l + 1) (by omega) (by omega)
      · simp [hn]

theorem le_two_pow_CeilLog2 (n : Nat) (h1 : 1 ≤ n) (h2 : n ≤ 2147483648) :
    n ≤ 2 ^ CeilLog2 n ∧ CeilLog2 n ≤ 31 := by
  have e : (n + U32 - 1) % U32 = n - 1 := by simp only [U32]; omega
  unfold CeilLog2
  rw [e]
  obtain ⟨_, hlow⟩ := CeilLog2_loop_lower (n - 1) (n - 1) 0 (Nat.le_refl _)
  have hup := CeilLog2_loop_upper (n - 1) (n - 1) 0 31 (by norm_num; omega)
  simp only [Nat.sub_zero] at hlow
  exact ⟨by omega, by omega⟩

/-- What `WellFormed` gives: the real leaves fit under the capacity, the
capacity is at most `2^31`, and the bitmap has `2 * capacity - 1` bits. -/
theorem WellFormed.shape {t : KeyGenerationTree} (h : WellFormed t) :
    1 ≤ t.m_leafCount ∧ t.m_leafCount ≤ t.m_capacity ∧ t.m_capacity ≤ 2147483648 ∧
    t.m_owned.length = 2 * t.m_capacity - 1 := by
  obtain ⟨h1, h2, hd, hc, hn, hl⟩ := h
  obtain ⟨hle, h31⟩ := le_two_pow_CeilLog2 t.m_leafCount h1 h2
  have hp : 2 ^ t.m_depth ≤ 2147483648 := by
    rw [hd]
    calc 2 ^ CeilLog2 t.m_leafCount ≤ 2 ^ 31 := Nat.pow_le_pow_right (by norm_num) h31
      _ = 2147483648 := by norm_num
  have hc2 : t.m_capacity = 2 ^ t.m_depth := by
    rw [hc]; exact Nat.mod_eq_of_lt (by simp only [U32]; omega)
  have hpos : 0 < 2 ^ t.m_depth := Nat.pow_pos (by norm_num)
  refine ⟨h1, ?_, ?_, ?_⟩
  · rw [hc2, hd]; exact hle
  · rw [hc2]; exact hp
  · rw [hl, hn]; simp only [U32]; omega

/-! ## AddMultipleContributions and BubbleUpMerge -/

theorem LeafToNodeIndex_eq {t : KeyGenerationTree} (h : WellFormed t) {i : Nat}
    (hi : i < t.m_capacity) : t.LeafToNodeIndex i = t.m_capacity - 1 + i := by
  obtain ⟨h1, h2, h3, h4⟩ := h.shape
  simp only [LeafToNodeIndex, U32]
  omega

/-- Marking loop of `AddMultipleContributions`: it returns, keeps the length,
sets exactly the marked real leaves on top of what was owned, and raises the
flag only when a marked leaf was not owned before. -/
theorem mark_spec (t : KeyGenerationTree) (s : List Char) (hwf : WellFormed t) :
    ∃ st, (List.range t.m_leafCount).foldlM (AddMultipleContributions.step t s)
        (t.m_owned, false) = .ok st ∧
      st.1.length = t.m_owned.length ∧
      (∀ j, bit st.1 j = true ↔ bit t.m_owned j = true ∨
        ∃ i < t.m_leafCount, j = t.m_capacity - 1 + i ∧ s[i]? = some '1') ∧
      (st.2 = false → st.1 = t.m_owned) ∧
      (st.2 = true → ∃ i < t.m_leafCount,
        bit t.m_owned (t.m_capacity - 1 + i) = false ∧ s[i]? = some '1') := by
  obtain ⟨h1, h2, h3, h4⟩ := hwf.shape
  refine foldlM_range_inv (AddMultipleContributions.step t s)
    (fun n st => st.1.length = t.m_owned.length ∧
      (∀ j, bit st.1 j = true ↔ bit t.m_owned j = true ∨
        ∃ i < n, j = t.m_capacity - 1 + i ∧ s[i]? = some '1') ∧
      (st.2 = false → st.1 = t.m_owned) ∧
      (st.2 = true → ∃ i < n,
        bit t.m_owned (t.m_capacity - 1 + i) = false ∧ s[i]? = some '1'))
    t.m_leafCount (t.m_owned, false) ?_ ?_
  · refine ⟨rfl, fun j => ?_, fun _ => rfl, fun h => by simp at h⟩
    simp
  · rintro i ⟨ow, fl⟩ hi ⟨hlen, hbit, hF, hT⟩
    simp only at hlen hbit hF hT
    have hidx : t.LeafToNodeIndex i = t.m_capacity - 1 + i := LeafToNodeIndex_eq hwf (by omega)
    have hlt : t.m_capacity - 1 + i < ow.length := by omega
    unfold AddMultipleContributions.step
    by_cases hs : s[i]? = some '1'
    · simp only [hs, if_true, hidx, readBit_ok hlt, bind, Except.bind]
      by_cases ho : bit ow (t.m_capacity - 1 + i) = true
      · simp only [ho, Bool.not_true, Bool.false_eq_true, if_false, pure, Except.pure]
        refine ⟨_, rfl, hlen, fun j => ?_, hF, fun h => ?_⟩
        · rw [hbit j]
          constructor
          · rintro (h | ⟨k, hk, hj, hsk⟩)
            · exact Or.inl h
            · exact Or.inr ⟨k, by omega, hj, hsk⟩
          · rintro (h | ⟨k, hk, hj, hsk⟩)
            · exact Or.inl h
            · by_cases hki : k = i
              · subst hki; subst hj
                exact (hbit _).1 ho
              · exact Or.inr ⟨k, by omega, hj, hsk⟩
        · obtain ⟨k, hk, hb, hsk⟩ := hT h
          exact ⟨k, by omega, hb, hsk⟩
      · have ho' : bit ow (t.m_capacity - 1 + i) = false := by simpa using ho
        simp only [ho', Bool.not_false, if_true, writeBit_ok true hlt, pure, Except.pure]
        refine ⟨_, rfl, by simpa using hlen, fun j => ?_, fun h => by simp at h, fun _ => ?_⟩
        · simp only [bit_set, hlt, and_true]
          by_cases hj : t.m_capacity - 1 + i = j
          · simp only [hj, if_true, true_iff]
            exact Or.inr ⟨i, by omega, hj.symm, hs⟩
          · simp only [hj, if_false]
            rw [hbit j]
            constructor
            · rintro (h | ⟨k, hk, hj', hsk⟩)
              · exact Or.inl h
              · exact Or.inr ⟨k, by omega, hj', hsk⟩
            · rintro (h | ⟨k, hk, hj', hsk⟩)
              · exact Or.inl h
              · by_cases hki : k = i
                · subst hki; exact absurd hj'.symm hj
                · exact Or.inr ⟨k, by omega, hj', hsk⟩
        · refine ⟨i, by omega, ?_, hs⟩
          by_contra hc
          have hc' : bit t.m_owned (t.m_capacity - 1 + i) = true := by simpa using hc
          have := (hbit _).2 (Or.inl hc')
          rw [ho'] at this
          exact Bool.false_ne_true this
    · simp only [hs, if_false, pure, Except.pure]
      refine ⟨_, rfl, hlen, fun j => ?_, hF, fun h => ?_⟩
      · rw [hbit j]
        constructor
        · rintro (h | ⟨k, hk, hj, hsk⟩)
          · exact Or.inl h
          · exact Or.inr ⟨k, by omega, hj, hsk⟩
        · rintro (h | ⟨k, hk, hj, hsk⟩)
          · exact Or.inl h
          · by_cases hki : k = i
            · subst hki; exact absurd hsk hs
            · exact Or.inr ⟨k, by omega, hj, hsk⟩
      · obtain ⟨k, hk, hb, hsk⟩ := hT h
        exact ⟨k, by omega, hb, hsk⟩

theorem le_setMax {nodes : List Nat} {x : Nat} (h : x ∈ nodes) : x ≤ setMax nodes := by
  induction nodes with
  | nil => simp at h
  | cons y ys ih =>
    simp only [setMax]
    rcases List.mem_cons.1 h with h | h
    · subst h; exact Nat.le_max_left _ _
    · exact Nat.le_trans (ih h) (Nat.le_max_right _ _)

theorem setMax_mem {nodes : List Nat} (h : nodes ≠ []) : setMax nodes ∈ nodes := by
  induction nodes with
  | nil => exact absurd rfl h
  | cons y ys ih =>
    simp only [setMax]
    by_cases hys : ys = []
    · subst hys; simp [setMax]
    · rcases Nat.le_total y (setMax ys) with hle | hle
      · rw [Nat.max_eq_right hle]; exact List.mem_cons_of_mem _ (ih hys)
      · rw [Nat.max_eq_left hle]; exact List.mem_cons_self _ _

theorem mem_setErase {nodes : List Nat} {idx x : Nat} :
    x ∈ setErase nodes idx ↔ x ∈ nodes ∧ x ≠ idx := by
  simp [setErase]

theorem bothOwned_ok {owned : List Bool} {cap idx : Nat} (hc : cap ≤ 2147483648)
    (hlen : owned.length = 2 * cap - 1) (hidx : idx < cap - 1) :
    bothOwned owned idx = .ok (bit owned (2 * idx + 1) && bit owned (2 * idx + 2)) := by
  have hl : LeftChild idx = 2 * idx + 1 := by simp only [LeftChild, U32]; omega
  have hr : RightChild idx = 2 * idx + 2 := by simp only [RightChild, U32]; omega
  unfold bothOwned
  rw [hl, hr, readBit_ok (by omega), readBit_ok (by omega)]
  cases bit owned (2 * idx + 1) <;> simp [bind, Except.bind, pure, Except.pure]

/-- The worklist loop of `BubbleUpMerge` on a tree of capacity at least 2, run
on a worklist of internal nodes below the budget: it returns, only adds owned
nodes, leaves the leaves alone, and ends in a state where every internal node
is owned iff both children are, when no owned internal node lacked an owned
child and every internal node with two owned children was owned or listed. -/
theorem bubble_loop_spec (cap : Nat) (hc2 : 2 ≤ cap) (hc : cap ≤ 2147483648) :
    ∀ (fuel : Nat) (owned : List Bool) (nodes : List Nat),
      owned.length = 2 * cap - 1 → (∀ x ∈ nodes, x < cap - 1 ∧ x < fuel) →
      ∃ owned', BubbleUpMerge.loop fuel owned nodes = .ok owned' ∧
        owned'.length = owned.length ∧
        (∀ j, bit owned j = true → bit owned' j = true) ∧
        (∀ j, cap - 1 ≤ j → bit owned' j = bit owned j) ∧
        ((∀ i < cap - 1, bit owned i = true →
            bit owned (2 * i + 1) = true ∧ bit owned (2 * i + 2) = true) →
         (∀ i < cap - 1, bit owned (2 * i + 1) = true → bit owned (2 * i + 2) = true →
            bit owned i = true ∨ i ∈ nodes) →
         ∀ i < cap - 1, bit owned' i = (bit owned' (2 * i + 1) && bit owned' (2 * i + 2))) := by
  intro fuel
  induction fuel with
  | zero =>
    intro owned nodes hlen hnodes
    have hnil : nodes = [] := by
      cases nodes with
      | nil => rfl
      | cons x xs => exact absurd (hnodes x (List.mem_cons_self _ _)).2 (by omega)
    subst hnil
    refine ⟨owned, by simp [BubbleUpMerge.loop], rfl, fun _ h => h, fun _ _ => rfl, ?_⟩
    intro hD hU i hi
    cases hb : bit owned i
    · cases hl : bit owned (2 * i + 1)
      · simp
      · cases hr : bit owned (2 * i + 2)
        · simp
        · rcases hU i hi hl hr with h | h
          · rw [hb] at h; exact absurd h Bool.false_ne_true
          · simp at h
    · obtain ⟨h1, h2⟩ := hD i hi hb
      simp [h1, h2]
  | succ fuel ih =>
    intro owned nodes hlen hnodes
    by_cases hnil : nodes = []
    · subst hnil
      refine ⟨owned, by simp [BubbleUpMerge.loop], rfl, fun _ h => h, fun _ _ => rfl, ?_⟩
      intro hD hU i hi
      cases hb : bit owned i
      · cases hl : bit owned (2 * i + 1)
        · simp
        · cases hr : bit owned (2 * i + 2)
          · simp
          · rcases hU i hi hl hr with h | h
            · rw [hb] at h; exact absurd h Bool.false_ne_true
            · simp at h
      · obtain ⟨h1, h2⟩ := hD i hi hb
        simp [h1, h2]
    · have hmem := setMax_mem hnil
      obtain ⟨hidx, hidxf⟩ := hnodes _ hmem
      have hrest : ∀ x ∈ setErase nodes (setMax nodes), x < cap - 1 ∧ x < setMax nodes := by
        intro x hx
        obtain ⟨hx1, hx2⟩ := mem_setErase.1 hx
        have := le_setMax hx1
        exact ⟨(hnodes x hx1).1, by omega⟩
      have hrestf : ∀ x ∈ setErase nodes (setMax nodes), x < cap - 1 ∧ x < fuel := by
        intro x hx
        obtain ⟨h1, h2⟩ := hrest x hx
        exact ⟨h1, by omega⟩
      have hempty : nodes.isEmpty = false := by
        cases nodes with
        | nil => exact absurd rfl hnil
        | cons _ _ => rfl
      have hUrest : ∀ ow : List Bool, bit ow (setMax nodes) = true ∨
          (bit ow (2 * setMax nodes + 1) && bit ow (2 * setMax nodes + 2)) = false →
          (∀ i < cap - 1, bit ow (2 * i + 1) = true → bit ow (2 * i + 2) = true →
            bit ow i = true ∨ i ∈ nodes) →
          ∀ i < cap - 1, bit ow (2 * i + 1) = true → bit ow (2 * i + 2) = true →
            bit ow i = true ∨ i ∈ setErase nodes (setMax nodes) := by
        intro ow hcase hU i hi hl hr
        rcases hU i hi hl hr with h | h
        · exact Or.inl h
        · by_cases hii : i = setMax nodes
          · subst hii
            rcases hcase with h' | h'
            · exact Or.inl h'
            · rw [hl, hr] at h'; simp at h'
          · exact Or.inr (mem_setErase.2 ⟨h, hii⟩)
      unfold BubbleUpMerge.loop
      simp only [hempty, Bool.false_eq_true, if_false, readBit_ok (show setMax nodes < owned.length by omega),
        bind, Except.bind]
      cases hb : bit owned (setMax nodes)
      · simp only [Bool.false_eq_true, if_false, bothOwned_ok hc hlen hidx]
        cases hboth : (bit owned (2 * setMax nodes + 1) && bit owned (2 * setMax nodes + 2))
        · simp only [Bool.false_eq_true, if_false]
          obtain ⟨owned', hrun, hlen', hmono, hleaf, hinv⟩ :=
            ih owned (setErase nodes (setMax nodes)) hlen hrestf
          exact ⟨owned', hrun, hlen', hmono, hleaf,
            fun hD hU => hinv hD (hUrest owned (Or.inr hboth) hU)⟩
        · simp only [if_true, writeBit_ok true (show setMax nodes < owned.length by omega)]
          have hl1 : bit owned (2 * setMax nodes + 1) = true := by
            cases h : bit owned (2 * setMax nodes + 1)
            · rw [h] at hboth; simp at hboth
            · rfl
          have hr1 : bit owned (2 * setMax nodes + 2) = true := by
            cases h : bit owned (2 * setMax nodes + 2)
            · rw [h] at hboth; simp at hboth
            · rfl
          have hnodes1 : ∀ x ∈ (if setMax nodes ≠ 0 then Parent (setMax nodes) ::
              setErase nodes (setMax nodes) else setErase nodes (setMax nodes)),
              x < cap - 1 ∧ x < fuel := by
            intro x hx
            by_cases h0 : setMax nodes = 0
            · simp only [h0, ne_eq, not_true_eq_false, if_false] at hx
              rw [h0] at hrestf
              exact hrestf x hx
            · simp only [ne_eq, h0, not_false_eq_true, if_true] at hx
              rcases List.mem_cons.1 hx with h | h
              · subst h
                simp only [Parent, U32]
                omega
              · exact hrestf x h
          have hmono1 : ∀ j, bit owned j = true → bit (owned.set (setMax nodes) true) j = true := by
            intro j hj
            rw [bit_set]
            split
            · rfl
            · exact hj
          obtain ⟨owned', hrun, hlen', hmono, hleaf, hinv⟩ :=
            ih (owned.set (setMax nodes) true) _ (by simpa using hlen) hnodes1
          refine ⟨owned', hrun, by simpa using hlen', fun j hj => hmono j (hmono1 j hj),
            fun j hj => ?_, fun hD hU => hinv ?_ ?_⟩
          · rw [hleaf j hj, bit_set_ne true (by omega)]
          · intro i hi hbi
            by_cases hii : i = setMax nodes
            · subst hii
              exact ⟨hmono1 _ hl1, hmono1 _ hr1⟩
            · rw [bit_set_ne true (Ne.symm hii)] at hbi
              obtain ⟨h1, h2⟩ := hD i hi hbi
              exact ⟨hmono1 _ h1, hmono1 _ h2⟩
          · intro i hi hl hr
            by_cases hii : i = setMax nodes
            · subst hii
              exact Or.inl (bit_set_self true (by omega))
            · by_cases hch : setMax nodes = 2 * i + 1 ∨ setMax nodes = 2 * i + 2
              · right
                have h0 : setMax nodes ≠ 0 := by omega
                simp only [ne_eq, h0, not_false_eq_true, if_true]
                refine List.mem_cons.2 (Or.inl ?_)
                simp only [Parent, U32]
                omega
              · have hne1 : setMax nodes ≠ 2 * i + 1 := fun h => hch (Or.inl h)
                have hne2 : setMax nodes ≠ 2 * i + 2 := fun h => hch (Or.inr h)
                rw [bit_set_ne true hne1] at hl
                rw [bit_set_ne true hne2] at hr
                rcases hU i hi hl hr with h | h
                · exact Or.inl (hmono1 _ h)
                · right
                  have hmem' : i ∈ setErase nodes (setMax nodes) := mem_setErase.2 ⟨h, hii⟩
                  by_cases h0 : setMax nodes = 0
                  · simp only [h0, ne_eq, not_true_eq_false, if_false]
                    rw [h0] at hmem'; exact hmem'
                  · simp only [ne_eq, h0, not_false_eq_true, if_true]
                    exact List.mem_cons_of_mem _ hmem'
      · simp only [if_true]
        obtain ⟨owned', hrun, hlen', hmono, hleaf, hinv⟩ :=
          ih owned (setErase nodes (setMax nodes)) hlen hrestf
        exact ⟨owned', hrun, hlen', hmono, hleaf,
          fun hD hU => hinv hD (hUrest owned (Or.inl hb) hU)⟩

theorem WellFormed.with_owned {t : KeyGenerationTree} (h : WellFormed t) {owned : List Bool}
    (hlen : owned.length = t.m_owned.length) : WellFormed { t with m_owned := owned } := by
  obtain ⟨h1, h2, hd, hc, hn, hl⟩ := h
  exact ⟨h1, h2, hd, hc, hn, by simpa [hlen] using hl⟩

/-- First loop of `BubbleUpMerge` on a tree of capacity at least 2: it returns
a list of internal nodes that holds the parent of every owned real leaf. -/
theorem collect_spec (t : KeyGenerationTree) (hwf : WellFormed t) (hc2 : 2 ≤ t.m_capacity) :
    ∃ nodes, BubbleUpMerge.collect t = .ok nodes ∧
      (∀ x ∈ nodes, x < t.m_capacity - 1) ∧
      (∀ i < t.m_leafCount, bit t.m_owned (t.m_capacity - 1 + i) = true →
        (t.m_capacity - 2 + i) / 2 ∈ nodes) := by
  obtain ⟨h1, h2, h3, h4⟩ := hwf.shape
  unfold BubbleUpMerge.collect
  refine foldlM_range_inv _
    (fun n nodes => (∀ x ∈ nodes, x < t.m_capacity - 1) ∧
      (∀ i < n, bit t.m_owned (t.m_capacity - 1 + i) = true →
        (t.m_capacity - 2 + i) / 2 ∈ nodes))
    t.m_leafCount [] ⟨by simp, by simp⟩ ?_
  rintro i nodes hi ⟨hin, hpar⟩
  have hidx : t.LeafToNodeIndex i = t.m_capacity - 1 + i := LeafToNodeIndex_eq hwf (by omega)
  have hp : Parent (t.m_capacity - 1 + i) = (t.m_capacity - 2 + i) / 2 := by
    simp only [Parent, U32]; omega
  simp only [hidx, readBit_ok (show t.m_capacity - 1 + i < t.m_owned.length by omega), bind,
    Except.bind, hp]
  cases hb : bit t.m_owned (t.m_capacity - 1 + i)
  · refine ⟨nodes, by simp [pure, Except.pure], hin, fun k hk hbk => ?_⟩
    by_cases hki : k = i
    · subst hki; rw [hb] at hbk; exact absurd hbk Bool.false_ne_true
    · exact hpar k (by omega) hbk
  · refine ⟨(t.m_capacity - 2 + i) / 2 :: nodes, by simp [pure, Except.pure],
      fun x hx => ?_, fun k hk hbk => ?_⟩
    · rcases List.mem_cons.1 hx with h | h
      · subst h; omega
      · exact hin x h
    · by_cases hki : k = i
      · subst hki; exact List.mem_cons_self _ _
      · exact List.mem_cons_of_mem _ (hpar k (by omega) hbk)

/-- `BubbleUpMerge` on a tree of capacity at least 2 returns; it only adds owned
nodes, does not touch the leaves, and restores invariant (a) when no owned
internal node lacks an owned child and every unowned internal node with two
owned children has an owned real leaf as a child. -/
theorem BubbleUpMerge_spec (t : KeyGenerationTree) (hwf : WellFormed t) (hc2 : 2 ≤ t.m_capacity) :
    ∃ owned', t.BubbleUpMerge = .ok { t with m_owned := owned' } ∧
      owned'.length = t.m_owned.length ∧
      (∀ j, bit t.m_owned j = true → bit owned' j = true) ∧
      (∀ j, t.m_capacity - 1 ≤ j → bit owned' j = bit t.m_owned j) ∧
      ((∀ i < t.m_capacity - 1, bit t.m_owned i = true →
          bit t.m_owned (2 * i + 1) = true ∧ bit t.m_owned (2 * i + 2) = true) →
       (∀ i < t.m_capacity - 1, bit t.m_owned (2 * i + 1) = true →
          bit t.m_owned (2 * i + 2) = true → bit t.m_owned i = true ∨
          ∃ k < t.m_leafCount, (t.m_capacity - 1 + k = 2 * i + 1 ∨ t.m_capacity - 1 + k = 2 * i + 2)) →
       InternalInv { t with m_owned := owned' }) := by
  obtain ⟨h1, h2, h3, h4⟩ := hwf.shape
  obtain ⟨nodes, hcol, hint, hpar⟩ := collect_spec t hwf hc2
  obtain ⟨owned', hrun, hlen, hmono, hleaf, hinv⟩ :=
    bubble_loop_spec t.m_capacity hc2 h3 (setMax nodes + 1) t.m_owned nodes h4
      (fun x hx => ⟨hint x hx, Nat.lt_succ_of_le (le_setMax hx)⟩)
  refine ⟨owned', ?_, hlen, hmono, hleaf, fun hD hU => ?_⟩
  · unfold BubbleUpMerge
    simp [hcol, hrun, bind, Except.bind, pure, Except.pure]
  · refine hinv hD (fun i hi hl hr => ?_)
    rcases hU i hi hl hr with h | ⟨k, hk, hkk⟩
    · exact Or.inl h
    · right
      rcases hkk with e | e
      · have := hpar k hk (by rw [e]; exact hl)
        have e2 : (t.m_capacity - 2 + k) / 2 = i := by omega
        rw [e2] at this; exact this
      · have := hpar k hk (by rw [e]; exact hr)
        have e2 : (t.m_capacity - 2 + k) / 2 = i := by omega
        rw [e2] at this; exact this

/-- `AddMultipleContributions` on a string of the right length returns, unless
the tree is the single-node tree, its node is not owned and the string marks
it. The result differs in the bitmap only: nothing owned is lost, the owned
leaves are the old ones and the marked ones, and invariant (a) is kept. -/
theorem AddMultipleContributions_spec (t : KeyGenerationTree) (s : List Char)
    (hwf : WellFormed t) (hs : s.length = t.m_leafCount)
    (hsafe : t.m_capacity = 1 → bit t.m_owned 0 = true ∨ s[0]? ≠ some '1') :
    ∃ owned', t.AddMultipleContributions s = .ok { t with m_owned := owned' } ∧
      owned'.length = t.m_owned.length ∧
      (∀ j, bit t.m_owned j = true → bit owned' j = true) ∧
      (∀ j, t.m_capacity - 1 ≤ j → (bit owned' j = true ↔ bit t.m_owned j = true ∨
        ∃ i < t.m_leafCount, j = t.m_capacity - 1 + i ∧ s[i]? = some '1')) ∧
      (InternalInv t → InternalInv { t with m_owned := owned' }) := by
  obtain ⟨h1, h2, h3, h4⟩ := hwf.shape
  obtain ⟨⟨ow, fl⟩, hrun, hlen, hbit, hF, hT⟩ := mark_spec t s hwf
  simp only at hlen hbit hF hT
  unfold AddMultipleContributions
  simp only [hs, ne_eq, not_true_eq_false, if_false, hrun, bind, Except.bind]
  cases fl with
  | false =>
    have e := hF rfl
    subst e
    refine ⟨t.m_owned, by simp [pure, Except.pure], rfl, fun _ h => h, fun j _ => hbit j,
      fun h => h⟩
  | true =>
    obtain ⟨k, hk, hkb, hks⟩ := hT rfl
    have hc2 : 2 ≤ t.m_capacity := by
      by_contra hcon
      have hc1 : t.m_capacity = 1 := by omega
      have hk0 : k = 0 := by omega
      subst hk0
      rcases hsafe hc1 with h | h
      · rw [hc1] at hkb; simp only [Nat.sub_self, Nat.zero_add] at hkb
        rw [h] at hkb; exact absurd hkb.symm Bool.false_ne_true
      · exact h hks
    have hwf1 : WellFormed { t with m_owned := ow } := hwf.with_owned hlen
    obtain ⟨owned', hB, hlen', hmono, hleaf, hinv⟩ :=
      BubbleUpMerge_spec { t with m_owned := ow } hwf1 hc2
    simp only at hB hlen' hmono hleaf hinv
    refine ⟨owned', by simpa using hB, by omega, fun j hj => hmono j ((hbit j).2 (Or.inl hj)),
      fun j hj => ?_, fun hI => hinv ?_ ?_⟩
    · rw [hleaf j hj]; exact hbit j
    · intro i hi hbi
      have hbi' : bit t.m_owned i = true := by
        rcases (hbit i).1 hbi with h | ⟨k', _, hk', _⟩
        · exact h
        · omega
      have := hI i hi
      rw [hbi'] at this
      have hl : bit t.m_owned (2 * i + 1) = true := by
        cases h : bit t.m_owned (2 * i + 1)
        · rw [h] at this; simp at this
        · rfl
      have hr : bit t.m_owned (2 * i + 2) = true := by
        cases h : bit t.m_owned (2 * i + 2)
        · rw [h] at this; simp at this
        · rfl
      exact ⟨(hbit _).2 (Or.inl hl), (hbit _).2 (Or.inl hr)⟩
    · intro i hi hl hr
      rcases (hbit _).1 hl with hl' | ⟨k', hk', hk'', _⟩
      · rcases (hbit _).1 hr with hr' | ⟨k', hk', hk'', _⟩
        · left
          have := hI i hi
          rw [hl', hr'] at this
          exact (hbit i).2 (Or.inl (by simpa using this))
        · exact Or.inr ⟨k', hk', Or.inr hk''.symm⟩
      · exact Or.inr ⟨k', hk', Or.inl hk''.symm⟩

/-- C1: on a tree built for `N ≥ 1` participants whose bitmap satisfies (a)
every internal node is owned iff both children are, (b) every padding leaf is
owned and (c) the own leaf is owned, `AddMultipleContributions` with a string
of length `N` returns, and the new state satisfies (a), (b) and (c) again. -/
theorem AddMultipleContributions_preserves_invariant (t : KeyGenerationTree) (s : List Char)
    (hwf : WellFormed t) (ha : InternalInv t) (hb : PaddingOwned t) (hc : OwnLeafOwned t)
    (hs : s.length = t.m_leafCount) :
    ∃ t', t.AddMultipleContributions s = .ok t' ∧ WellFormed t' ∧
      InternalInv t' ∧ PaddingOwned t' ∧ OwnLeafOwned t' := by
  obtain ⟨h1, h2, h3, h4⟩ := hwf.shape
  have hsafe : t.m_capacity = 1 → bit t.m_owned 0 = true ∨ s[0]? ≠ some '1' := by
    intro hc1
    left
    have hlt := lt_length_of_bit hc
    have h0 : t.LeafToNodeIndex t.m_nodeId = 0 := by omega
    unfold OwnLeafOwned at hc
    rw [h0] at hc
    exact hc
  obtain ⟨owned', hrun, hlen, hmono, _, hinv⟩ := AddMultipleContributions_spec t s hwf hs hsafe
  refine ⟨_, hrun, hwf.with_owned hlen, hinv ha, ?_, ?_⟩
  · intro leaf hl hN
    exact hmono _ (hb leaf hl hN)
  · exact hmono _ hc

theorem AddMultipleContributions_preserves_invariant_witness :
    ∃ t', exTree5.AddMultipleContributions ['1', '0', '0', '1', '1'] = .ok t' ∧ WellFormed t' ∧
      InternalInv t' ∧ PaddingOwned t' ∧ OwnLeafOwned t' :=
  AddMultipleContributions_preserves_invariant exTree5 ['1', '0', '0', '1', '1']
    (by decide) (by decide) (by decide) (by decide) (by decide)

/-! ## Completeness -/

theorem HasCompleteKey_eq {t : KeyGenerationTree} (hwf : WellFormed t) :
    t.HasCompleteKey = .ok (bit t.m_owned 0) := by
  obtain ⟨h1, h2, h3, h4⟩ := hwf.shape
  exact readBit_ok (by omega)

theorem HasContribution_eq {t : KeyGenerationTree} (hwf : WellFormed t) {i : Nat}
    (hi : i < t.m_leafCount) :
    t.HasContribution i = .ok (bit t.m_owned (t.m_capacity - 1 + i)) := by
  obtain ⟨h1, h2, h3, h4⟩ := hwf.shape
  unfold HasContribution
  rw [if_neg (by omega), LeafToNodeIndex_eq hwf (by omega)]
  exact readBit_ok (by omega)

theorem GetContributionCount_eq {t : KeyGenerationTree} (hwf : WellFormed t) :
    t.GetContributionCount = .ok ((List.range t.m_leafCount).countP
      (fun i => bit t.m_owned (t.m_capacity - 1 + i))) := by
  obtain ⟨h1, h2, h3, h4⟩ := hwf.shape
  unfold GetContributionCount
  obtain ⟨c, hc, hP⟩ := foldlM_range_inv
    (fun count i => do
      let o ← readBit t.m_owned (t.LeafToNodeIndex i)
      if o then pure (count + 1) else pure count)
    (fun n c => c = (List.range n).countP (fun i => bit t.m_owned (t.m_capacity - 1 + i)))
    t.m_leafCount 0 (by simp) (by
      intro i c hi hc
      subst hc
      have hidx : t.LeafToNodeIndex i = t.m_capacity - 1 + i := LeafToNodeIndex_eq hwf (by omega)
      have hrd := readBit_ok (show t.m_capacity - 1 + i < t.m_owned.length by omega)
      simp only [hidx, hrd, bind, Except.bind, List.range_succ, List.countP_append,
        List.countP_cons, List.countP_nil, Nat.zero_add]
      cases bit t.m_owned (t.m_capacity - 1 + i) <;> simp [pure, Except.pure])
  rw [hc, hP]

/-- Under invariants (a) and (b) the root is owned iff every real leaf is. -/
theorem root_owned_iff {t : KeyGenerationTree} (hwf : WellFormed t) (ha : InternalInv t)
    (hb : PaddingOwned t) :
    bit t.m_owned 0 = true ↔ ∀ i < t.m_leafCount, bit t.m_owned (t.m_capacity - 1 + i) = true := by
  obtain ⟨h1, h2, h3, h4⟩ := hwf.shape
  have hchild : ∀ p < t.m_capacity - 1, bit t.m_owned p = true →
      bit t.m_owned (2 * p + 1) = true ∧ bit t.m_owned (2 * p + 2) = true := by
    intro p hp hbp
    have := ha p hp
    rw [hbp] at this
    cases hl : bit t.m_owned (2 * p + 1)
    · rw [hl] at this; simp at this
    · cases hr : bit t.m_owned (2 * p + 2)
      · rw [hl, hr] at this; simp at this
      · exact ⟨rfl, rfl⟩
  constructor
  · intro hroot
    have hall : ∀ j, j < 2 * t.m_capacity - 1 → bit t.m_owned j = true := by
      intro j
      induction j using Nat.strong_induction_on with
      | _ j ih =>
        intro hj
        by_cases h0 : j = 0
        · subst h0; exact hroot
        · have hp := ih ((j - 1) / 2) (by omega) (by omega)
          obtain ⟨hl, hr⟩ := hchild ((j - 1) / 2) (by omega) hp
          rcases Nat.mod_two_eq_zero_or_one j with hm | hm
          · have e : 2 * ((j - 1) / 2) + 2 = j := by omega
            rw [e] at hr; exact hr
          · have e : 2 * ((j - 1) / 2) + 1 = j := by omega
            rw [e] at hl; exact hl
    intro i hi
    exact hall _ (by omega)
  · intro hleaves
    have hall : ∀ k j, 2 * t.m_capacity - 1 - j ≤ k → j < 2 * t.m_capacity - 1 →
        bit t.m_owned j = true := by
      intro k
      induction k with
      | zero => intro j h1 h2; omega
      | succ k ih =>
        intro j hk hj
        by_cases hleaf : t.m_capacity - 1 ≤ j
        · by_cases hreal : j - (t.m_capacity - 1) < t.m_leafCount
          · have := hleaves _ hreal
            have e : t.m_capacity - 1 + (j - (t.m_capacity - 1)) = j := by omega
            rw [e] at this; exact this
          · have := hb (j - (t.m_capacity - 1)) (by omega) (by omega)
            have e : t.m_capacity - 1 + (j - (t.m_capacity - 1)) = j := by omega
            rw [e] at this; exact this
        · have hl := ih (2 * j + 1) (by omega) (by omega)
          have hr := ih (2 * j + 2) (by omega) (by omega)
          rw [ha j (by omega), hl, hr]; rfl
    exact hall _ _ (Nat.le_refl _) (by omega)

/-- The equivalence of C2: on a state satisfying invariants (a) and (b),
`HasCompleteKey()` is true iff `HasContribution(i)` is true for every `i < N`,
iff `GetContributionCount()` is `N`. -/
theorem HasCompleteKey_iff_all_contributions (t : KeyGenerationTree) (hwf : WellFormed t)
    (ha : InternalInv t) (hb : PaddingOwned t) :
    (t.HasCompleteKey = .ok true ↔ ∀ i < t.m_leafCount, t.HasContribution i = .ok true) ∧
    (t.HasCompleteKey = .ok true ↔ t.GetContributionCount = .ok t.m_leafCount) := by
  have hroot := root_owned_iff hwf ha hb
  have e1 : t.HasCompleteKey = .ok true ↔ bit t.m_owned 0 = true := by
    rw [HasCompleteKey_eq hwf]
    constructor
    · intro h; injection h
    · intro h; rw [h]
  have e2 : (∀ i < t.m_leafCount, t.HasContribution i = .ok true) ↔
      ∀ i < t.m_leafCount, bit t.m_owned (t.m_capacity - 1 + i) = true := by
    constructor
    · intro h i hi
      have := h i hi
      rw [HasContribution_eq hwf hi] at this
      injection this
    · intro h i hi
      rw [HasContribution_eq hwf hi, h i hi]
  have e3 : t.GetContributionCount = .ok t.m_leafCount ↔
      ∀ i < t.m_leafCount, bit t.m_owned (t.m_capacity - 1 + i) = true := by
    rw [GetContributionCount_eq hwf]
    constructor
    · intro h i hi
      have h' : (List.range t.m_leafCount).countP
          (fun i => bit t.m_owned (t.m_capacity - 1 + i)) = (List.range t.m_leafCount).length := by
        injection h with h; simpa using h
      exact (List.countP_eq_length.1 h') i (List.mem_range.2 hi)
    · intro h
      have h' : (List.range t.m_leafCount).countP
          (fun i => bit t.m_owned (t.m_capacity - 1 + i)) = (List.range t.m_leafCount).length :=
        List.countP_eq_length.2 (fun i hi => h i (List.mem_range.1 hi))
      rw [h']; simp
  exact ⟨by rw [e1, e2]; exact hroot, by rw [e1, e3]; exact hroot⟩

theorem HasCompleteKey_iff_all_contributions_witness :
    (exTree5.HasCompleteKey = .ok true ↔ ∀ i < exTree5.m_leafCount,
      exTree5.HasContribution i = .ok true) ∧
    (exTree5.HasCompleteKey = .ok true ↔ exTree5.GetContributionCount = .ok exTree5.m_leafCount) :=
  HasCompleteKey_iff_all_contributions exTree5 (by decide) (by decide) (by decide)

/-- After `AddMultipleContributions` with a string that marks every position,
on a state satisfying (a) and (b) on which the call is defined, the key is complete. -/
theorem AddMultipleContributions_all_ones_complete (t : KeyGenerationTree) (hwf : WellFormed t)
    (ha : InternalInv t) (hb : PaddingOwned t)
    (hsafe : t.m_capacity = 1 → bit t.m_owned 0 = true) :
    ∃ t', t.AddMultipleContributions (List.replicate t.m_leafCount '1') = .ok t' ∧
      t'.HasCompleteKey = .ok true := by
  obtain ⟨owned', hrun, hlen, hmono, hleaf, hinv⟩ :=
    AddMultipleContributions_spec t (List.replicate t.m_leafCount '1') hwf (by simp)
      (fun h => Or.inl (hsafe h))
  have hwf' := hwf.with_owned hlen
  refine ⟨_, hrun, ?_⟩
  rw [HasCompleteKey_eq hwf']
  have hb' : PaddingOwned { t with m_owned := owned' } := fun leaf hl hN => hmono _ (hb leaf hl hN)
  have := (root_owned_iff hwf' (hinv ha) hb').2 (fun i hi => by
    refine (hleaf _ (by simp)).2 (Or.inr ⟨i, hi, rfl, ?_⟩)
    simp [List.getElem?_replicate, hi])
  simp only at this
  rw [this]

/-! ## Monotonicity -/

/-- Loop rule for results: a property that every returning round keeps holds
of the result of a loop that returns. -/
theorem foldlM_ok_inv {σ α : Type} (body : σ → α → Except Error σ) (P : σ → Prop)
    (hstep : ∀ a s s1, P s → body s a = .ok s1 → P s1) :
    ∀ (l : List α) (s0 s1 : σ), P s0 → l.foldlM body s0 = .ok s1 → P s1 := by
  intro l
  induction l with
  | nil =>
    intro s0 s1 h0 hrun
    simp only [List.foldlM_nil, pure, Except.pure] at hrun
    injection hrun with e
    rw [← e]; exact h0
  | cons a l ih =>
    intro s0 s1 h0 hrun
    rw [List.foldlM_cons] at hrun
    cases hb : body s0 a with
    | error e => rw [hb] at hrun; simp [bind, Except.bind] at hrun
    | ok s => 
      rw [hb] at hrun
      exact ih s s1 (hstep a s0 s h0 hb) (by simpa [bind, Except.bind] using hrun)

theorem writeBit_true_mono {v v1 : List Bool} {i : Nat} (h : writeBit v i true = .ok v1) :
    v1.length = v.length ∧ ∀ j, bit v j = true → bit v1 j = true := by
  unfold writeBit at h
  split at h
  · injection h with e
    subst e
    refine ⟨by simp, fun j hj => ?_⟩
    rw [bit_set]
    split
    · rfl
    · exact hj
  · simp at h

theorem bubble_loop_mono : ∀ (fuel : Nat) (owned : List Bool) (nodes : List Nat)
    (owned1 : List Bool), BubbleUpMerge.loop fuel owned nodes = .ok owned1 →
    owned1.length = owned.length ∧ ∀ j, bit owned j = true → bit owned1 j = true := by
  intro fuel
  induction fuel with
  | zero =>
    intro owned nodes owned1 h
    unfold BubbleUpMerge.loop at h
    split at h
    · injection h with e; subst e; exact ⟨rfl, fun _ hj => hj⟩
    · simp at h
  | succ fuel ih =>
    intro owned nodes owned1 h
    unfold BubbleUpMerge.loop at h
    split at h
    · injection h with e; subst e; exact ⟨rfl, fun _ hj => hj⟩
    · simp only [bind, Except.bind] at h
      cases hrd : readBit owned (setMax nodes) with
      | error e => rw [hrd] at h; simp at h
      | ok o =>
        rw [hrd] at h
        simp only at h
        cases o with
        | true => simp only [if_true] at h; exact ih _ _ _ h
        | false =>
          simp only [Bool.false_eq_true, if_false] at h
          cases hbo : bothOwned owned (setMax nodes) with
          | error e => rw [hbo] at h; simp at h
          | ok both =>
            rw [hbo] at h
            simp only at h
            cases both with
            | false => simp only [Bool.false_eq_true, if_false] at h; exact ih _ _ _ h
            | true =>
              simp only [if_true] at h
              cases hw : writeBit owned (setMax nodes) true with
              | error e => rw [hw] at h; simp at h
              | ok ow =>
                rw [hw] at h
                simp only at h
                obtain ⟨hl1, hm1⟩ := writeBit_true_mono hw
                obtain ⟨hl2, hm2⟩ := ih _ _ _ h
                exact ⟨by omega, fun j hj => hm2 j (hm1 j hj)⟩

theorem Extends.refl (t : KeyGenerationTree) : Extends t t :=
  ⟨rfl, rfl, rfl, rfl, rfl, rfl, fun _ h => h⟩

theorem Extends.trans {t t1 t2 : KeyGenerationTree} (h1 : Extends t t1) (h2 : Extends t1 t2) :
    Extends t t2 := by
  obtain ⟨a1, a2, a3, a4, a5, a6, a7⟩ := h1
  obtain ⟨b1, b2, b3, b4, b5, b6, b7⟩ := h2
  exact ⟨by omega, by omega, by omega, by omega, by omega, by omega, fun j hj => b7 j (a7 j hj)⟩

theorem BubbleUpMerge_extends {t t1 : KeyGenerationTree} (h : t.BubbleUpMerge = .ok t1) :
    Extends t t1 := by
  unfold BubbleUpMerge at h
  simp only [bind, Except.bind] at h
  cases hc : BubbleUpMerge.collect t with
  | error e => rw [hc] at h; simp at h
  | ok nodes =>
    rw [hc] at h
    simp only at h
    cases hl : BubbleUpMerge.loop (setMax nodes + 1) t.m_owned nodes with
    | error e => rw [hl] at h; simp at h
    | ok owned =>
      rw [hl] at h
      simp only [pure, Except.pure] at h
      injection h with e
      subst e
      obtain ⟨h1, h2⟩ := bubble_loop_mono _ _ _ _ hl
      exact ⟨rfl, rfl, rfl, rfl, rfl, h1, h2⟩

theorem mark_step_mono (t : KeyGenerationTree) (s : List Char) (i : Nat)
    (st st1 : List Bool × Bool) (h : AddMultipleContributions.step t s st i = .ok st1) :
    st1.1.length = st.1.length ∧ ∀ j, bit st.1 j = true → bit st1.1 j = true := by
  unfold AddMultipleContributions.step at h
  split at h
  · simp only [bind, Except.bind] at h
    cases hrd : readBit st.1 (t.LeafToNodeIndex i) with
    | error e => rw [hrd] at h; simp at h
    | ok o =>
      rw [hrd] at h
      simp only at h
      cases o with
      | true =>
        simp only [Bool.not_true, Bool.false_eq_true, if_false, pure, Except.pure] at h
        injection h with e; subst e; exact ⟨rfl, fun _ hj => hj⟩
      | false =>
        simp only [Bool.not_false, if_true] at h
        cases hw : writeBit st.1 (t.LeafToNodeIndex i) true with
        | error e => rw [hw] at h; simp at h
        | ok ow =>
          rw [hw] at h
          simp only [pure, Except.pure] at h
          injection h with e; subst e
          exact writeBit_true_mono hw
  · simp only [pure, Except.pure] at h
    injection h with e; subst e; exact ⟨rfl, fun _ hj => hj⟩

theorem AddMultipleContributions_extends {t t1 : KeyGenerationTree} {s : List Char}
    (h : t.AddMultipleContributions s = .ok t1) : Extends t t1 := by
  unfold AddMultipleContributions at h
  split at h
  · simp at h
  · simp only [bind, Except.bind] at h
    cases hm : (List.range t.m_leafCount).foldlM (AddMultipleContributions.step t s)
        (t.m_owned, false) with
    | error e => rw [hm] at h; simp at h
    | ok st =>
      rw [hm] at h
      simp only at h
      have hP := foldlM_ok_inv (AddMultipleContributions.step t s)
        (fun st => st.1.length = t.m_owned.length ∧ ∀ j, bit t.m_owned j = true → bit st.1 j = true)
        (fun a s0 s1 hs hb => by
          obtain ⟨h1, h2⟩ := mark_step_mono t s a s0 s1 hb
          exact ⟨by omega, fun j hj => h2 j (hs.2 j hj)⟩)
        _ _ _ ⟨rfl, fun _ hj => hj⟩ hm
      have hE : Extends t { t with m_owned := st.1 } := ⟨rfl, rfl, rfl, rfl, rfl, hP.1, hP.2⟩
      split at h
      · exact hE.trans (BubbleUpMerge_extends h)
      · simp only [pure, Except.pure] at h
        injection h with e; subst e; exact hE

theorem climb_mono : ∀ (fuel : Nat) (owned : List Bool) (idx : Nat) (owned1 : List Bool),
    AddContribution.climb fuel owned idx = .ok owned1 →
    owned1.length = owned.length ∧ ∀ j, bit owned j = true → bit owned1 j = true := by
  intro fuel
  induction fuel with
  | zero =>
    intro owned idx owned1 h
    unfold AddContribution.climb at h
    split at h
    · injection h with e; subst e; exact ⟨rfl, fun _ hj => hj⟩
    · simp at h
  | succ fuel ih =>
    intro owned idx owned1 h
    unfold AddContribution.climb at h
    split at h
    · injection h with e; subst e; exact ⟨rfl, fun _ hj => hj⟩
    · simp only [bind, Except.bind] at h
      cases hrd : readBit owned (Parent idx) with
      | error e => rw [hrd] at h; simp at h
      | ok o =>
        rw [hrd] at h
        simp only at h
        cases o with
        | true =>
          simp only [if_true, pure, Except.pure] at h
          injection h with e; subst e; exact ⟨rfl, fun _ hj => hj⟩
        | false =>
          simp only [Bool.false_eq_true, if_false] at h
          cases hbo : bothOwned owned (Parent idx) with
          | error e => rw [hbo] at h; simp at h
          | ok both =>
            rw [hbo] at h
            simp only at h
            cases both with
            | false =>
              simp only [Bool.false_eq_true, if_false, pure, Except.pure] at h
              injection h with e; subst e; exact ⟨rfl, fun _ hj => hj⟩
            | true =>
              simp only [if_true] at h
              cases hw : writeBit owned (Parent idx) true with
              | error e => rw [hw] at h; simp at h
              | ok ow =>
                rw [hw] at h
                simp only at h
                obtain ⟨hl1, hm1⟩ := writeBit_true_mono hw
                obtain ⟨hl2, hm2⟩ := ih _ _ _ h
                exact ⟨by omega, fun j hj => hm2 j (hm1 j hj)⟩

theorem AddContribution_extends {t t1 : KeyGenerationTree} {c : Nat}
    (h : t.AddContribution c = .ok t1) : Extends t t1 := by
  unfold AddContribution at h
  split at h
  · simp at h
  · simp only [bind, Except.bind] at h
    cases hrd : readBit t.m_owned (t.LeafToNodeIndex c) with
    | error e => rw [hrd] at h; simp at h
    | ok o =>
      rw [hrd] at h
      simp only at h
      cases o with
      | true =>
        simp only [if_true, pure, Except.pure] at h
        injection h with e; subst e; exact Extends.refl t
      | false =>
        simp only [Bool.false_eq_true, if_false] at h
        cases hw : writeBit t.m_owned (t.LeafToNodeIndex c) true with
        | error e => rw [hw] at h; simp at h
        | ok ow =>
          rw [hw] at h
          simp only at h
          cases hcl : AddContribution.climb (t.LeafToNodeIndex c) ow (t.LeafToNodeIndex c) with
          | error e => rw [hcl] at h; simp at h
          | ok ow2 =>
            rw [hcl] at h
            simp only [pure, Except.pure] at h
            injection h with e; subst e
            obtain ⟨hl1, hm1⟩ := writeBit_true_mono hw
            obtain ⟨hl2, hm2⟩ := climb_mono _ _ _ _ hcl
            exact ⟨rfl, rfl, rfl, rfl, rfl, by simp only; omega, fun j hj => hm2 j (hm1 j hj)⟩

theorem MergeTree_extends {t o t1 : KeyGenerationTree} (h : t.MergeTree o = .ok t1) :
    Extends t t1 := by
  unfold MergeTree at h
  split at h
  · simp at h
  · refine foldlM_ok_inv _ (fun cur => Extends t cur) (fun i cur cur1 hc hb => ?_) _ _ _
      (Extends.refl t) h
    simp only [bind, Except.bind] at hb
    cases hh : o.HasContribution i with
    | error e => rw [hh] at hb; simp at hb
    | ok b =>
      rw [hh] at hb
      simp only at hb
      cases b with
      | true => simp only [if_true] at hb; exact hc.trans (AddContribution_extends hb)
      | false =>
        simp only [Bool.false_eq_true, if_false, pure, Except.pure] at hb
        injection hb with e; subst e; exact hc

theorem runCalls_extends : ∀ (calls : List TreeCall) (t t1 : KeyGenerationTree),
    runCalls t calls = .ok t1 → Extends t t1 := by
  intro calls
  induction calls with
  | nil =>
    intro t t1 h
    simp only [runCalls] at h
    injection h with e; subst e; exact Extends.refl t
  | cons c cs ih =>
    intro t t1 h
    simp only [runCalls] at h
    cases hc : c.run t with
    | ok t2 =>
      rw [hc] at h
      simp only at h
      have h2 : Extends t t2 := by
        cases c with
        | addMultiple s => exact AddMultipleContributions_extends hc
        | merge o => exact MergeTree_extends hc
      exact h2.trans (ih _ _ h)
    | error e =>
      rw [hc] at h
      cases e with
      | invalid_argument => exact ih _ _ h
      | out_of_range => simp at h
      | undefined_behaviour => simp at h
      | out_of_fuel => simp at h

theorem Extends.hasContribution {t t1 : KeyGenerationTree} (h : Extends t t1) {i : Nat}
    (hi : t.HasContribution i = .ok true) : t1.HasContribution i = .ok true := by
  obtain ⟨_, a2, a3, _, _, a6, a7⟩ := h
  unfold HasContribution at hi ⊢
  rw [a2]
  split
  · rename_i hge; rw [if_pos hge] at hi; simp at hi
  · rename_i hge
    rw [if_neg hge] at hi
    have e : t1.LeafToNodeIndex i = t.LeafToNodeIndex i := by simp [LeafToNodeIndex, a3]
    rw [e]
    unfold readBit at hi ⊢
    split at hi
    · injection hi with hb
      rw [if_pos (by omega), a7 _ hb]
    · simp at hi

theorem Extends.hasCompleteKey {t t1 : KeyGenerationTree} (h : Extends t t1)
    (hc : t.HasCompleteKey = .ok true) : t1.HasCompleteKey = .ok true := by
  obtain ⟨_, _, _, _, _, a6, a7⟩ := h
  unfold HasCompleteKey readBit at hc ⊢
  split at hc
  · injection hc with hb
    rw [if_pos (by omega), a7 _ hb]
  · simp at hc

/-! ## AddContribution and MergeTree -/

theorem inv_of_down_up {owned : List Bool} {cap : Nat}
    (hD : ∀ i < cap - 1, bit owned i = true →
      bit owned (2 * i + 1) = true ∧ bit owned (2 * i + 2) = true)
    (hU : ∀ i < cap - 1, bit owned (2 * i + 1) = true → bit owned (2 * i + 2) = true →
      bit owned i = true) :
    ∀ i < cap - 1, bit owned i = (bit owned (2 * i + 1) && bit owned (2 * i + 2)) := by
  intro i hi
  cases hb : bit owned i
  · cases hl : bit owned (2 * i + 1)
    · simp
    · cases hr : bit owned (2 * i + 2)
      · simp
      · have := hU i hi hl hr
        rw [hb] at this; exact absurd this Bool.false_ne_true
  · obtain ⟨h1, h2⟩ := hD i hi hb
    simp [h1, h2]

theorem down_of_inv {owned : List Bool} {cap : Nat}
    (h : ∀ i < cap - 1, bit owned i = (bit owned (2 * i + 1) && bit owned (2 * i + 2))) :
    ∀ i < cap - 1, bit owned i = true →
      bit owned (2 * i + 1) = true ∧ bit owned (2 * i + 2) = true := by
  intro i hi hb
  have := h i hi
  rw [hb] at this
  cases hl : bit owned (2 * i + 1)
  · rw [hl] at this; simp at this
  · cases hr : bit owned (2 * i + 2)
    · rw [hl, hr] at this; simp at this
    · exact ⟨rfl, rfl⟩

theorem up_of_inv {owned : List Bool} {cap : Nat}
    (h : ∀ i < cap - 1, bit owned i = (bit owned (2 * i + 1) && bit owned (2 * i + 2))) :
    ∀ i < cap - 1, bit owned (2 * i + 1) = true → bit owned (2 * i + 2) = true →
      bit owned i = true := by
  intro i hi hl hr
  rw [h i hi, hl, hr]; rfl

/-- The walk of `AddContribution` from node `idx` towards the root: it returns,
only adds owned internal nodes, and ends in a state satisfying invariant (a)
when the parent of `idx` was the only node that could violate it. -/
theorem climb_spec (cap : Nat) (hc : cap ≤ 2147483648) :
    ∀ (fuel : Nat) (owned : List Bool) (idx : Nat),
      owned.length = 2 * cap - 1 → idx < 2 * cap - 1 → idx ≤ fuel →
      ∃ owned', AddContribution.climb fuel owned idx = .ok owned' ∧
        owned'.length = owned.length ∧
        (∀ j, bit owned j = true → bit owned' j = true) ∧
        (∀ j, cap - 1 ≤ j → bit owned' j = bit owned j) ∧
        ((∀ i < cap - 1, bit owned i = true →
            bit owned (2 * i + 1) = true ∧ bit owned (2 * i + 2) = true) →
         (∀ i < cap - 1, bit owned (2 * i + 1) = true → bit owned (2 * i + 2) = true →
            bit owned i = true ∨ (idx ≠ 0 ∧ i = (idx - 1) / 2)) →
         ∀ i < cap - 1, bit owned' i = (bit owned' (2 * i + 1) && bit owned' (2 * i + 2))) := by
  intro fuel
  induction fuel with
  | zero =>
    intro owned idx hlen hidx hf
    have h0 : idx = 0 := by omega
    subst h0
    refine ⟨owned, by simp [AddContribution.climb], rfl, fun _ h => h, fun _ _ => rfl, ?_⟩
    intro hD hU
    exact inv_of_down_up hD (fun i hi hl hr => by
      rcases hU i hi hl hr with h | ⟨h, _⟩
      · exact h
      · exact absurd rfl h)
  | succ fuel ih =>
    intro owned idx hlen hidx hf
    unfold AddContribution.climb
    by_cases h0 : idx = 0
    · subst h0
      refine ⟨owned, by simp, rfl, fun _ h => h, fun _ _ => rfl, ?_⟩
      intro hD hU
      exact inv_of_down_up hD (fun i hi hl hr => by
        rcases hU i hi hl hr with h | ⟨h, _⟩
        · exact h
        · exact absurd rfl h)
    · have hp : Parent idx = (idx - 1) / 2 := by simp only [Parent, U32]; omega
      have hpi : (idx - 1) / 2 < cap - 1 := by omega
      simp only [h0, if_false, hp, readBit_ok (show (idx - 1) / 2 < owned.length by omega), bind,
        Except.bind]
      cases hb : bit owned ((idx - 1) / 2)
      · simp only [Bool.false_eq_true, if_false, bothOwned_ok hc hlen hpi]
        cases hboth : (bit owned (2 * ((idx - 1) / 2) + 1) && bit owned (2 * ((idx - 1) / 2) + 2))
        · simp only [Bool.false_eq_true, if_false, pure, Except.pure]
          refine ⟨owned, rfl, rfl, fun _ h => h, fun _ _ => rfl, ?_⟩
          intro hD hU
          exact inv_of_down_up hD (fun i hi hl hr => by
            rcases hU i hi hl hr with h | ⟨_, h⟩
            · exact h
            · subst h; rw [hl, hr] at hboth; simp at hboth)
        · simp only [if_true, writeBit_ok true (show (idx - 1) / 2 < owned.length by omega)]
          have hl1 : bit owned (2 * ((idx - 1) / 2) + 1) = true := by
            cases h : bit owned (2 * ((idx - 1) / 2) + 1)
            · rw [h] at hboth; simp at hboth
            · rfl
          have hr1 : bit owned (2 * ((idx - 1) / 2) + 2) = true := by
            cases h : bit owned (2 * ((idx - 1) / 2) + 2)
            · rw [h] at hboth; simp at hboth
            · rfl
          have hmono1 : ∀ j, bit owned j = true →
              bit (owned.set ((idx - 1) / 2) true) j = true := by
            intro j hj
            rw [bit_set]
            split
            · rfl
            · exact hj
          obtain ⟨owned', hrun, hlen', hmono, hleaf, hinv⟩ :=
            ih (owned.set ((idx - 1) / 2) true) ((idx - 1) / 2) (by simpa using hlen)
              (by omega) (by omega)
          refine ⟨owned', hrun, by simpa using hlen', fun j hj => hmono j (hmono1 j hj),
            fun j hj => ?_, fun hD hU => hinv ?_ ?_⟩
          · rw [hleaf j hj, bit_set_ne true (by omega)]
          · intro i hi hbi
            by_cases hii : i = (idx - 1) / 2
            · subst hii
              exact ⟨hmono1 _ hl1, hmono1 _ hr1⟩
            · rw [bit_set_ne true (Ne.symm hii)] at hbi
              obtain ⟨h1, h2⟩ := hD i hi hbi
              exact ⟨hmono1 _ h1, hmono1 _ h2⟩
          · intro i hi hl hr
            by_cases hii : i = (idx - 1) / 2
            · subst hii
              exact Or.inl (bit_set_self true (by omega))
            · by_cases hch : (idx - 1) / 2 = 2 * i + 1 ∨ (idx - 1) / 2 = 2 * i + 2
              · right
                exact ⟨by omega, by omega⟩
              · have hne1 : (idx - 1) / 2 ≠ 2 * i + 1 := fun h => hch (Or.inl h)
                have hne2 : (idx - 1) / 2 ≠ 2 * i + 2 := fun h => hch (Or.inr h)
                rw [bit_set_ne true hne1] at hl
                rw [bit_set_ne true hne2] at hr
                rcases hU i hi hl hr with h | ⟨_, h⟩
                · exact Or.inl (hmono1 _ h)
                · exact absurd h hii
      · simp only [if_true, pure, Except.pure]
        refine ⟨owned, rfl, rfl, fun _ h => h, fun _ _ => rfl, ?_⟩
        intro hD hU
        exact inv_of_down_up hD (fun i hi hl hr => by
          rcases hU i hi hl hr with h | ⟨_, h⟩
          · exact h
          · subst h; exact hb)

/-- `AddContribution(c)` for `c < N` returns; the result differs in the bitmap
only, nothing owned is lost, leaf `c` is the only leaf that can change, and
invariant (a) is kept. -/
theorem AddContribution_spec (t : KeyGenerationTree) (c : Nat) (hwf : WellFormed t)
    (hcN : c < t.m_leafCount) :
    ∃ owned', t.AddContribution c = .ok { t with m_owned := owned' } ∧
      owned'.length = t.m_owned.length ∧
      (∀ j, bit t.m_owned j = true → bit owned' j = true) ∧
      (∀ j, t.m_capacity - 1 ≤ j →
        (bit owned' j = true ↔ bit t.m_owned j = true ∨ j = t.m_capacity - 1 + c)) ∧
      (bit t.m_owned (t.m_capacity - 1 + c) = true → owned' = t.m_owned) ∧
      (InternalInv t → InternalInv { t with m_owned := owned' }) := by
  obtain ⟨h1, h2, h3, h4⟩ := hwf.shape
  have hidx : t.LeafToNodeIndex c = t.m_capacity - 1 + c := LeafToNodeIndex_eq hwf (by omega)
  have hlt : t.m_capacity - 1 + c < t.m_owned.length := by omega
  unfold AddContribution
  simp only [ge_iff_le, Nat.not_le.2 hcN, if_false, hidx, readBit_ok hlt, bind, Except.bind]
  cases hb : bit t.m_owned (t.m_capacity - 1 + c)
  · simp only [Bool.false_eq_true, if_false, writeBit_ok true hlt]
    obtain ⟨owned', hrun, hlen, hmono, hleaf, hinv⟩ :=
      climb_spec t.m_capacity h3 (t.m_capacity - 1 + c)
        (t.m_owned.set (t.m_capacity - 1 + c) true) (t.m_capacity - 1 + c)
        (by simpa using h4) (by omega) (Nat.le_refl _)
    have hmono1 : ∀ j, bit t.m_owned j = true →
        bit (t.m_owned.set (t.m_capacity - 1 + c) true) j = true := by
      intro j hj
      rw [bit_set]
      split
      · rfl
      · exact hj
    refine ⟨owned', by simp [hrun, pure, Except.pure], by simpa using hlen,
      fun j hj => hmono j (hmono1 j hj), fun j hj => ?_, fun h => by simp at h, fun hI => hinv ?_ ?_⟩
    · rw [hleaf j hj, bit_set]
      by_cases hjc : t.m_capacity - 1 + c = j
      · subst hjc; simp [hlt]
      · simp only [hjc, false_and, if_false]
        constructor
        · exact fun h => Or.inl h
        · rintro (h | h)
          · exact h
          · exact absurd h.symm hjc
    · intro i hi hbi
      rw [bit_set_ne true (by omega)] at hbi
      obtain ⟨a, b⟩ := down_of_inv hI i hi hbi
      exact ⟨hmono1 _ a, hmono1 _ b⟩
    · intro i hi hl hr
      by_cases hch : t.m_capacity - 1 + c = 2 * i + 1 ∨ t.m_capacity - 1 + c = 2 * i + 2
      · exact Or.inr ⟨by omega, by omega⟩
      · have hne1 : t.m_capacity - 1 + c ≠ 2 * i + 1 := fun h => hch (Or.inl h)
        have hne2 : t.m_capacity - 1 + c ≠ 2 * i + 2 := fun h => hch (Or.inr h)
        rw [bit_set_ne true hne1] at hl
        rw [bit_set_ne true hne2] at hr
        exact Or.inl (hmono1 _ (up_of_inv hI i hi hl hr))
  · simp only [if_true, pure, Except.pure]
    refine ⟨t.m_owned, rfl, rfl, fun _ h => h, fun j hj => ?_, fun _ => rfl, fun h => h⟩
    constructor
    · exact fun h => Or.inl h
    · rintro (h | h)
      · exact h
      · rw [h]; exact hb

theorem WellFormed.capacity_eq {t o : KeyGenerationTree} (ht : WellFormed t) (ho : WellFormed o)
    (hN : t.m_leafCount = o.m_leafCount) : o.m_capacity = t.m_capacity := by
  obtain ⟨_, _, hd, hc, _, _⟩ := ht
  obtain ⟨_, _, hd', hc', _, _⟩ := ho
  rw [hc, hc', hd, hd', hN]

/-- `MergeTree` of two trees for the same number of participants returns; the
result differs from the receiver in the bitmap only, nothing owned is lost, the
owned leaves are those of either tree, a tree whose leaves are all owned
already changes nothing, and invariant (a) is kept. -/
theorem MergeTree_spec (t o : KeyGenerationTree) (hwf : WellFormed t) (hwfo : WellFormed o)
    (hN : t.m_leafCount = o.m_leafCount) :
    ∃ owned', t.MergeTree o = .ok { t with m_owned := owned' } ∧
      owned'.length = t.m_owned.length ∧
      (∀ j, bit t.m_owned j = true → bit owned' j = true) ∧
      (∀ j, t.m_capacity - 1 ≤ j → (bit owned' j = true ↔ bit t.m_owned j = true ∨
        ∃ i < t.m_leafCount, j = t.m_capacity - 1 + i ∧
          bit o.m_owned (t.m_capacity - 1 + i) = true)) ∧
      ((∀ i < t.m_leafCount, bit o.m_owned (t.m_capacity - 1 + i) = true →
          bit t.m_owned (t.m_capacity - 1 + i) = true) → owned' = t.m_owned) ∧
      (InternalInv t → InternalInv { t with m_owned := owned' }) := by
  obtain ⟨h1, h2, h3, h4⟩ := hwf.shape
  have hcap := WellFormed.capacity_eq hwf hwfo hN
  unfold MergeTree
  rw [if_neg (by simpa using hN)]
  obtain ⟨cur, hrun, ow, hcur, hlen, hmono, hleaf, hsub, hinv⟩ := foldlM_range_inv
    (fun cur i => do
      let h ← o.HasContribution i
      if h then cur.AddContribution i else pure cur)
    (fun n cur => ∃ ow, cur = { t with m_owned := ow } ∧ ow.length = t.m_owned.length ∧
      (∀ j, bit t.m_owned j = true → bit ow j = true) ∧
      (∀ j, t.m_capacity - 1 ≤ j → (bit ow j = true ↔ bit t.m_owned j = true ∨
        ∃ i < n, j = t.m_capacity - 1 + i ∧ bit o.m_owned (t.m_capacity - 1 + i) = true)) ∧
      ((∀ i < t.m_leafCount, bit o.m_owned (t.m_capacity - 1 + i) = true →
          bit t.m_owned (t.m_capacity - 1 + i) = true) → ow = t.m_owned) ∧
      (InternalInv t → InternalInv { t with m_owned := ow }))
    t.m_leafCount t
    ⟨t.m_owned, rfl, rfl, fun _ h => h, fun j _ => by simp, fun _ => rfl, fun h => h⟩
    (by
      rintro i cur hi ⟨ow, hcur, hlen, hmono, hleaf, hsub, hinv⟩
      subst hcur
      have hwfc : WellFormed { t with m_owned := ow } := hwf.with_owned hlen
      have ho := HasContribution_eq hwfo (show i < o.m_leafCount by omega)
      rw [hcap] at ho
      simp only [ho, bind, Except.bind]
      cases hb : bit o.m_owned (t.m_capacity - 1 + i)
      · simp only [Bool.false_eq_true, if_false, pure, Except.pure]
        refine ⟨_, rfl, ow, rfl, hlen, hmono, fun j hj => ?_, hsub, hinv⟩
        rw [hleaf j hj]
        constructor
        · rintro (h | ⟨k, hk, hjk, hbk⟩)
          · exact Or.inl h
          · exact Or.inr ⟨k, by omega, hjk, hbk⟩
        · rintro (h | ⟨k, hk, hjk, hbk⟩)
          · exact Or.inl h
          · by_cases hki : k = i
            · subst hki; rw [hb] at hbk; exact absurd hbk Bool.false_ne_true
            · exact Or.inr ⟨k, by omega, hjk, hbk⟩
      · simp only [if_true]
        obtain ⟨ow2, hrun2, hlen2, hmono2, hleaf2, hsame2, hinv2⟩ :=
          AddContribution_spec { t with m_owned := ow } i hwfc hi
        simp only at hrun2 hlen2 hmono2 hleaf2 hsame2 hinv2
        refine ⟨_, hrun2, ow2, rfl, by omega, fun j hj => hmono2 j (hmono j hj),
          fun j hj => ?_, fun hs => ?_, fun hI => hinv2 (hinv hI)⟩
        · rw [hleaf2 j hj, hleaf j hj]
          constructor
          · rintro ((h | ⟨k, hk, hjk, hbk⟩) | h)
            · exact Or.inl h
            · exact Or.inr ⟨k, by omega, hjk, hbk⟩
            · exact Or.inr ⟨i, by omega, h, hb⟩
          · rintro (h | ⟨k, hk, hjk, hbk⟩)
            · exact Or.inl (Or.inl h)
            · by_cases hki : k = i
              · subst hki; exact Or.inr hjk
              · exact Or.inl (Or.inr ⟨k, by omega, hjk, hbk⟩)
        · have e := hsub hs
          subst e
          exact hsame2 (hs i hi hb))
  subst hcur
  exact ⟨ow, hrun, hlen, hmono, hleaf, hsub, hinv⟩

/-- C5 as stated fails: the tree of participant 1 of four with the bitmap that
`StringToTree("0001111")` installs (all leaves owned, no internal node owned)
is returned unchanged by `MergeTree` of participant 0's tree; afterwards every
contribution `0 .. 3` is held, the union is everything, and `HasCompleteKey()`
is false. -/
theorem MergeTree_union_incomplete :
    exNode1.StringToTree ['0', '0', '0', '1', '1', '1', '1']
      = .ok { exNode1 with m_owned := [false, false, false, true, true, true, true] } ∧
    WellFormed { exNode1 with m_owned := [false, false, false, true, true, true, true] } ∧
    exNode1.m_leafCount = exNode0.m_leafCount ∧
    KeyGenerationTree.MergeTree
        { exNode1 with m_owned := [false, false, false, true, true, true, true] } exNode0
      = .ok { exNode1 with m_owned := [false, false, false, true, true, true, true] } ∧
    (∀ i < 4, KeyGenerationTree.HasContribution
        { exNode1 with m_owned := [false, false, false, true, true, true, true] } i
      = .ok true) ∧
    KeyGenerationTree.HasCompleteKey
        { exNode1 with m_owned := [false, false, false, true, true, true, true] }
      = .ok false := by
  decide

/-- C5: for two trees built for the same number of participants `MergeTree`
returns and (1) every real leaf is owned afterwards iff it was owned in the
receiver or is owned in the argument, (2) merging the argument a second time
changes nothing, (3) merging in the other direction gives the same owned
leaves; and (4) when the receiver satisfies the tree invariant, (a) every
internal node is owned iff both its children are and (b) every padding leaf is
owned, the key is complete afterwards iff the two trees together own every
real leaf. -/
theorem MergeTree_union (t o : KeyGenerationTree) (hwf : WellFormed t) (hwfo : WellFormed o)
    (hN : t.m_leafCount = o.m_leafCount) :
    ∃ t1, t.MergeTree o = .ok t1 ∧
      (∀ i < t.m_leafCount, ∃ a b, t.HasContribution i = .ok a ∧ o.HasContribution i = .ok b ∧
        t1.HasContribution i = .ok (a || b)) ∧
      t1.MergeTree o = .ok t1 ∧
      (∃ o1, o.MergeTree t = .ok o1 ∧
        ∀ i < t.m_leafCount, o1.HasContribution i = t1.HasContribution i) ∧
      (InternalInv t → PaddingOwned t →
        (t1.HasCompleteKey = .ok true ↔
          ∀ i < t.m_leafCount,
            t.HasContribution i = .ok true ∨ o.HasContribution i = .ok true)) := by
  obtain ⟨h1, h2, h3, h4⟩ := hwf.shape
  have hcap := WellFormed.capacity_eq hwf hwfo hN
  obtain ⟨ow, hrun, hlen, hmono, hleaf, hsub, hinv⟩ := MergeTree_spec t o hwf hwfo hN
  have hwf1 : WellFormed { t with m_owned := ow } := hwf.with_owned hlen
  have hleaf' : ∀ i < t.m_leafCount, bit ow (t.m_capacity - 1 + i) =
      (bit t.m_owned (t.m_capacity - 1 + i) || bit o.m_owned (t.m_capacity - 1 + i)) := by
    intro i hi
    rw [Bool.eq_iff_iff, hleaf _ (by omega), Bool.or_eq_true]
    constructor
    · rintro (h | ⟨k, hk, hjk, hbk⟩)
      · exact Or.inl h
      · have : k = i := by omega
        subst this; exact Or.inr hbk
    · rintro (h | h)
      · exact Or.inl h
      · exact Or.inr ⟨i, hi, rfl, h⟩
  have hto : ∀ i < t.m_leafCount,
      o.HasContribution i = .ok (bit o.m_owned (t.m_capacity - 1 + i)) := by
    intro i hi
    have := HasContribution_eq hwfo (show i < o.m_leafCount by omega)
    rw [hcap] at this; exact this
  refine ⟨{ t with m_owned := ow }, hrun, fun i hi => ?_, ?_, ?_, fun ha hb => ?_⟩
  · refine ⟨_, _, HasContribution_eq hwf hi, hto i hi, ?_⟩
    rw [HasContribution_eq hwf1 (show i < t.m_leafCount from hi)]
    simp only
    rw [hleaf' i hi]
  · obtain ⟨ow2, hrun2, _, _, _, hsub2, _⟩ :=
      MergeTree_spec { t with m_owned := ow } o hwf1 hwfo hN
    simp only at hrun2 hsub2
    have e := hsub2 (fun i hi hbo => by rw [hleaf' i hi, hbo]; simp)
    rw [e] at hrun2
    exact hrun2
  · obtain ⟨ow3, hrun3, hlen3, _, hleaf3, _, _⟩ := MergeTree_spec o t hwfo hwf hN.symm
    have hwf3 : WellFormed { o with m_owned := ow3 } := hwfo.with_owned hlen3
    refine ⟨_, hrun3, fun i hi => ?_⟩
    rw [HasContribution_eq hwf3 (show i < o.m_leafCount by omega),
      HasContribution_eq hwf1 (show i < t.m_leafCount from hi)]
    simp only [hcap]
    rw [hcap] at hleaf3
    rw [hleaf' i hi]
    congr 1
    rw [Bool.eq_iff_iff, hleaf3 _ (by omega), Bool.or_eq_true]
    constructor
    · rintro (h | ⟨k, hk, hjk, hbk⟩)
      · exact Or.inr h
      · have : k = i := by omega
        subst this; exact Or.inl hbk
    · rintro (h | h)
      · exact Or.inr ⟨i, by omega, rfl, h⟩
      · exact Or.inl h
  · have hb1 : PaddingOwned { t with m_owned := ow } :=
      fun leaf hl hNl => hmono _ (hb leaf hl hNl)
    have hroot := root_owned_iff hwf1 (hinv ha) hb1
    simp only at hroot
    rw [HasCompleteKey_eq hwf1, ok_true_iff]
    simp only
    rw [hroot]
    constructor
    · intro h i hi
      have := h i hi
      rw [hleaf' i hi, Bool.or_eq_true] at this
      rw [HasContribution_eq hwf hi, hto i hi, ok_true_iff, ok_true_iff]
      exact this
    · intro h i hi
      have := h i hi
      rw [HasContribution_eq hwf hi, hto i hi, ok_true_iff, ok_true_iff] at this
      rw [hleaf' i hi, Bool.or_eq_true]
      exact this

/-- The scenario of the specification for four participants, and `MergeTree_union`
at its first merge: the tree of participant 1 after `AddContribution(2)` and
`MergeTree` of participant 0's tree owns contributions 0, 1, 2, not 3, and is
not complete; after `MergeTree` of participant 3's tree it is complete. -/
theorem MergeTree_union_witness :
    (KeyGenerationTree.KeyGenerationTree 4 0 = .ok exNode0 ∧
     KeyGenerationTree.KeyGenerationTree 4 3 = .ok exNode3 ∧
     (KeyGenerationTree.KeyGenerationTree 4 1 >>= fun t => t.AddContribution 2) = .ok exNode1 ∧
     (exNode1.MergeTree exNode0 >>= fun t => t.HasContribution 0) = .ok true ∧
     (exNode1.MergeTree exNode0 >>= fun t => t.HasContribution 1) = .ok true ∧
     (exNode1.MergeTree exNode0 >>= fun t => t.HasContribution 2) = .ok true ∧
     (exNode1.MergeTree exNode0 >>= fun t => t.HasContribution 3) = .ok false ∧
     (exNode1.MergeTree exNode0 >>= fun t => t.HasCompleteKey) = .ok false ∧
     (exNode1.MergeTree exNode0 >>= fun t => t.MergeTree exNode3 >>= fun t => t.HasCompleteKey)
       = .ok true) ∧
    ∃ t1, exNode1.MergeTree exNode0 = .ok t1 ∧
      (∀ i < exNode1.m_leafCount, ∃ a b, exNode1.HasContribution i = .ok a ∧
        exNode0.HasContribution i = .ok b ∧ t1.HasContribution i = .ok (a || b)) ∧
      t1.MergeTree exNode0 = .ok t1 ∧
      (∃ o1, exNode0.MergeTree exNode1 = .ok o1 ∧
        ∀ i < exNode1.m_leafCount, o1.HasContribution i = t1.HasContribution i) ∧
      (t1.HasCompleteKey = .ok true ↔
        ∀ i < exNode1.m_leafCount, exNode1.HasContribution i = .ok true ∨
          exNode0.HasContribution i = .ok true) :=
  ⟨by decide,
    match MergeTree_union exNode1 exNode0 (by decide) (by decide) (by decide) with
    | ⟨t1, h1, h2, h3, h4, h5⟩ => ⟨t1, h1, h2, h3, h4, h5 (by decide) (by decide)⟩⟩

/-! ## Forwarding strings -/

/-- The loop `for (i = 0; i < n; ++i) s[i] = '1'` on a string of `n` zeros
gives `n` ones. -/
theorem set_all_ones (n : Nat) :
    (List.range n).foldl (fun s i => s.set i '1') (List.replicate n '0') =
      List.replicate n '1' := by
  have h : ∀ k, k ≤ n →
      ((List.range k).foldl (fun s i => s.set i '1') (List.replicate n '0')).length = n ∧
      ∀ j, ((List.range k).foldl (fun s i => s.set i '1') (List.replicate n '0'))[j]? =
        if j < n then some (if j < k then '1' else '0') else none := by
    intro k
    induction k with
    | zero =>
      intro _
      refine ⟨by simp, fun j => ?_⟩
      simp [List.getElem?_replicate]
    | succ k ih =>
      intro hk
      obtain ⟨hl, hg⟩ := ih (by omega)
      rw [List.range_succ, List.foldl_append]
      simp only [List.foldl_cons, List.foldl_nil]
      refine ⟨by simpa using hl, fun j => ?_⟩
      rw [List.getElem?_set, hl, hg j]
      by_cases hjk : k = j
      · subst hjk
        simp [show k < n by omega]
      · simp only [hjk, if_false]
        by_cases hjn : j < n
        · simp only [hjn, if_true]
          by_cases h1 : j < k
          · simp [h1, show j < k + 1 by omega]
          · simp [h1, show ¬ j < k + 1 by omega]
        · simp [hjn]
  obtain ⟨_, hg⟩ := h n (Nat.le_refl n)
  apply List.ext_getElem?
  intro j
  rw [hg j, List.getElem?_replicate]
  by_cases hjn : j < n <;> simp [hjn]

/-- C6: for two trees built for the same number `N` of participants,
`GetForwardingContributions(neighborTree)` returns a string of length `N` over
`'0'` and `'1'`; it is all `'1'` when the local tree has the complete key, and
otherwise position `i` is `'1'` iff the local tree has contribution `i` and the
neighbor tree does not. -/
theorem tree_GetForwardingContributions_spec (t nb : KeyGenerationTree) (hwf : WellFormed t)
    (hwfn : WellFormed nb) (hN : t.m_leafCount = nb.m_leafCount) :
    ∃ s, t.GetForwardingContributions nb = .ok s ∧ s.length = t.m_leafCount ∧
      (∀ c ∈ s, c = '0' ∨ c = '1') ∧
      (t.HasCompleteKey = .ok true → s = List.replicate t.m_leafCount '1') ∧
      (t.HasCompleteKey = .ok false → ∀ i < t.m_leafCount,
        (s[i]? = some '1' ↔
          t.HasContribution i = .ok true ∧ nb.HasContribution i = .ok false)) := by
  obtain ⟨h1, h2, h3, h4⟩ := hwf.shape
  have hcap := WellFormed.capacity_eq hwf hwfn hN
  have hnb : ∀ i < t.m_leafCount,
      nb.HasContribution i = .ok (bit nb.m_owned (t.m_capacity - 1 + i)) := by
    intro i hi
    have := HasContribution_eq hwfn (show i < nb.m_leafCount by omega)
    rw [hcap] at this; exact this
  unfold GetForwardingContributions
  simp only [HasCompleteKey_eq hwf, bind, Except.bind]
  cases hroot : bit t.m_owned 0
  · simp only [Bool.false_eq_true, if_false]
    obtain ⟨s, hrun, hlen, hget⟩ := foldlM_range_inv
      (fun s i => do
        let mine ← t.HasContribution i
        if mine then do
          let theirs ← nb.HasContribution i
          if !theirs then pure (s.set i '1') else pure s
        else pure s)
      (fun n (s : List Char) => s.length = t.m_leafCount ∧ ∀ j < t.m_leafCount,
        s[j]? = some (if j < n ∧ bit t.m_owned (t.m_capacity - 1 + j) = true ∧
          bit nb.m_owned (t.m_capacity - 1 + j) = false then '1' else '0'))
      t.m_leafCount (List.replicate t.m_leafCount '0')
      ⟨by simp, fun j hj => by simp [List.getElem?_replicate, hj]⟩
      (by
        rintro i s hi ⟨hlen, hget⟩
        simp only [HasContribution_eq hwf hi, hnb i hi, bind, Except.bind]
        have hkeep : ∀ j < t.m_leafCount, ¬ (bit t.m_owned (t.m_capacity - 1 + i) = true ∧
            bit nb.m_owned (t.m_capacity - 1 + i) = false) →
            s[j]? = some (if j < i + 1 ∧ bit t.m_owned (t.m_capacity - 1 + j) = true ∧
              bit nb.m_owned (t.m_capacity - 1 + j) = false then '1' else '0') := by
          intro j hj hno
          rw [hget j hj]
          by_cases hji : j = i
          · subst hji
            simp [hno]
          · simp [show (j < i + 1 ↔ j < i) by omega]
        cases hm : bit t.m_owned (t.m_capacity - 1 + i)
        · simp only [Bool.false_eq_true, if_false, pure, Except.pure]
          exact ⟨s, rfl, hlen, fun j hj => hkeep j hj (by simp [hm])⟩
        · simp only [if_true]
          cases hth : bit nb.m_owned (t.m_capacity - 1 + i)
          · simp only [Bool.not_false, if_true, pure, Except.pure]
            refine ⟨_, rfl, by simpa using hlen, fun j hj => ?_⟩
            rw [List.getElem?_set]
            by_cases hji : i = j
            · subst hji
              simp [hlen, hi, hm, hth]
            · simp only [hji, if_false]
              rw [hget j hj]
              simp [show (j < i + 1 ↔ j < i) by omega]
          · simp only [Bool.not_true, Bool.false_eq_true, if_false, pure, Except.pure]
            exact ⟨s, rfl, hlen, fun j hj => hkeep j hj (by simp [hth])⟩)
    refine ⟨s, hrun, hlen, fun c hc => ?_, fun h => by simp [ok_true_iff] at h, fun _ i hi => ?_⟩
    · obtain ⟨j, hj, hjc⟩ := List.mem_iff_getElem.1 hc
      have := hget j (by omega)
      rw [List.getElem?_eq_getElem hj, hjc] at this
      injection this with this
      rw [this]
      split
      · exact Or.inr rfl
      · exact Or.inl rfl
    · rw [hget i hi, HasContribution_eq hwf hi, hnb i hi]
      constructor
      · intro h
        injection h with h
        by_cases hc : i < t.m_leafCount ∧ bit t.m_owned (t.m_capacity - 1 + i) = true ∧
            bit nb.m_owned (t.m_capacity - 1 + i) = false
        · rw [hc.2.1, hc.2.2]; exact ⟨rfl, rfl⟩
        · rw [if_neg hc] at h; exact absurd h (by decide)
      · rintro ⟨ha, hb⟩
        injection ha with ha
        injection hb with hb
        rw [if_pos ⟨hi, ha, hb⟩]
  · simp only [if_true, pure, Except.pure, set_all_ones]
    refine ⟨_, rfl, by simp, fun c hc => ?_, fun _ => rfl, fun h => by
      simp at h⟩
    exact Or.inr (List.eq_of_mem_replicate hc)

theorem tree_GetForwardingContributions_spec_witness :
    ∃ s, exNode1.GetForwardingContributions exNode0 = .ok s ∧ s.length = exNode1.m_leafCount ∧
      (∀ c ∈ s, c = '0' ∨ c = '1') ∧
      (exNode1.HasCompleteKey = .ok true → s = List.replicate exNode1.m_leafCount '1') ∧
      (exNode1.HasCompleteKey = .ok false → ∀ i < exNode1.m_leafCount,
        (s[i]? = some '1' ↔
          exNode1.HasContribution i = .ok true ∧ exNode0.HasContribution i = .ok false)) :=
  tree_GetForwardingContributions_spec exNode1 exNode0 (by decide) (by decide) (by decide)

/-! ## Sequences of calls -/

/-- From a well-formed state with the complete key, every sequence of calls with
well-formed arguments runs to the end (each call returns or throws
`invalid_argument`) and ends in a well-formed state with the complete key. -/
theorem runCalls_complete : ∀ (calls : List TreeCall) (t : KeyGenerationTree),
    WellFormed t → bit t.m_owned 0 = true → (∀ c ∈ calls, c.WellFormed) →
    ∃ t1, runCalls t calls = .ok t1 ∧ WellFormed t1 ∧ bit t1.m_owned 0 = true := by
  intro calls
  induction calls with
  | nil => intro t hwf hc _; exact ⟨t, rfl, hwf, hc⟩
  | cons c cs ih =>
    intro t hwf hc hargs
    have hcs : ∀ c ∈ cs, c.WellFormed := fun c hc => hargs c (List.mem_cons_of_mem _ hc)
    cases c with
    | addMultiple s =>
      by_cases hs : s.length = t.m_leafCount
      · obtain ⟨owned', hrun, hlen, hmono, _, _⟩ :=
          AddMultipleContributions_spec t s hwf hs (fun _ => Or.inl hc)
        obtain ⟨t1, h1, h2, h3⟩ := ih _ (hwf.with_owned hlen) (hmono 0 hc) hcs
        exact ⟨t1, by simp only [runCalls, TreeCall.run, hrun]; exact h1, h2, h3⟩
      · have hthrow : t.AddMultipleContributions s = .error .invalid_argument := by
          unfold AddMultipleContributions
          rw [if_pos hs]
        obtain ⟨t1, h1, h2, h3⟩ := ih t hwf hc hcs
        exact ⟨t1, by simp only [runCalls, TreeCall.run, hthrow]; exact h1, h2, h3⟩
    | merge o =>
      have hwfo : WellFormed o := hargs (.merge o) (List.mem_cons_self _ _)
      by_cases hN : t.m_leafCount = o.m_leafCount
      · obtain ⟨owned', hrun, hlen, hmono, _, _, _⟩ := MergeTree_spec t o hwf hwfo hN
        obtain ⟨t1, h1, h2, h3⟩ := ih _ (hwf.with_owned hlen) (hmono 0 hc) hcs
        exact ⟨t1, by simp only [runCalls, TreeCall.run, hrun]; exact h1, h2, h3⟩
      · have hthrow : t.MergeTree o = .error .invalid_argument := by
          unfold MergeTree
          rw [if_pos hN]
        obtain ⟨t1, h1, h2, h3⟩ := ih t hwf hc hcs
        exact ⟨t1, by simp only [runCalls, TreeCall.run, hthrow]; exact h1, h2, h3⟩

/-- C4: for every sequence of `AddMultipleContributions` and `MergeTree` calls
on a tree, no node that is owned before the sequence is unowned after it, so
the owned leaves only grow and a true `HasCompleteKey()` stays true; and from a
state where `HasCompleteKey()` is true, every later sequence of calls runs to
its end and `HasCompleteKey()` is true after it. -/
theorem tree_calls_monotone (t : KeyGenerationTree) (calls : List TreeCall) :
    (∀ t1, runCalls t calls = .ok t1 →
      (∀ j, bit t.m_owned j = true → bit t1.m_owned j = true) ∧
      (∀ i, t.HasContribution i = .ok true → t1.HasContribution i = .ok true) ∧
      (t.HasCompleteKey = .ok true → t1.HasCompleteKey = .ok true)) ∧
    (WellFormed t → t.HasCompleteKey = .ok true → (∀ c ∈ calls, c.WellFormed) →
      ∃ t1, runCalls t calls = .ok t1 ∧ t1.HasCompleteKey = .ok true) := by
  constructor
  · intro t1 h
    have hE := runCalls_extends calls t t1 h
    exact ⟨hE.2.2.2.2.2.2, fun i hi => hE.hasContribution hi, fun hc => hE.hasCompleteKey hc⟩
  · intro hwf hc hargs
    rw [HasCompleteKey_eq hwf, ok_true_iff] at hc
    obtain ⟨t1, h1, h2, h3⟩ := runCalls_complete calls t hwf hc hargs
    exact ⟨t1, h1, by rw [HasCompleteKey_eq h2, h3]⟩

theorem tree_calls_monotone_witness :
    runCalls exTree5 exCalls = .ok { exTree5 with m_owned := List.replicate 15 true } ∧
    ((∀ j, bit exTree5.m_owned j = true → bit (List.replicate 15 true) j = true) ∧
     (∀ i, exTree5.HasContribution i = .ok true →
       KeyGenerationTree.HasContribution { exTree5 with m_owned := List.replicate 15 true } i
         = .ok true) ∧
     (exTree5.HasCompleteKey = .ok true →
       KeyGenerationTree.HasCompleteKey { exTree5 with m_owned := List.replicate 15 true }
         = .ok true)) ∧
    ∃ t1, runCalls { exTree5 with m_owned := List.replicate 15 true } exCalls = .ok t1 ∧
      t1.HasCompleteKey = .ok true :=
  ⟨by decide,
   (tree_calls_monotone exTree5 exCalls).1 { exTree5 with m_owned := List.replicate 15 true }
     (by decide),
   (tree_calls_monotone { exTree5 with m_owned := List.replicate 15 true } exCalls).2
     (by decide) (by decide) (by
       intro c hc
       simp only [exCalls, List.mem_cons, List.mem_singleton, List.not_mem_nil, or_false] at hc
       rcases hc with h | h | h | h <;> subst h
       · trivial
       · show WellFormed _; decide
       · trivial
       · trivial)⟩

/-! ## The single-node tree -/

/-- C2: the single-node tree with its node not owned, the state that
`StringToTree("0")` installs on the tree built for one participant, satisfies
invariants (a) and (b), but `AddMultipleContributions("1")` on it does not end
in a state with the complete key: `BubbleUpMerge` reads `m_owned[Parent(0)]`,
index `2^31 - 1`, outside the one-bit bitmap. -/
theorem AddMultipleContributions_all_ones_single_node :
    KeyGenerationTree.StringToTree { exTree1 with m_owned := [true] } ['0'] = .ok exTree1 ∧
    WellFormed exTree1 ∧ InternalInv exTree1 ∧ PaddingOwned exTree1 ∧
    Parent (exTree1.LeafToNodeIndex 0) = 2147483647 ∧
    (exTree1.AddMultipleContributions (List.replicate exTree1.m_leafCount '1') >>=
      fun t => t.HasCompleteKey) = .error .undefined_behaviour := by
  decide

/-- Where `AddMultipleContributions` is defined, the owned real leaves after it
are the ones owned before and the ones marked `'1'`. -/
theorem AddMultipleContributions_leaves (t : KeyGenerationTree) (s : List Char)
    (hwf : WellFormed t) (hs : s.length = t.m_leafCount)
    (hsafe : t.m_capacity = 1 → bit t.m_owned 0 = true ∨ s[0]? ≠ some '1') :
    ∃ t1, t.AddMultipleContributions s = .ok t1 ∧
      ∀ i < t.m_leafCount, ∃ a, t.HasContribution i = .ok a ∧
        t1.HasContribution i = .ok (a || decide (s[i]? = some '1')) := by
  obtain ⟨h1, h2, h3, h4⟩ := hwf.shape
  obtain ⟨owned', hrun, hlen, hmono, hleaf, _⟩ := AddMultipleContributions_spec t s hwf hs hsafe
  have hwf1 := hwf.with_owned hlen
  refine ⟨_, hrun, fun i hi => ⟨_, HasContribution_eq hwf hi, ?_⟩⟩
  rw [HasContribution_eq hwf1 (show i < t.m_leafCount from hi)]
  congr 1
  simp only
  rw [Bool.eq_iff_iff, hleaf _ (by omega), Bool.or_eq_true, decide_eq_true_iff]
  constructor
  · rintro (h | ⟨k, hk, hjk, hsk⟩)
    · exact Or.inl h
    · have : k = i := by omega
      subst this; exact Or.inr hsk
  · rintro (h | h)
    · exact Or.inl h
    · exact Or.inr ⟨i, hi, rfl, h⟩

theorem AddMultipleContributions_leaves_witness :
    ∃ t1, exTree5.AddMultipleContributions ['1', 'x', '0', '1', '0'] = .ok t1 ∧
      ∀ i < exTree5.m_leafCount, ∃ a, exTree5.HasContribution i = .ok a ∧
        t1.HasContribution i =
          .ok (a || decide ((['1', 'x', '0', '1', '0'] : List Char)[i]? = some '1')) :=
  AddMultipleContributions_leaves exTree5 ['1', 'x', '0', '1', '0'] (by decide) (by decide)
    (by decide)

/-- C3: on the single-node tree with its node not owned, `HasContribution(0)`
is false and the string `"1"` marks position 0, but `AddMultipleContributions`
does not end in a state where `HasContribution(0)` is true: after marking the
leaf it reads the bitmap at index `2^31 - 1`. -/
theorem AddMultipleContributions_leaf_single_node :
    WellFormed exTree1 ∧ exTree1.HasContribution 0 = .ok false ∧
    (['1'] : List Char).length = exTree1.m_leafCount ∧
    exTree1.AddMultipleContributions ['1'] = .error .undefined_behaviour ∧
    (exTree1.AddMultipleContributions ['1'] >>= fun t => t.HasContribution 0) ≠ .ok true := by
  decide

end TreeTheorems

section MatrixTheorems

open KeyMatrix

/-! ## KeyMatrix: reads and counters -/

theorem readCell_ok {m : KeyMatrix} (hsq : Square m) {i j : Nat} (hi : i < m.m_networkSize)
    (hj : j < m.m_networkSize) : readCell m.m_matrix i j = .ok (cell m.m_matrix i j) := by
  obtain ⟨h1, h2⟩ := hsq
  unfold readCell cell
  rw [if_pos (by omega), readBit_ok (by rw [h2 i hi]; exact hj)]

theorem allTrueM_eq (test : Nat → Except Error Bool) (f : Nat → Bool) :
    ∀ l : List Nat, (∀ i ∈ l, test i = .ok (f i)) → allTrueM test l = .ok (l.all f) := by
  intro l
  induction l with
  | nil => intro _; rfl
  | cons a l ih =>
    intro h
    unfold allTrueM
    rw [h a (List.mem_cons_self _ _)]
    simp only [bind, Except.bind, List.all_cons]
    cases hf : f a
    · simp [pure, Except.pure]
    · simp only [if_true, Bool.true_and]
      exact ih (fun i hi => h i (List.mem_cons_of_mem _ hi))

theorem SelfIsFull1_eq {m : KeyMatrix} (hsq : Square m) (hself : m.m_nodeId < m.m_networkSize) :
    m.SelfIsFull1 = .ok ((List.range m.m_networkSize).all
      (fun i => cell m.m_matrix m.m_nodeId i)) := by
  unfold SelfIsFull1
  exact allTrueM_eq _ _ _ (fun i hi => readCell_ok hsq hself (List.mem_range.1 hi))

theorem CalculateCR_counts_eq {m : KeyMatrix} (hsq : Square m)
    (hself : m.m_nodeId < m.m_networkSize) {nb : Nat} (hnb : nb < m.m_networkSize) :
    CalculateCR.counts m nb = .ok
      ((List.range m.m_networkSize).countP
          (fun j => cell m.m_matrix m.m_nodeId j && !cell m.m_matrix nb j),
       (List.range m.m_networkSize).countP
          (fun j => cell m.m_matrix m.m_nodeId j || cell m.m_matrix nb j)) := by
  unfold CalculateCR.counts
  obtain ⟨c, hc, hP⟩ := foldlM_range_inv
    (fun (c : Nat × Nat) j => do
      let a ← readCell m.m_matrix m.m_nodeId j
      let inDiff ← if a then do
          let b ← readCell m.m_matrix nb j
          pure (!b)
        else pure false
      let a2 ← readCell m.m_matrix m.m_nodeId j
      let inUnion ← if a2 then pure true else readCell m.m_matrix nb j
      pure (if inDiff then c.1 + 1 else c.1, if inUnion then c.2 + 1 else c.2))
    (fun n c => c = ((List.range n).countP
          (fun j => cell m.m_matrix m.m_nodeId j && !cell m.m_matrix nb j),
       (List.range n).countP
          (fun j => cell m.m_matrix m.m_nodeId j || cell m.m_matrix nb j)))
    m.m_networkSize (0, 0) (by simp) (by
      intro i c hi hc
      subst hc
      simp only [readCell_ok hsq hself hi, readCell_ok hsq hnb hi, bind, Except.bind,
        List.range_succ, List.countP_append, List.countP_cons, List.countP_nil, Nat.zero_add]
      cases cell m.m_matrix m.m_nodeId i <;> cases cell m.m_matrix nb i <;>
        simp [pure, Except.pure])
  rw [hc, hP]

theorem CalculateFD_count_eq {m : KeyMatrix} (hsq : Square m) {c : Nat}
    (hc : c < m.m_networkSize) :
    CalculateFD.count m c = .ok
      ((List.range m.m_networkSize).countP (fun i => cell m.m_matrix i c)) := by
  unfold CalculateFD.count
  obtain ⟨k, hk, hP⟩ := foldlM_range_inv
    (fun receivedCount i => do
      let b ← readCell m.m_matrix i c
      if b then pure (receivedCount + 1) else pure receivedCount)
    (fun n k => k = (List.range n).countP (fun i => cell m.m_matrix i c))
    m.m_networkSize 0 (by simp) (by
      intro i k hi hk
      subst hk
      simp only [readCell_ok hsq hi hc, bind, Except.bind, List.range_succ, List.countP_append,
        List.countP_cons, List.countP_nil, Nat.zero_add]
      cases cell m.m_matrix i c <;> simp [pure, Except.pure])
  rw [hk, hP]

theorem CalculateFD_eq {m : KeyMatrix} (hsq : Square m) {c : Nat} (hc : c < m.m_networkSize) :
    m.CalculateFD c = .ok
      { num := (List.range m.m_networkSize).countP (fun i => cell m.m_matrix i c),
        den := m.m_networkSize } := by
  unfold CalculateFD
  rw [CalculateFD_count_eq hsq hc]
  rfl

/-- `Ratio.lt` is the comparison of the exact quotients when neither is NaN. -/
theorem Ratio.lt_iff (x y : Ratio) :
    Ratio.lt x y = true ↔ x.den ≠ 0 ∧ y.den ≠ 0 ∧ x.toRat < y.toRat := by
  unfold Ratio.lt Ratio.toRat
  rw [decide_eq_true_iff]
  constructor
  · rintro ⟨hx, hy, h⟩
    refine ⟨hx, hy, ?_⟩
    have hx' : (0 : ℚ) < x.den := by exact_mod_cast Nat.pos_of_ne_zero hx
    have hy' : (0 : ℚ) < y.den := by exact_mod_cast Nat.pos_of_ne_zero hy
    rw [div_lt_div_iff₀ hx' hy']
    exact_mod_cast h
  · rintro ⟨hx, hy, h⟩
    refine ⟨hx, hy, ?_⟩
    have hx' : (0 : ℚ) < x.den := by exact_mod_cast Nat.pos_of_ne_zero hx
    have hy' : (0 : ℚ) < y.den := by exact_mod_cast Nat.pos_of_ne_zero hy
    rw [div_lt_div_iff₀ hx' hy'] at h
    exact_mod_cast h

/-! ## KeyMatrix: forwarding policy -/

/-- The first branch of `GetForwardingContributions`: a full local row gives the
string of ones, and neither the neighbor id nor a draw is read. -/
theorem forwarding_of_full (m : KeyMatrix) (NeighborId RAND_MAX : Nat) (rand : Nat → Nat)
    (h : m.SelfIsFull1 = .ok true) :
    m.GetForwardingContributions NeighborId RAND_MAX rand =
      .ok (List.replicate m.m_networkSize '1') := by
  unfold GetForwardingContributions
  simp [h, bind, Except.bind, set_all_ones, pure, Except.pure]

/-- C7: whenever `SelfIsFull1()` holds, `KeyMatrix::GetForwardingContributions`
returns the string of `N` characters `'1'`, for every neighbor id and whatever
`rand()` returns. -/
theorem matrix_forwarding_full (m : KeyMatrix) (NeighborId RAND_MAX : Nat) (rand : Nat → Nat)
    (h : m.SelfIsFull1 = .ok true) :
    m.GetForwardingContributions NeighborId RAND_MAX rand =
      .ok (List.replicate m.m_networkSize '1') :=
  forwarding_of_full m NeighborId RAND_MAX rand h

/-- The scenario of the specification for three participants at participant 0,
and `matrix_forwarding_full` at its last state. -/
theorem matrix_forwarding_full_witness :
    ((KeyMatrix.KeyMatrix 3 0).ReceiveKeyContribution 1 = .ok exMatrix1 ∧
     exMatrix1.SelfIsFull1 = .ok false ∧
     exMatrix1.ReceiveKeyContribution 2 = .ok exMatrix2 ∧
     exMatrix2.SelfIsFull1 = .ok true) ∧
    exMatrix2.GetForwardingContributions 1 32767 (fun _ => 0) = .ok ['1', '1', '1'] :=
  ⟨by decide, matrix_forwarding_full exMatrix2 1 32767 (fun _ => 0) (by decide)⟩

/-- The inner loop of `GetForwardingContributions` (gate open): position `j`
becomes `'1'` iff the local row holds `j`, the neighbor's row lacks it, and the
forwarding degree of `j` is below the draw made for `j`. -/
theorem forwarding_loop_spec (m : KeyMatrix) (nb RAND_MAX : Nat) (rand : Nat → Nat)
    (hsq : Square m) (hself : m.m_nodeId < m.m_networkSize) (hnb : nb < m.m_networkSize) :
    ∃ st, (List.range m.m_networkSize).foldlM
        (GetForwardingContributions.step m nb RAND_MAX rand)
        (List.replicate m.m_networkSize '0', 1) = .ok st ∧
      st.1.length = m.m_networkSize ∧
      ∀ j < m.m_networkSize, st.1[j]? = some
        (if cell m.m_matrix m.m_nodeId j = true ∧ cell m.m_matrix nb j = false ∧
          Ratio.lt { num := (List.range m.m_networkSize).countP (fun i => cell m.m_matrix i j),
                     den := m.m_networkSize }
            (RandomVariable RAND_MAX (rand (drawIndex m nb j))) = true
         then '1' else '0') := by
  obtain ⟨st, hrun, hlen, _, hget⟩ := foldlM_range_inv
    (GetForwardingContributions.step m nb RAND_MAX rand)
    (fun n (st : List Char × Nat) => st.1.length = m.m_networkSize ∧ st.2 = drawIndex m nb n ∧
      ∀ j < m.m_networkSize, st.1[j]? = some
        (if j < n ∧ cell m.m_matrix m.m_nodeId j = true ∧ cell m.m_matrix nb j = false ∧
          Ratio.lt { num := (List.range m.m_networkSize).countP (fun i => cell m.m_matrix i j),
                     den := m.m_networkSize }
            (RandomVariable RAND_MAX (rand (drawIndex m nb j))) = true
         then '1' else '0'))
    m.m_networkSize (List.replicate m.m_networkSize '0', 1)
    ⟨by simp, by simp [drawIndex], fun j hj => by simp [List.getElem?_replicate, hj]⟩
    (by
      rintro i ⟨s, k⟩ hi ⟨hlen, hk, hget⟩
      simp only at hlen hk hget
      subst hk
      unfold GetForwardingContributions.step
      simp only [CalculateFD_eq hsq hi, readCell_ok hsq hself hi, readCell_ok hsq hnb hi, bind,
        Except.bind]
      have hkeep : ∀ j < m.m_networkSize,
          ¬ (cell m.m_matrix m.m_nodeId i = true ∧ cell m.m_matrix nb i = false ∧
            Ratio.lt { num := (List.range m.m_networkSize).countP (fun r => cell m.m_matrix r i),
                       den := m.m_networkSize }
              (RandomVariable RAND_MAX (rand (drawIndex m nb i))) = true) →
          s[j]? = some
            (if j < i + 1 ∧ cell m.m_matrix m.m_nodeId j = true ∧ cell m.m_matrix nb j = false ∧
              Ratio.lt { num := (List.range m.m_networkSize).countP (fun r => cell m.m_matrix r j),
                         den := m.m_networkSize }
                (RandomVariable RAND_MAX (rand (drawIndex m nb j))) = true
             then '1' else '0') := by
        intro j hj hno
        rw [hget j hj]
        by_cases hji : j = i
        · subst hji
          rw [if_neg (by omega), if_neg (fun h => hno h.2)]
        · simp only [show (j < i + 1 ↔ j < i) by omega]
      have hstay : drawIndex m nb (i + 1) = drawIndex m nb i +
          (if (cell m.m_matrix m.m_nodeId i && !cell m.m_matrix nb i) = true then 1 else 0) := by
        simp only [drawIndex, List.range_succ, List.countP_append, List.countP_cons,
          List.countP_nil, Nat.zero_add]
        omega
      cases hm : cell m.m_matrix m.m_nodeId i
      · simp only [Bool.false_eq_true, if_false, pure, Except.pure]
        refine ⟨_, rfl, hlen, ?_, fun j hj => hkeep j hj (by simp [hm])⟩
        rw [hstay, hm]; simp
      · simp only [if_true]
        cases hth : cell m.m_matrix nb i
        · simp only [Bool.not_false, if_true]
          have hk1 : drawIndex m nb (i + 1) = drawIndex m nb i + 1 := by
            rw [hstay, hm, hth]; simp
          cases hlt : Ratio.lt
              { num := (List.range m.m_networkSize).countP (fun r => cell m.m_matrix r i),
                den := m.m_networkSize }
              (RandomVariable RAND_MAX (rand (drawIndex m nb i)))
          · simp only [Bool.false_eq_true, if_false, pure, Except.pure]
            exact ⟨_, rfl, hlen, hk1.symm, fun j hj => hkeep j hj (by simp [hlt])⟩
          · simp only [if_true, pure, Except.pure]
            refine ⟨_, rfl, by simpa using hlen, hk1.symm, fun j hj => ?_⟩
            simp only
            rw [List.getElem?_set]
            by_cases hji : i = j
            · subst hji
              simp [hlen, hi, hm, hth, hlt]
            · simp only [hji, if_false]
              rw [hget j hj]
              simp only [show (j < i + 1 ↔ j < i) by omega]
        · simp only [Bool.not_true, Bool.false_eq_true, if_false, pure, Except.pure]
          refine ⟨_, rfl, hlen, ?_, fun j hj => hkeep j hj (by simp [hth])⟩
          rw [hstay, hm, hth]; simp)
  refine ⟨st, hrun, hlen, fun j hj => ?_⟩
  rw [hget j hj]
  simp only [hj, true_and]

theorem CalculateCR_eq {m : KeyMatrix} (hsq : Square m)
    (hself : m.m_nodeId < m.m_networkSize) {nb : Nat} (hnb : nb < m.m_networkSize) :
    m.CalculateCR nb = .ok
      { num := (List.range m.m_networkSize).countP
          (fun j => cell m.m_matrix m.m_nodeId j && !cell m.m_matrix nb j),
        den := (List.range m.m_networkSize).countP
          (fun j => cell m.m_matrix m.m_nodeId j || cell m.m_matrix nb j) } := by
  unfold CalculateCR
  rw [CalculateCR_counts_eq hsq hself hnb]
  rfl

/-- C9: when `SelfIsFull1()` is false, with `r_gate` the first draw:
`GetForwardingContributions` returns all `'0'` unless the complement rate is
above `r_gate` (so whenever it is at most `r_gate`), and if it is above, then
position `i` is `'1'` iff the local row holds `i`, the neighbor's row lacks
`i`, and the forwarding degree of `i` is below the draw made for `i`; the
ratios are compared as exact rationals. -/
theorem matrix_forwarding_gated (m : KeyMatrix) (nb RAND_MAX : Nat) (rand : Nat → Nat)
    (hsq : Square m) (hself : m.m_nodeId < m.m_networkSize) (hnb : nb < m.m_networkSize)
    (hRM : 0 < RAND_MAX) (hfull : m.SelfIsFull1 = .ok false) :
    ∃ cr, m.CalculateCR nb = .ok cr ∧
      (¬ (cr.den ≠ 0 ∧ (RandomVariable RAND_MAX (rand 0)).toRat < cr.toRat) →
        m.GetForwardingContributions nb RAND_MAX rand =
          .ok (List.replicate m.m_networkSize '0')) ∧
      (cr.den ≠ 0 ∧ (RandomVariable RAND_MAX (rand 0)).toRat < cr.toRat →
        ∃ s, m.GetForwardingContributions nb RAND_MAX rand = .ok s ∧
          s.length = m.m_networkSize ∧
          ∀ i < m.m_networkSize, ∃ fd, m.CalculateFD i = .ok fd ∧
            (s[i]? = some '1' ∨ s[i]? = some '0') ∧
            (s[i]? = some '1' ↔
              m.HasKeyContribution m.m_nodeId i = .ok true ∧
              m.HasKeyContribution nb i = .ok false ∧
              fd.toRat < (RandomVariable RAND_MAX (rand (drawIndex m nb i))).toRat)) := by
  refine ⟨_, CalculateCR_eq hsq hself hnb, ?_, ?_⟩
  · intro hgate
    have hlt : Ratio.lt (RandomVariable RAND_MAX (rand 0))
        { num := (List.range m.m_networkSize).countP
            (fun j => cell m.m_matrix m.m_nodeId j && !cell m.m_matrix nb j),
          den := (List.range m.m_networkSize).countP
            (fun j => cell m.m_matrix m.m_nodeId j || cell m.m_matrix nb j) } = false := by
      rw [Bool.eq_false_iff]
      intro h
      obtain ⟨_, h2, h3⟩ := (Ratio.lt_iff _ _).1 h
      exact hgate ⟨h2, h3⟩
    unfold GetForwardingContributions
    simp only [hfull, CalculateCR_eq hsq hself hnb, bind, Except.bind, Bool.false_eq_true,
      if_false, hlt, pure, Except.pure]
  · rintro ⟨hden, hgate⟩
    have hlt : Ratio.lt (RandomVariable RAND_MAX (rand 0))
        { num := (List.range m.m_networkSize).countP
            (fun j => cell m.m_matrix m.m_nodeId j && !cell m.m_matrix nb j),
          den := (List.range m.m_networkSize).countP
            (fun j => cell m.m_matrix m.m_nodeId j || cell m.m_matrix nb j) } = true :=
      (Ratio.lt_iff _ _).2 ⟨by simp only [RandomVariable]; omega, hden, hgate⟩
    obtain ⟨st, hrun, hlen, hget⟩ := forwarding_loop_spec m nb RAND_MAX rand hsq hself hnb
    refine ⟨st.1, ?_, hlen, fun i hi => ⟨_, CalculateFD_eq hsq hi, ?_, ?_⟩⟩
    · unfold GetForwardingContributions
      simp only [hfull, CalculateCR_eq hsq hself hnb, bind, Except.bind, Bool.false_eq_true,
        if_false, hlt, if_true, hrun, pure, Except.pure]
    · rw [hget i hi]
      split
      · exact Or.inl rfl
      · exact Or.inr rfl
    · rw [hget i hi]
      unfold HasKeyContribution
      rw [readCell_ok hsq hself hi, readCell_ok hsq hnb hi]
      constructor
      · intro h
        injection h with h
        split at h
        · rename_i hc
          obtain ⟨h1, h2, h3⟩ := hc
          rw [h1, h2]
          exact ⟨rfl, rfl, ((Ratio.lt_iff _ _).1 h3).2.2⟩
        · exact absurd h (by decide)
      · rintro ⟨h1, h2, h3⟩
        injection h1 with h1
        injection h2 with h2
        rw [if_pos ⟨h1, h2, (Ratio.lt_iff _ _).2 ⟨by simp only; omega,
          by simp only [RandomVariable]; omega, h3⟩⟩]

theorem matrix_forwarding_gated_witness :
    (exMatrix1.SelfIsFull1 = .ok false ∧
     exMatrix1.CalculateCR 2 = .ok { num := 2, den := 3 } ∧
     exMatrix1.GetForwardingContributions 2 32767 (fun k => 20000 + 10000 * (k % 2)) =
       .ok ['1', '0', '0'] ∧
     exMatrix1.GetForwardingContributions 2 32767 (fun _ => 30000) = .ok ['0', '0', '0']) ∧
    ∃ cr, exMatrix1.CalculateCR 2 = .ok cr ∧
      (¬ (cr.den ≠ 0 ∧
          (RandomVariable 32767 ((fun k => 20000 + 10000 * (k % 2)) 0)).toRat < cr.toRat) →
        exMatrix1.GetForwardingContributions 2 32767 (fun k => 20000 + 10000 * (k % 2)) =
          .ok (List.replicate exMatrix1.m_networkSize '0')) ∧
      (cr.den ≠ 0 ∧
          (RandomVariable 32767 ((fun k => 20000 + 10000 * (k % 2)) 0)).toRat < cr.toRat →
        ∃ s, exMatrix1.GetForwardingContributions 2 32767 (fun k => 20000 + 10000 * (k % 2))
            = .ok s ∧
          s.length = exMatrix1.m_networkSize ∧
          ∀ i < exMatrix1.m_networkSize, ∃ fd, exMatrix1.CalculateFD i = .ok fd ∧
            (s[i]? = some '1' ∨ s[i]? = some '0') ∧
            (s[i]? = some '1' ↔
              exMatrix1.HasKeyContribution exMatrix1.m_nodeId i = .ok true ∧
              exMatrix1.HasKeyContribution 2 i = .ok false ∧
              fd.toRat < (RandomVariable 32767
                ((fun k => 20000 + 10000 * (k % 2)) (drawIndex exMatrix1 2 i))).toRat)) :=
  ⟨by decide, matrix_forwarding_gated exMatrix1 2 32767 (fun k => 20000 + 10000 * (k % 2))
    (by decide) (by decide) (by decide) (by decide) (by decide)⟩

/-- C8: for every square matrix state, every neighbor id below `N` and every
stream of draws, `GetForwardingContributions` returns a string of length `N`,
and each index where it has `'1'` satisfies `matrix[self][i] == true`; when
`SelfIsFull1()` is false it also satisfies `matrix[neighbor][i] == false`. -/
theorem matrix_forwarding_legal (m : KeyMatrix) (nb RAND_MAX : Nat) (rand : Nat → Nat)
    (hsq : Square m) (hself : m.m_nodeId < m.m_networkSize) (hnb : nb < m.m_networkSize) :
    ∃ s, m.GetForwardingContributions nb RAND_MAX rand = .ok s ∧ s.length = m.m_networkSize ∧
      ∀ i, s[i]? = some '1' →
        m.HasKeyContribution m.m_nodeId i = .ok true ∧
        (m.SelfIsFull1 = .ok false → m.HasKeyContribution nb i = .ok false) := by
  have hfull := SelfIsFull1_eq hsq hself
  cases hall : (List.range m.m_networkSize).all (fun i => cell m.m_matrix m.m_nodeId i)
  · rw [hall] at hfull
    unfold GetForwardingContributions
    simp only [hfull, CalculateCR_eq hsq hself hnb, bind, Except.bind, Bool.false_eq_true,
      if_false]
    split
    · obtain ⟨st, hrun, hlen, hget⟩ := forwarding_loop_spec m nb RAND_MAX rand hsq hself hnb
      refine ⟨st.1, by simp [hrun, pure, Except.pure], hlen, fun i hi1 => ?_⟩
      have hi : i < m.m_networkSize := by
        by_contra hn
        rw [List.getElem?_eq_none (by omega)] at hi1
        exact absurd hi1 (by simp)
      rw [hget i hi] at hi1
      injection hi1 with hi1
      split at hi1
      · rename_i hc
        unfold HasKeyContribution
        rw [readCell_ok hsq hself hi, readCell_ok hsq hnb hi, hc.1, hc.2.1]
        exact ⟨rfl, fun _ => rfl⟩
      · exact absurd hi1 (by decide)
    · refine ⟨_, rfl, by simp, fun i hi1 => ?_⟩
      rw [List.getElem?_replicate] at hi1
      split at hi1
      · injection hi1 with hi1; exact absurd hi1 (by decide)
      · exact absurd hi1 (by simp)
  · rw [hall] at hfull
    rw [forwarding_of_full m nb RAND_MAX rand hfull]
    refine ⟨_, rfl, by simp, fun i hi1 => ?_⟩
    have hi : i < m.m_networkSize := by
      by_contra hn
      rw [List.getElem?_eq_none (by simp; omega)] at hi1
      exact absurd hi1 (by simp)
    have := List.all_eq_true.1 hall i (List.mem_range.2 hi)
    simp only at this
    unfold HasKeyContribution
    rw [readCell_ok hsq hself hi, this]
    exact ⟨rfl, fun h => by rw [hfull] at h; simp at h⟩

theorem matrix_forwarding_legal_witness :
    ∃ s, exMatrix1.GetForwardingContributions 2 32767 (fun _ => 16000) = .ok s ∧
      s.length = exMatrix1.m_networkSize ∧
      ∀ i, s[i]? = some '1' →
        exMatrix1.HasKeyContribution exMatrix1.m_nodeId i = .ok true ∧
        (exMatrix1.SelfIsFull1 = .ok false → exMatrix1.HasKeyContribution 2 i = .ok false) :=
  matrix_forwarding_legal exMatrix1 2 32767 (fun _ => 16000) (by decide) (by decide) (by decide)

/-- C10: for a square matrix with an all-true diagonal and `self`, `neighbor`
below `N`, `CalculateCR` returns the quotient of the difference count by the
union count; the union count is at least 1, the difference count is at most the
union count, and the quotient lies between 0 and 1. -/
theorem CalculateCR_bounds (m : KeyMatrix) (nb : Nat) (hsq : Square m) (hdiag : DiagonalTrue m)
    (hself : m.m_nodeId < m.m_networkSize) (hnb : nb < m.m_networkSize) :
    ∃ cr, m.CalculateCR nb = .ok cr ∧ CalculateCR.counts m nb = .ok (cr.num, cr.den) ∧
      cr.num = (List.range m.m_networkSize).countP
        (fun j => cell m.m_matrix m.m_nodeId j && !cell m.m_matrix nb j) ∧
      cr.den = (List.range m.m_networkSize).countP
        (fun j => cell m.m_matrix m.m_nodeId j || cell m.m_matrix nb j) ∧
      1 ≤ cr.den ∧ cr.num ≤ cr.den ∧ 0 ≤ cr.toRat ∧ cr.toRat ≤ 1 := by
  have hden : 1 ≤ (List.range m.m_networkSize).countP
      (fun j => cell m.m_matrix m.m_nodeId j || cell m.m_matrix nb j) := by
    apply List.countP_pos_iff.2
    exact ⟨m.m_nodeId, List.mem_range.2 hself, by simp [hdiag m.m_nodeId hself]⟩
  have hle : (List.range m.m_networkSize).countP
      (fun j => cell m.m_matrix m.m_nodeId j && !cell m.m_matrix nb j) ≤
      (List.range m.m_networkSize).countP
      (fun j => cell m.m_matrix m.m_nodeId j || cell m.m_matrix nb j) := by
    apply List.countP_mono_left
    intro j _ hj
    simp only [Bool.and_eq_true] at hj
    simp [hj.1]
  refine ⟨_, CalculateCR_eq hsq hself hnb, CalculateCR_counts_eq hsq hself hnb, rfl, rfl, hden,
    hle, ?_, ?_⟩
  · unfold Ratio.toRat
    positivity
  · unfold Ratio.toRat
    simp only
    rw [div_le_one (by exact_mod_cast hden)]
    exact_mod_cast hle

theorem CalculateCR_bounds_witness :
    ∃ cr, exMatrix1.CalculateCR 2 = .ok cr ∧
      CalculateCR.counts exMatrix1 2 = .ok (cr.num, cr.den) ∧
      cr.num = (List.range exMatrix1.m_networkSize).countP
        (fun j => cell exMatrix1.m_matrix exMatrix1.m_nodeId j && !cell exMatrix1.m_matrix 2 j) ∧
      cr.den = (List.range exMatrix1.m_networkSize).countP
        (fun j => cell exMatrix1.m_matrix exMatrix1.m_nodeId j || cell exMatrix1.m_matrix 2 j) ∧
      1 ≤ cr.den ∧ cr.num ≤ cr.den ∧ 0 ≤ cr.toRat ∧ cr.toRat ≤ 1 :=
  CalculateCR_bounds exMatrix1 2 (by decide) (by decide) (by decide) (by decide)

/-! ## The example states -/

/-- The example trees and matrices are states the constructors and the public
operations produce. -/
theorem example_states_reachable :
    KeyGenerationTree.KeyGenerationTree 5 1 = .ok exTree5 ∧
    (KeyGenerationTree.KeyGenerationTree 1 0 >>= fun t => t.StringToTree ['0']) = .ok exTree1 ∧
    KeyGenerationTree.KeyGenerationTree 4 0 = .ok exNode0 ∧
    KeyGenerationTree.KeyGenerationTree 4 3 = .ok exNode3 ∧
    (KeyGenerationTree.KeyGenerationTree 4 1 >>= fun t => t.AddContribution 2) = .ok exNode1 ∧
    (KeyMatrix.KeyMatrix 3 0).ReceiveKeyContribution 1 = .ok exMatrix1 ∧
    exMatrix1.ReceiveKeyContribution 2 = .ok exMatrix2 := by
  decide

end MatrixTheorems

section Extensionality

open KeyMatrix

/-! ## Equal bitmaps, equal matrices, nested loops -/

theorem bitmap_ext {v w : List Bool} (hlen : v.length = w.length)
    (h : ∀ j < v.length, bit v j = bit w j) : v = w := by
  apply List.ext_getElem?
  intro j
  by_cases hj : j < v.length
  · have h1 := h j hj
    unfold bit at h1
    rw [List.getD_eq_getElem?_getD, List.getD_eq_getElem?_getD,
      List.getElem?_eq_getElem hj, List.getElem?_eq_getElem (by omega)] at h1
    rw [List.getElem?_eq_getElem hj, List.getElem?_eq_getElem (by omega)]
    simpa using h1
  · rw [List.getElem?_eq_none (by omega), List.getElem?_eq_none (by omega)]

theorem getD_set_rows (mat : List (List Bool)) (i k : Nat) (row : List Bool) :
    (mat.set i row).getD k [] = if i = k ∧ i < mat.length then row else mat.getD k [] := by
  induction mat generalizing i k with
  | nil => simp
  | cons a mat ih =>
    cases i with
    | zero => cases k <;> simp
    | succ i =>
      cases k with
      | zero => simp
      | succ k => simpa using ih i k

theorem matrix_ext {a b : List (List Bool)} {n : Nat} (ha : a.length = n) (hb : b.length = n)
    (har : ∀ i < n, (a.getD i []).length = n) (hbr : ∀ i < n, (b.getD i []).length = n)
    (h : ∀ i < n, ∀ j < n, cell a i j = cell b i j) : a = b := by
  apply List.ext_getElem?
  intro i
  by_cases hi : i < n
  · have e1 : a[i]? = some (a.getD i []) := by
      rw [List.getD_eq_getElem?_getD, List.getElem?_eq_getElem (by omega)]; rfl
    have e2 : b[i]? = some (b.getD i []) := by
      rw [List.getD_eq_getElem?_getD, List.getElem?_eq_getElem (by omega)]; rfl
    rw [e1, e2]
    congr 1
    apply bitmap_ext (by rw [har i hi, hbr i hi])
    intro j hj
    rw [har i hi] at hj
    exact h i hi j hj
  · rw [List.getElem?_eq_none (by omega), List.getElem?_eq_none (by omega)]

/-- Writing a cell inside a matrix returns; it keeps the number of rows and
their lengths and changes that cell only. -/
theorem writeCell_spec {mat : List (List Bool)} {i j : Nat} (b : Bool) (hi : i < mat.length)
    (hj : j < (mat.getD i []).length) :
    writeCell mat i j b = .ok (mat.set i ((mat.getD i []).set j b)) ∧
    (mat.set i ((mat.getD i []).set j b)).length = mat.length ∧
    (∀ k, ((mat.set i ((mat.getD i []).set j b)).getD k []).length = (mat.getD k []).length) ∧
    (∀ k l, cell (mat.set i ((mat.getD i []).set j b)) k l =
      if k = i ∧ l = j then b else cell mat k l) := by
  refine ⟨?_, by simp, fun k => ?_, fun k l => ?_⟩
  · unfold writeCell
    rw [if_pos hi, writeBit_ok b hj]
    rfl
  · rw [getD_set_rows]
    split
    · rename_i h; rw [← h.1]; simp
    · rfl
  · unfold cell
    rw [getD_set_rows]
    by_cases hk : i = k
    · subst hk
      rw [if_pos ⟨rfl, hi⟩, bit_set]
      by_cases hl : j = l
      · subst hl; rw [if_pos ⟨rfl, hj⟩, if_pos ⟨rfl, rfl⟩]
      · rw [if_neg (fun h => hl h.1), if_neg (fun h => hl h.2.symm)]
    · rw [if_neg (fun h => hk h.1), if_neg (fun h => hk h.1.symm)]

/-- Loop rule for two nested `for` loops over `0 .. n-1` and `0 .. k-1`. -/
theorem foldlM_range2_inv {σ : Type} (body : σ → Nat → Nat → Except Error σ)
    (P : Nat → Nat → σ → Prop) (n k : Nat) (s0 : σ) (h0 : P 0 0 s0)
    (hstep : ∀ i j s, i < n → j < k → P i j s → ∃ s', body s i j = .ok s' ∧ P i (j + 1) s')
    (hrow : ∀ i s, i < n → P i k s → P (i + 1) 0 s) :
    ∃ s', (List.range n).foldlM
        (fun s i => (List.range k).foldlM (fun s j => body s i j) s) s0 = .ok s' ∧
      P n 0 s' := by
  refine foldlM_range_inv _ (fun i s => P i 0 s) n s0 h0 (fun i s hi hP => ?_)
  obtain ⟨s', hrun, hP'⟩ := foldlM_range_inv (fun s j => body s i j) (fun j s => P i j s) k s hP
    (fun j s hj hPj => hstep i j s hi hj hPj)
  exact ⟨s', hrun, hrow i s' hi hP'⟩

end Extensionality

section MatrixMerge

open KeyMatrix

/-! ## KeyMatrix: complement rate of a subset, MergeMatrix -/

theorem readCell_raw {mat : List (List Bool)} {i j : Nat} (hi : i < mat.length)
    (hj : j < (mat.getD i []).length) : readCell mat i j = .ok (cell mat i j) := by
  unfold readCell cell
  rw [if_pos hi, readBit_ok hj]

/-- C11: for a square matrix with an all-true diagonal and `self`, `neighbor`
below `N`, `CalculateCR(neighbor)` is exactly 0 (difference count 0 over a union
count of at least 1) when every contribution held in row `self` is held in row
`neighbor`; in particular `CalculateCR(self)` is 0. -/
theorem CalculateCR_subset_zero (m : KeyMatrix) (nb : Nat) (hsq : Square m)
    (hdiag : DiagonalTrue m) (hself : m.m_nodeId < m.m_networkSize)
    (hnb : nb < m.m_networkSize)
    (hsub : ∀ j < m.m_networkSize, cell m.m_matrix m.m_nodeId j = true →
      cell m.m_matrix nb j = true) :
    (∃ cr, m.CalculateCR nb = .ok cr ∧ cr.num = 0 ∧ 1 ≤ cr.den ∧ cr.toRat = 0) ∧
    (∃ cr, m.CalculateCR m.m_nodeId = .ok cr ∧ cr.num = 0 ∧ 1 ≤ cr.den ∧ cr.toRat = 0) := by
  have key : ∀ k < m.m_networkSize,
      (∀ j < m.m_networkSize, cell m.m_matrix m.m_nodeId j = true → cell m.m_matrix k j = true) →
      ∃ cr, m.CalculateCR k = .ok cr ∧ cr.num = 0 ∧ 1 ≤ cr.den ∧ cr.toRat = 0 := by
    intro k hk hs
    have hnum : (List.range m.m_networkSize).countP
        (fun j => cell m.m_matrix m.m_nodeId j && !cell m.m_matrix k j) = 0 := by
      rw [List.countP_eq_zero]
      intro j hj
      have hj' := List.mem_range.1 hj
      cases hc : cell m.m_matrix m.m_nodeId j
      · simp
      · simp [hs j hj' hc]
    have hden : 1 ≤ (List.range m.m_networkSize).countP
        (fun j => cell m.m_matrix m.m_nodeId j || cell m.m_matrix k j) := by
      apply List.countP_pos_iff.2
      exact ⟨m.m_nodeId, List.mem_range.2 hself, by simp [hdiag m.m_nodeId hself]⟩
    refine ⟨_, CalculateCR_eq hsq hself hk, hnum, hden, ?_⟩
    unfold Ratio.toRat
    simp only [hnum]
    simp
  exact ⟨key nb hnb hsub, key m.m_nodeId hself (fun _ _ h => h)⟩

theorem CalculateCR_subset_zero_witness :
    (∃ cr, exMatrix1.CalculateCR 0 = .ok cr ∧ cr.num = 0 ∧ 1 ≤ cr.den ∧ cr.toRat = 0) ∧
    (∃ cr, exMatrix1.CalculateCR exMatrix1.m_nodeId = .ok cr ∧ cr.num = 0 ∧ 1 ≤ cr.den ∧
      cr.toRat = 0) :=
  CalculateCR_subset_zero exMatrix1 0 (by decide) (by decide) (by decide) (by decide) (by decide)

/-- `MergeMatrix` of two square matrices of the same size returns a square
matrix of that size with the same `m_nodeId`, whose cells are the OR of the
cells of the two. -/
theorem MergeMatrix_spec (m r : KeyMatrix) (hsq : Square m) (hsqr : Square r)
    (hN : m.m_networkSize = r.m_networkSize) :
    ∃ mat, m.MergeMatrix r = .ok { m with m_matrix := mat } ∧
      mat.length = m.m_networkSize ∧
      (∀ i < m.m_networkSize, (mat.getD i []).length = m.m_networkSize) ∧
      ∀ i < m.m_networkSize, ∀ j < m.m_networkSize,
        cell mat i j = (cell m.m_matrix i j || cell r.m_matrix i j) := by
  obtain ⟨hl, hr⟩ := hsq
  obtain ⟨mat, hrun, hlen, hrows, hcells⟩ := foldlM_range2_inv
    (fun mat i j => MergeMatrix.step r mat i j)
    (fun i j (mat : List (List Bool)) => mat.length = m.m_networkSize ∧
      (∀ k < m.m_networkSize, (mat.getD k []).length = m.m_networkSize) ∧
      ∀ k < m.m_networkSize, ∀ l < m.m_networkSize, cell mat k l =
        if k < i ∨ (k = i ∧ l < j) then (cell m.m_matrix k l || cell r.m_matrix k l)
        else cell m.m_matrix k l)
    m.m_networkSize m.m_networkSize m.m_matrix
    ⟨hl, hr, fun k _ l _ => by simp⟩
    (by
      rintro i j mat hi hj ⟨hlen, hrows, hcells⟩
      have hi' : i < mat.length := by omega
      have hj' : j < (mat.getD i []).length := by rw [hrows i hi]; exact hj
      have hcur : cell mat i j = cell m.m_matrix i j := by
        rw [hcells i hi j hj, if_neg (by omega)]
      obtain ⟨hw, hwl, hwr, hwc⟩ := writeCell_spec
        (cell m.m_matrix i j || cell r.m_matrix i j) hi' hj'
      refine ⟨mat.set i ((mat.getD i []).set j (cell m.m_matrix i j || cell r.m_matrix i j)),
        ?_, by omega, fun k hk => by rw [hwr k]; exact hrows k hk, fun k hk l hl' => ?_⟩
      · unfold MergeMatrix.step
        simp only [readCell_raw hi' hj', hcur, bind, Except.bind]
        cases ha : cell m.m_matrix i j
        · simp only [Bool.false_eq_true, if_false,
            readCell_ok hsqr (show i < r.m_networkSize by omega) (show j < r.m_networkSize by omega)]
          rw [ha] at hw
          exact hw
        · simp only [if_true, pure, Except.pure]
          rw [ha] at hw
          exact hw
      · rw [hwc k l]
        by_cases hkl : k = i ∧ l = j
        · obtain ⟨h1, h2⟩ := hkl
          subst h1; subst h2
          rw [if_pos ⟨rfl, rfl⟩, if_pos (Or.inr ⟨rfl, by omega⟩)]
        · rw [if_neg hkl, hcells k hk l hl']
          by_cases hc : k < i ∨ (k = i ∧ l < j)
          · rw [if_pos hc, if_pos (by omega)]
          · rw [if_neg hc, if_neg (by omega)])
    (by
      rintro i mat hi ⟨hlen, hrows, hcells⟩
      refine ⟨hlen, hrows, fun k hk l hl' => ?_⟩
      rw [hcells k hk l hl']
      by_cases hc : k < i ∨ (k = i ∧ l < m.m_networkSize)
      · rw [if_pos hc, if_pos (by omega)]
      · rw [if_neg hc, if_neg (by omega)])
  refine ⟨mat, ?_, hlen, hrows, fun i hi j hj => ?_⟩
  · unfold MergeMatrix
    simp only [hrun, bind, Except.bind, pure, Except.pure]
  · rw [hcells i hi j hj, if_pos (by omega)]

/-- A received matrix whose true cells are all true locally changes nothing. -/
theorem MergeMatrix_subsumed (m r : KeyMatrix) (hsq : Square m) (hsqr : Square r)
    (hN : m.m_networkSize = r.m_networkSize)
    (hsub : ∀ i < m.m_networkSize, ∀ j < m.m_networkSize,
      cell r.m_matrix i j = true → cell m.m_matrix i j = true) :
    m.MergeMatrix r = .ok m := by
  obtain ⟨mat, hrun, hlen, hrows, hcells⟩ := MergeMatrix_spec m r hsq hsqr hN
  have e : mat = m.m_matrix := by
    apply matrix_ext hlen hsq.1 hrows hsq.2
    intro i hi j hj
    rw [hcells i hi j hj]
    cases hm : cell m.m_matrix i j
    · cases hr : cell r.m_matrix i j
      · rfl
      · rw [hsub i hi j hj hr] at hm; exact absurd hm (by decide)
    · rfl
  rw [hrun, e]

end MatrixMerge

section MatrixUnion

open KeyMatrix

/-! ## KeyMatrix: MatrixToString, MergeMatrix as a union -/

/-- `MatrixToString` of a square matrix returns a string of `N * N` characters
`'0'`/`'1'` whose character at position `i * N + j` tells cell `(i, j)`. -/
theorem MatrixToString_spec (m : KeyMatrix) (hsq : Square m) :
    ∃ s, m.MatrixToString = .ok s ∧ s.length = m.m_networkSize * m.m_networkSize ∧
      (∀ c ∈ s, c = '0' ∨ c = '1') ∧
      ∀ i < m.m_networkSize, ∀ j < m.m_networkSize,
        s[i * m.m_networkSize + j]? = some (if cell m.m_matrix i j = true then '1' else '0') := by
  obtain ⟨s, hrun, hlen, hchars, hget⟩ := foldlM_range2_inv
    (fun s i j => MatrixToString.step m s i j)
    (fun i j (s : List Char) => s.length = i * m.m_networkSize + j ∧
      (∀ c ∈ s, c = '0' ∨ c = '1') ∧
      ∀ k l, l < m.m_networkSize → (k < i ∨ (k = i ∧ l < j)) →
        s[k * m.m_networkSize + l]? = some (if cell m.m_matrix k l = true then '1' else '0'))
    m.m_networkSize m.m_networkSize []
    ⟨by simp, by simp, fun k l _ h => by omega⟩
    (by
      rintro i j s hi hj ⟨hlen, hchars, hget⟩
      unfold MatrixToString.step
      simp only [readCell_ok hsq hi hj, bind, Except.bind, pure, Except.pure]
      refine ⟨_, rfl, by simp [hlen]; omega, fun c hc => ?_, fun k l hl hkl => ?_⟩
      · rcases List.mem_append.1 hc with h | h
        · exact hchars c h
        · rw [List.mem_singleton] at h
          rw [h]
          split
          · exact Or.inr rfl
          · exact Or.inl rfl
      · by_cases hcur : k = i ∧ l = j
        · obtain ⟨h1, h2⟩ := hcur
          subst h1; subst h2
          rw [List.getElem?_append_right (by omega)]
          simp [hlen]
        · have hlt : k * m.m_networkSize + l < s.length := by
            rw [hlen]
            rcases hkl with h | ⟨h1, h2⟩
            · have h3 := Nat.mul_le_mul_right m.m_networkSize (show k + 1 ≤ i from h)
              rw [Nat.succ_mul] at h3
              omega
            · subst h1; omega
          rw [List.getElem?_append_left hlt]
          exact hget k l hl (by omega))
    (by
      rintro i s hi ⟨hlen, hchars, hget⟩
      refine ⟨by rw [hlen, Nat.succ_mul]; omega, hchars, fun k l hl hkl => ?_⟩
      exact hget k l hl (by omega))
  refine ⟨s, hrun, by rw [hlen]; omega, hchars, fun i hi j hj => hget i j hj (Or.inl hi)⟩

/-- C12: for two square matrices of the same size, `MergeMatrix` returns a
matrix of that size and `m_nodeId` in which every cell is the OR of the cell
before and the cell of the received matrix, so no true cell becomes false; the
received matrix is read only, and also when it is the receiver itself nothing
changes. -/
theorem MergeMatrix_union (m r : KeyMatrix) (hsq : Square m) (hsqr : Square r)
    (hN : m.m_networkSize = r.m_networkSize) :
    (∃ m1, m.MergeMatrix r = .ok m1 ∧ Square m1 ∧ m1.m_networkSize = m.m_networkSize ∧
      m1.m_nodeId = m.m_nodeId ∧
      (∀ i < m.m_networkSize, ∀ j < m.m_networkSize, ∃ a b,
        m.HasKeyContribution i j = .ok a ∧ r.HasKeyContribution i j = .ok b ∧
        m1.HasKeyContribution i j = .ok (a || b)) ∧
      (∀ i < m.m_networkSize, ∀ j < m.m_networkSize,
        cell m.m_matrix i j = true → cell m1.m_matrix i j = true)) ∧
    m.MergeMatrix m = .ok m := by
  obtain ⟨mat, hrun, hlen, hrows, hcells⟩ := MergeMatrix_spec m r hsq hsqr hN
  have hsq1 : Square { m with m_matrix := mat } := ⟨hlen, hrows⟩
  refine ⟨⟨_, hrun, hsq1, rfl, rfl, fun i hi j hj => ?_, fun i hi j hj h => ?_⟩,
    MergeMatrix_subsumed m m hsq hsq rfl (fun _ _ _ _ h => h)⟩
  · refine ⟨_, _, readCell_ok hsq hi hj,
      readCell_ok hsqr (show i < r.m_networkSize by omega) (show j < r.m_networkSize by omega), ?_⟩
    unfold HasKeyContribution
    rw [readCell_ok hsq1 (show i < m.m_networkSize from hi) (show j < m.m_networkSize from hj)]
    simp only
    rw [hcells i hi j hj]
  · simp only
    rw [hcells i hi j hj, h]; rfl

theorem MergeMatrix_union_witness :
    (∃ m1, exMatrix1.MergeMatrix exMatrix2 = .ok m1 ∧ Square m1 ∧
      m1.m_networkSize = exMatrix1.m_networkSize ∧ m1.m_nodeId = exMatrix1.m_nodeId ∧
      (∀ i < exMatrix1.m_networkSize, ∀ j < exMatrix1.m_networkSize, ∃ a b,
        exMatrix1.HasKeyContribution i j = .ok a ∧ exMatrix2.HasKeyContribution i j = .ok b ∧
        m1.HasKeyContribution i j = .ok (a || b)) ∧
      (∀ i < exMatrix1.m_networkSize, ∀ j < exMatrix1.m_networkSize,
        cell exMatrix1.m_matrix i j = true → cell m1.m_matrix i j = true)) ∧
    exMatrix1.MergeMatrix exMatrix1 = .ok exMatrix1 :=
  MergeMatrix_union exMatrix1 exMatrix2 (by decide) (by decide) (by decide)

/-- C14: for two square matrices of the same size, if every true cell of the
received matrix is already true locally then `MergeMatrix` leaves the matrix
as it is and `MatrixToString()` returns the same string before and after; and
merging the received matrix a second time changes nothing. -/
theorem MergeMatrix_idempotent (m r : KeyMatrix) (hsq : Square m) (hsqr : Square r)
    (hN : m.m_networkSize = r.m_networkSize) :
    ((∀ i < m.m_networkSize, ∀ j < m.m_networkSize,
        cell r.m_matrix i j = true → cell m.m_matrix i j = true) →
      m.MergeMatrix r = .ok m ∧
      ∃ s, m.MatrixToString = .ok s ∧ (m.MergeMatrix r >>= fun m1 => m1.MatrixToString) = .ok s) ∧
    ∃ m1, m.MergeMatrix r = .ok m1 ∧ m1.MergeMatrix r = .ok m1 := by
  constructor
  · intro hsub
    have h := MergeMatrix_subsumed m r hsq hsqr hN hsub
    obtain ⟨s, hs, _⟩ := MatrixToString_spec m hsq
    exact ⟨h, s, hs, by rw [h]; exact hs⟩
  · obtain ⟨mat, hrun, hlen, hrows, hcells⟩ := MergeMatrix_spec m r hsq hsqr hN
    have hsq1 : Square { m with m_matrix := mat } := ⟨hlen, hrows⟩
    refine ⟨_, hrun, MergeMatrix_subsumed _ r hsq1 hsqr hN (fun i hi j hj h => ?_)⟩
    simp only
    rw [hcells i hi j hj, h]; simp

theorem MergeMatrix_idempotent_witness :
    (exMatrix2.MergeMatrix exMatrix1 = .ok exMatrix2 ∧
      ∃ s, exMatrix2.MatrixToString = .ok s ∧
        (exMatrix2.MergeMatrix exMatrix1 >>= fun m1 => m1.MatrixToString) = .ok s) ∧
    ∃ m1, exMatrix1.MergeMatrix exMatrix2 = .ok m1 ∧ m1.MergeMatrix exMatrix2 = .ok m1 :=
  ⟨(MergeMatrix_idempotent exMatrix2 exMatrix1 (by decide) (by decide) (by decide)).1 (by decide),
   (MergeMatrix_idempotent exMatrix1 exMatrix2 (by decide) (by decide) (by decide)).2⟩

end MatrixUnion

section TreeSerialization

open KeyGenerationTree

/-! ## Tree serialization -/

/-- `TreeToString` on a bitmap of `m_nodeCount` bits returns the string of that
length whose character `i` is `'1'` or `'0'` as node `i` is owned or not. -/
theorem TreeToString_spec (t : KeyGenerationTree) (hlen : t.m_owned.length = t.m_nodeCount) :
    ∃ s, t.TreeToString = .ok s ∧ s.length = t.m_nodeCount ∧
      ∀ i < t.m_nodeCount, s[i]? = some (if bit t.m_owned i = true then '1' else '0') := by
  unfold TreeToString
  refine foldlM_range_inv _
    (fun n (s : List Char) => s.length = n ∧
      ∀ i < n, s[i]? = some (if bit t.m_owned i = true then '1' else '0'))
    t.m_nodeCount [] ⟨rfl, fun i hi => by omega⟩ ?_
  rintro n s hn ⟨hl, hget⟩
  simp only [readBit_ok (show n < t.m_owned.length by omega), bind, Except.bind, pure, Except.pure]
  refine ⟨_, rfl, by simp [hl], fun i hi => ?_⟩
  by_cases hin : i = n
  · subst hin
    rw [List.getElem?_append_right (by omega)]
    simp [hl]
  · rw [List.getElem?_append_left (by omega)]
    exact hget i (by omega)

/-- `StringToTree` with a string of `m_nodeCount` characters on a bitmap of
that many bits returns; the result differs in the bitmap only, and node `i` is
owned in it iff character `i` is `'1'`. -/
theorem StringToTree_spec (t : KeyGenerationTree) (s : List Char)
    (hlen : t.m_owned.length = t.m_nodeCount) (hs : s.length = t.m_nodeCount) :
    ∃ owned', t.StringToTree s = .ok { t with m_owned := owned' } ∧
      owned'.length = t.m_owned.length ∧
      ∀ i < t.m_nodeCount, bit owned' i = decide (s[i]? = some '1') := by
  obtain ⟨ow, hrun, hl, hbit⟩ := foldlM_range_inv
    (fun owned i => writeBit owned i (decide (s[i]? = some '1')))
    (fun n (ow : List Bool) => ow.length = t.m_owned.length ∧
      ∀ i < n, bit ow i = decide (s[i]? = some '1'))
    t.m_nodeCount t.m_owned ⟨rfl, fun i hi => by omega⟩ (by
      rintro n ow hn ⟨hl, hbit⟩
      refine ⟨_, writeBit_ok _ (by omega), by simpa using hl, fun i hi => ?_⟩
      by_cases hin : n = i
      · subst hin
        rw [bit_set_self _ (by omega)]
      · rw [bit_set_ne _ hin]
        exact hbit i (by omega))
  refine ⟨ow, ?_, hl, hbit⟩
  unfold StringToTree
  rw [if_neg (by simpa using hs)]
  simp only [hrun, bind, Except.bind, pure, Except.pure]

theorem WellFormed.nodeCount {t : KeyGenerationTree} (h : WellFormed t) :
    t.m_nodeCount = 2 * t.m_capacity - 1 ∧ t.m_owned.length = t.m_nodeCount := by
  have hs := h.shape
  obtain ⟨_, _, _, _, hn, hl⟩ := h
  exact ⟨by omega, hl⟩

theorem WellFormed.nodeCount_eq {t o : KeyGenerationTree} (ht : WellFormed t) (ho : WellFormed o)
    (hN : t.m_leafCount = o.m_leafCount) : o.m_nodeCount = t.m_nodeCount := by
  have hc := WellFormed.capacity_eq ht ho hN
  rw [ht.nodeCount.1, ho.nodeCount.1, hc]

/-- C16: for a well-formed tree `t`, `TreeToString()` is a string over `'0'`,
`'1'` of length `2 * capacity - 1` whose character `i` is `'1'` iff node `i` is
owned; `StringToTree` of it on a tree of the same participant count gives
exactly the bitmap of `t`, with the same `HasContribution`, `HasCompleteKey`
and `GetContributionCount`; and `TreeToString` after `StringToTree(s)` returns
`s` for every string `s` over `'0'`, `'1'` of that length. -/
theorem tree_serialization_roundtrip (t t1 : KeyGenerationTree) (hwf : WellFormed t)
    (hwf1 : WellFormed t1) (hN : t.m_leafCount = t1.m_leafCount) :
    (∃ s, t.TreeToString = .ok s ∧ s.length = 2 * t.m_capacity - 1 ∧
      (∀ c ∈ s, c = '0' ∨ c = '1') ∧
      (∀ i < 2 * t.m_capacity - 1, (s[i]? = some '1' ↔ bit t.m_owned i = true)) ∧
      t.StringToTree s = .ok t ∧
      ∃ r, t1.StringToTree s = .ok r ∧ r = { t1 with m_owned := t.m_owned } ∧
        (∀ i, r.HasContribution i = t.HasContribution i) ∧
        r.HasCompleteKey = t.HasCompleteKey ∧
        r.GetContributionCount = t.GetContributionCount) ∧
    ∀ s : List Char, s.length = 2 * t.m_capacity - 1 → (∀ c ∈ s, c = '0' ∨ c = '1') →
      ∃ r, t.StringToTree s = .ok r ∧ r.TreeToString = .ok s := by
  obtain ⟨hnc, hlen⟩ := hwf.nodeCount
  obtain ⟨hnc1, hlen1⟩ := hwf1.nodeCount
  have hcap := WellFormed.capacity_eq hwf hwf1 hN
  have hnode := WellFormed.nodeCount_eq hwf hwf1 hN
  constructor
  · obtain ⟨s, hrun, hsl, hget⟩ := TreeToString_spec t hlen
    have hback : ∀ u : KeyGenerationTree, u.m_owned.length = u.m_nodeCount →
        u.m_nodeCount = t.m_nodeCount → u.StringToTree s = .ok { u with m_owned := t.m_owned } := by
      intro u hul hun
      obtain ⟨ow, hrun', hl', hbit'⟩ := StringToTree_spec u s hul (by omega)
      have e : ow = t.m_owned := by
        apply bitmap_ext (by omega)
        intro j hj
        rw [hbit' j (by omega), hget j (by omega)]
        cases bit t.m_owned j <;> simp
      rw [hrun', e]
    refine ⟨s, hrun, by omega, fun c hc => ?_, fun i hi => ?_, hback t hlen rfl,
      _, hback t1 hlen1 hnode, rfl, fun i => ?_, ?_, ?_⟩
    · obtain ⟨j, hj, hjc⟩ := List.mem_iff_getElem.1 hc
      have := hget j (by omega)
      rw [List.getElem?_eq_getElem hj, hjc] at this
      injection this with this
      rw [this]
      split
      · exact Or.inr rfl
      · exact Or.inl rfl
    · rw [hget i (by omega)]
      cases bit t.m_owned i <;> simp
    · simp only [HasContribution, LeafToNodeIndex, hcap, ← hN]
    · simp only [HasCompleteKey]
    · simp only [GetContributionCount, LeafToNodeIndex, hcap, ← hN]
  · intro s hsl hchars
    obtain ⟨ow, hrun, hl, hbit⟩ := StringToTree_spec t s hlen (by omega)
    refine ⟨_, hrun, ?_⟩
    obtain ⟨s', hrun', hsl', hget'⟩ := TreeToString_spec { t with m_owned := ow }
      (by simp only; omega)
    simp only at hsl' hget'
    rw [hrun']
    congr 1
    apply List.ext_getElem?
    intro i
    by_cases hi : i < t.m_nodeCount
    · rw [hget' i hi, hbit i hi, List.getElem?_eq_getElem (by omega)]
      have hc := hchars s[i] (List.getElem_mem _)
      rcases hc with h | h <;> simp [h]
    · rw [List.getElem?_eq_none (by omega), List.getElem?_eq_none (by omega)]

theorem tree_serialization_roundtrip_witness :
    (∃ s, exNode1.TreeToString = .ok s ∧ s.length = 2 * exNode1.m_capacity - 1 ∧
      (∀ c ∈ s, c = '0' ∨ c = '1') ∧
      (∀ i < 2 * exNode1.m_capacity - 1, (s[i]? = some '1' ↔ bit exNode1.m_owned i = true)) ∧
      exNode1.StringToTree s = .ok exNode1 ∧
      ∃ r, exNode3.StringToTree s = .ok r ∧ r = { exNode3 with m_owned := exNode1.m_owned } ∧
        (∀ i, r.HasContribution i = exNode1.HasContribution i) ∧
        r.HasCompleteKey = exNode1.HasCompleteKey ∧
        r.GetContributionCount = exNode1.GetContributionCount) ∧
    ∀ s : List Char, s.length = 2 * exNode1.m_capacity - 1 → (∀ c ∈ s, c = '0' ∨ c = '1') →
      ∃ r, exNode1.StringToTree s = .ok r ∧ r.TreeToString = .ok s :=
  tree_serialization_roundtrip exNode1 exNode3 (by decide) (by decide) (by decide)

end TreeSerialization

section RejectedCalls

open KeyGenerationTree

/-! ## Rejected calls -/

theorem readBit_error {v : List Bool} {i : Nat} {e : Error} (h : readBit v i = .error e) :
    e = .undefined_behaviour := by
  unfold readBit at h
  split at h
  · simp at h
  · injection h with h; exact h.symm

theorem writeBit_error {v : List Bool} {i : Nat} {b : Bool} {e : Error}
    (h : writeBit v i b = .error e) : e = .undefined_behaviour := by
  unfold writeBit at h
  split at h
  · simp at h
  · injection h with h; exact h.symm

theorem bothOwned_error {v : List Bool} {i : Nat} {e : Error} (h : bothOwned v i = .error e) :
    e = .undefined_behaviour := by
  unfold bothOwned at h
  simp only [bind, Except.bind] at h
  cases hl : readBit v (LeftChild i) with
  | error e1 => rw [hl] at h; injection h with h; rw [← h]; exact readBit_error hl
  | ok l =>
    rw [hl] at h
    simp only at h
    cases l with
    | true => simp only [if_true] at h; exact readBit_error h
    | false => simp [pure, Except.pure] at h

/-- Loop rule for failures: a loop fails only with a failure of one of its rounds. -/
theorem foldlM_error_inv {σ α : Type} (body : σ → α → Except Error σ) (Q : Error → Prop)
    (hstep : ∀ a s e, body s a = .error e → Q e) :
    ∀ (l : List α) (s0 : σ) (e : Error), l.foldlM body s0 = .error e → Q e := by
  intro l
  induction l with
  | nil => intro s0 e h; simp [pure, Except.pure] at h
  | cons a l ih =>
    intro s0 e h
    rw [List.foldlM_cons] at h
    cases hb : body s0 a with
    | error e1 =>
      rw [hb] at h
      simp only [bind, Except.bind] at h
      injection h with h
      rw [← h]; exact hstep a s0 e1 hb
    | ok s1 =>
      rw [hb] at h
      exact ih s1 e (by simpa [bind, Except.bind] using h)

theorem mark_step_error (t : KeyGenerationTree) (s : List Char) (st : List Bool × Bool)
    (i : Nat) (e : Error) (h : AddMultipleContributions.step t s st i = .error e) :
    e = .undefined_behaviour := by
  unfold AddMultipleContributions.step at h
  split at h
  · simp only [bind, Except.bind] at h
    cases hrd : readBit st.1 (t.LeafToNodeIndex i) with
    | error e1 => rw [hrd] at h; injection h with h; rw [← h]; exact readBit_error hrd
    | ok o =>
      rw [hrd] at h
      simp only at h
      cases o with
      | true => simp [pure, Except.pure] at h
      | false =>
        simp only [Bool.not_false, if_true] at h
        cases hw : writeBit st.1 (t.LeafToNodeIndex i) true with
        | error e1 => rw [hw] at h; injection h with h; rw [← h]; exact writeBit_error hw
        | ok ow => rw [hw] at h; simp [pure, Except.pure] at h
  · simp [pure, Except.pure] at h

theorem bubble_loop_error : ∀ (fuel : Nat) (owned : List Bool) (nodes : List Nat) (e : Error),
    BubbleUpMerge.loop fuel owned nodes = .error e →
    e = .undefined_behaviour ∨ e = .out_of_fuel := by
  intro fuel
  induction fuel with
  | zero =>
    intro owned nodes e h
    unfold BubbleUpMerge.loop at h
    split at h
    · simp at h
    · injection h with h; exact Or.inr h.symm
  | succ fuel ih =>
    intro owned nodes e h
    unfold BubbleUpMerge.loop at h
    split at h
    · simp at h
    · simp only [bind, Except.bind] at h
      cases hrd : readBit owned (setMax nodes) with
      | error e1 =>
        rw [hrd] at h; injection h with h; rw [← h]; exact Or.inl (readBit_error hrd)
      | ok o =>
        rw [hrd] at h
        simp only at h
        cases o with
        | true => simp only [if_true] at h; exact ih _ _ _ h
        | false =>
          simp only [Bool.false_eq_true, if_false] at h
          cases hbo : bothOwned owned (setMax nodes) with
          | error e1 =>
            rw [hbo] at h; injection h with h; rw [← h]; exact Or.inl (bothOwned_error hbo)
          | ok both =>
            rw [hbo] at h
            simp only at h
            cases both with
            | false => simp only [Bool.false_eq_true, if_false] at h; exact ih _ _ _ h
            | true =>
              simp only [if_true] at h
              cases hw : writeBit owned (setMax nodes) true with
              | error e1 =>
                rw [hw] at h; injection h with h; rw [← h]; exact Or.inl (writeBit_error hw)
              | ok ow =>
                rw [hw] at h
                exact ih _ _ _ h

theorem BubbleUpMerge_error {t : KeyGenerationTree} {e : Error} (h : t.BubbleUpMerge = .error e) :
    e = .undefined_behaviour ∨ e = .out_of_fuel := by
  unfold BubbleUpMerge at h
  simp only [bind, Except.bind] at h
  cases hc : BubbleUpMerge.collect t with
  | error e1 =>
    rw [hc] at h
    injection h with h
    rw [← h]
    left
    unfold BubbleUpMerge.collect at hc
    refine foldlM_error_inv _ (fun e => e = .undefined_behaviour) (fun i nodes e2 hb => ?_) _ _ _ hc
    simp only [bind, Except.bind] at hb
    cases hrd : readBit t.m_owned (t.LeafToNodeIndex i) with
    | error e3 => rw [hrd] at hb; injection hb with hb; rw [← hb]; exact readBit_error hrd
    | ok o => rw [hrd] at hb; cases o <;> simp [pure, Except.pure] at hb
  | ok nodes =>
    rw [hc] at h
    simp only at h
    cases hl : BubbleUpMerge.loop (setMax nodes + 1) t.m_owned nodes with
    | error e1 => rw [hl] at h; injection h with h; rw [← h]; exact bubble_loop_error _ _ _ _ hl
    | ok owned => rw [hl] at h; simp [pure, Except.pure] at h

/-- With a string of the right length `AddMultipleContributions` does not end
in `invalid_argument`. -/
theorem AddMultipleContributions_error {t : KeyGenerationTree} {s : List Char} {e : Error}
    (hs : s.length = t.m_leafCount) (h : t.AddMultipleContributions s = .error e) :
    e = .undefined_behaviour ∨ e = .out_of_fuel := by
  unfold AddMultipleContributions at h
  rw [if_neg (by simpa using hs)] at h
  simp only [bind, Except.bind] at h
  cases hm : (List.range t.m_leafCount).foldlM (AddMultipleContributions.step t s)
      (t.m_owned, false) with
  | error e1 =>
    rw [hm] at h
    injection h with h
    rw [← h]
    exact Or.inl (foldlM_error_inv _ (fun e => e = .undefined_behaviour)
      (fun i st e2 hb => mark_step_error t s st i e2 hb) _ _ _ hm)
  | ok st =>
    rw [hm] at h
    simp only at h
    split at h
    · exact BubbleUpMerge_error h
    · simp [pure, Except.pure] at h

/-- C18: `AddMultipleContributions(s)` ends in `invalid_argument` iff the
length of `s` is not `N`, and `StringToTree(s)` iff the length of `s` is not
the node count, which is `2 * capacity - 1`; in both cases the object, and
with it the bitmap, is as before the call. -/
theorem tree_wrong_length_rejected (t : KeyGenerationTree) (s : List Char) :
    (((AddMultipleContributions.inPlace t s).outcome = .error .invalid_argument ↔
        s.length ≠ t.m_leafCount) ∧
      (s.length ≠ t.m_leafCount → (AddMultipleContributions.inPlace t s).object = t) ∧
      (t.AddMultipleContributions s = .error .invalid_argument ↔ s.length ≠ t.m_leafCount)) ∧
    (((StringToTree.inPlace t s).outcome = .error .invalid_argument ↔
        s.length ≠ t.m_nodeCount) ∧
      (s.length ≠ t.m_nodeCount → (StringToTree.inPlace t s).object = t) ∧
      (t.StringToTree s = .error .invalid_argument ↔ s.length ≠ t.m_nodeCount)) ∧
    (WellFormed t → t.m_nodeCount = 2 * t.m_capacity - 1 ∧ t.m_owned.length = t.m_nodeCount) := by
  have hA : t.AddMultipleContributions s = .error .invalid_argument ↔
      s.length ≠ t.m_leafCount := by
    constructor
    · intro h hs
      rcases AddMultipleContributions_error hs h with h1 | h1 <;> exact absurd h1 (by decide)
    · intro hs
      unfold AddMultipleContributions
      rw [if_pos hs]
  have hS : t.StringToTree s = .error .invalid_argument ↔ s.length ≠ t.m_nodeCount := by
    constructor
    · intro h hs
      unfold StringToTree at h
      rw [if_neg (by simpa using hs)] at h
      simp only [bind, Except.bind] at h
      cases hw : (List.range t.m_nodeCount).foldlM
          (fun owned i => writeBit owned i (decide (s[i]? = some '1'))) t.m_owned with
      | error e =>
        rw [hw] at h
        injection h with h
        have := foldlM_error_inv _ (fun e => e = .undefined_behaviour)
          (fun i ow e2 hb => writeBit_error hb) _ _ _ hw
        rw [h] at this
        exact absurd this (by decide)
      | ok ow => rw [hw] at h; simp [pure, Except.pure] at h
    · intro hs
      unfold StringToTree
      rw [if_pos hs]
  refine ⟨⟨?_, ?_, hA⟩, ⟨?_, ?_, hS⟩, fun hwf => hwf.nodeCount⟩
  · unfold AddMultipleContributions.inPlace
    constructor
    · intro h hs
      rw [if_neg (by simpa using hs)] at h
      cases hr : t.AddMultipleContributions s with
      | ok t1 => rw [hr] at h; simp at h
      | error e =>
        rw [hr] at h
        simp only at h
        injection h with h
        rw [h] at hr
        exact hA.1 hr hs
    · intro hs
      rw [if_pos hs]
  · intro hs
    unfold AddMultipleContributions.inPlace
    rw [if_pos hs]
  · unfold StringToTree.inPlace
    constructor
    · intro h hs
      rw [if_neg (by simpa using hs)] at h
      cases hr : t.StringToTree s with
      | ok t1 => rw [hr] at h; simp at h
      | error e =>
        rw [hr] at h
        simp only at h
        injection h with h
        rw [h] at hr
        exact hS.1 hr hs
    · intro hs
      rw [if_pos hs]
  · intro hs
    unfold StringToTree.inPlace
    rw [if_pos hs]

theorem tree_wrong_length_rejected_witness :
    (AddMultipleContributions.inPlace exTree5 ['1', '1']).outcome = .error .invalid_argument ∧
    (AddMultipleContributions.inPlace exTree5 ['1', '1']).object = exTree5 ∧
    (StringToTree.inPlace exTree5 ['1', '1']).outcome = .error .invalid_argument ∧
    (StringToTree.inPlace exTree5 ['1', '1']).object = exTree5 ∧
    exTree5.m_nodeCount = 2 * exTree5.m_capacity - 1 :=
  ⟨(tree_wrong_length_rejected exTree5 ['1', '1']).1.1.2 (by decide),
   (tree_wrong_length_rejected exTree5 ['1', '1']).1.2.1 (by decide),
   (tree_wrong_length_rejected exTree5 ['1', '1']).2.1.1.2 (by decide),
   (tree_wrong_length_rejected exTree5 ['1', '1']).2.1.2.1 (by decide),
   ((tree_wrong_length_rejected exTree5 ['1', '1']).2.2 (by decide)).1⟩

/-- A call that returns leaves the returned object behind. -/
theorem inPlace_of_ok (t t1 o : KeyGenerationTree) (s : List Char) :
    (t.AddMultipleContributions s = .ok t1 →
      AddMultipleContributions.inPlace t s = { object := t1, outcome := .ok () }) ∧
    (t.StringToTree s = .ok t1 →
      StringToTree.inPlace t s = { object := t1, outcome := .ok () }) ∧
    (t.MergeTree o = .ok t1 →
      MergeTree.inPlace t o = { object := t1, outcome := .ok () }) := by
  refine ⟨fun h => ?_, fun h => ?_, fun h => ?_⟩
  · unfold AddMultipleContributions.inPlace
    split
    · rename_i hs
      unfold AddMultipleContributions at h
      rw [if_pos hs] at h
      simp at h
    · rw [h]
  · unfold StringToTree.inPlace
    split
    · rename_i hs
      unfold StringToTree at h
      rw [if_pos hs] at h
      simp at h
    · rw [h]
  · unfold MergeTree.inPlace
    split
    · rename_i hs
      unfold MergeTree at h
      rw [if_pos hs] at h
      simp at h
    · rw [h]

/-- C20: for two well-formed trees, `MergeTree` ends in an error iff the two
were built for different participant counts (the error is `invalid_argument`),
and then the object, and with it the bitmap, is as before the call. -/
theorem MergeTree_size_mismatch (t o : KeyGenerationTree) (hwf : WellFormed t)
    (hwfo : WellFormed o) :
    ((∃ e, (MergeTree.inPlace t o).outcome = .error e) ↔ t.m_leafCount ≠ o.m_leafCount) ∧
    ((MergeTree.inPlace t o).outcome = .error .invalid_argument ↔
      t.m_leafCount ≠ o.m_leafCount) ∧
    (t.MergeTree o = .error .invalid_argument ↔ t.m_leafCount ≠ o.m_leafCount) ∧
    (t.m_leafCount ≠ o.m_leafCount → (MergeTree.inPlace t o).object = t) := by
  have hok : t.m_leafCount = o.m_leafCount → (MergeTree.inPlace t o).outcome = .ok () := by
    intro hN
    obtain ⟨ow, hrun, _⟩ := MergeTree_spec t o hwf hwfo hN
    rw [(inPlace_of_ok t _ o []).2.2 hrun]
  have hthrow : t.m_leafCount ≠ o.m_leafCount →
      MergeTree.inPlace t o = { object := t, outcome := .error .invalid_argument } := by
    intro hN
    unfold MergeTree.inPlace
    rw [if_pos hN]
  refine ⟨⟨?_, fun hN => ⟨_, by rw [hthrow hN]⟩⟩, ⟨?_, fun hN => by rw [hthrow hN]⟩,
    ⟨?_, ?_⟩, fun hN => by rw [hthrow hN]⟩
  · rintro ⟨e, he⟩ hN
    rw [hok hN] at he
    simp at he
  · intro he hN
    rw [hok hN] at he
    simp at he
  · intro he hN
    obtain ⟨ow, hrun, _⟩ := MergeTree_spec t o hwf hwfo hN
    rw [hrun] at he
    simp at he
  · intro hN
    unfold MergeTree
    rw [if_pos hN]

theorem MergeTree_size_mismatch_witness :
    (MergeTree.inPlace exTree5 exNode0).outcome = .error .invalid_argument ∧
    (MergeTree.inPlace exTree5 exNode0).object = exTree5 ∧
    (MergeTree.inPlace exNode1 exNode0).outcome = .ok () :=
  ⟨(MergeTree_size_mismatch exTree5 exNode0 (by decide) (by decide)).2.1.2 (by decide),
   (MergeTree_size_mismatch exTree5 exNode0 (by decide) (by decide)).2.2.2 (by decide),
   by decide⟩

end RejectedCalls

section BatchedUpdates

open KeyGenerationTree

/-! ## Idempotence and order of batched updates -/

/-- A string whose marked positions are all owned already leaves the tree, and
its serialization, as it is. -/
theorem AddMultipleContributions_noop (t : KeyGenerationTree) (s : List Char)
    (hwf : WellFormed t) (hs : s.length = t.m_leafCount)
    (hown : ∀ i < t.m_leafCount, s[i]? = some '1' → bit t.m_owned (t.m_capacity - 1 + i) = true) :
    t.AddMultipleContributions s = .ok t ∧
    ∃ str, t.TreeToString = .ok str ∧
      (t.AddMultipleContributions s >>= fun t1 => t1.TreeToString) = .ok str := by
  obtain ⟨⟨ow, fl⟩, hrun, hlen, hbit, hF, hT⟩ := mark_spec t s hwf
  simp only at hlen hbit hF hT
  have hfl : fl = false := by
    cases fl with
    | false => rfl
    | true =>
      obtain ⟨k, hk, hkb, hks⟩ := hT rfl
      rw [hown k hk hks] at hkb
      exact absurd hkb (by decide)
  subst hfl
  have e := hF rfl
  subst e
  have hcall : t.AddMultipleContributions s = .ok t := by
    unfold AddMultipleContributions
    simp only [hs, ne_eq, not_true_eq_false, if_false, hrun, bind, Except.bind, pure, Except.pure]
    rfl
  obtain ⟨str, hstr, _⟩ := TreeToString_spec t hwf.nodeCount.2
  exact ⟨hcall, str, hstr, by rw [hcall]; exact hstr⟩

/-- Where `AddMultipleContributions(s)` is defined, a second call with the same
string changes nothing. -/
theorem AddMultipleContributions_twice (t : KeyGenerationTree) (s : List Char)
    (hwf : WellFormed t) (hs : s.length = t.m_leafCount)
    (hsafe : t.m_capacity = 1 → bit t.m_owned 0 = true ∨ s[0]? ≠ some '1') :
    ∃ t1, t.AddMultipleContributions s = .ok t1 ∧ t1.AddMultipleContributions s = .ok t1 := by
  obtain ⟨owned', hrun, hlen, hmono, hleaf, _⟩ := AddMultipleContributions_spec t s hwf hs hsafe
  have hwf1 := hwf.with_owned hlen
  refine ⟨_, hrun, (AddMultipleContributions_noop _ s hwf1 hs (fun i hi hsi => ?_)).1⟩
  exact (hleaf _ (by simp only; omega)).2 (Or.inr ⟨i, hi, rfl, hsi⟩)

theorem AddMultipleContributions_twice_witness :
    ∃ t1, exTree5.AddMultipleContributions ['1', '0', '0', '1', '1'] = .ok t1 ∧
      t1.AddMultipleContributions ['1', '0', '0', '1', '1'] = .ok t1 :=
  AddMultipleContributions_twice exTree5 ['1', '0', '0', '1', '1'] (by decide) (by decide)
    (by decide)

/-- In a tree of capacity 1 the only node is the own leaf: under invariant (c)
it is owned. -/
theorem own_leaf_root {t : KeyGenerationTree} (hwf : WellFormed t) (hc : OwnLeafOwned t)
    (h1 : t.m_capacity = 1) : bit t.m_owned 0 = true := by
  obtain ⟨_, _, _, h4⟩ := hwf.shape
  have hlt := lt_length_of_bit hc
  have h0 : t.LeafToNodeIndex t.m_nodeId = 0 := by omega
  unfold OwnLeafOwned at hc
  rw [h0] at hc
  exact hc

/-- C13: on a tree built for `N ≥ 1` participants whose bitmap satisfies the
tree invariant (of its parts (a), (b), (c) only (c), the own leaf is owned, is
used), for every string `s` of length `N`: `AddMultipleContributions(s)`
returns, and a second call with `s` returns the same tree, so two calls give
the bitmap of one call; and if every position marked `'1'` in `s` is already
owned, the call returns the tree as it is and `TreeToString()` is the same
string before and after. -/
theorem AddMultipleContributions_idempotent (t : KeyGenerationTree) (s : List Char)
    (hwf : WellFormed t) (hc : OwnLeafOwned t) (hs : s.length = t.m_leafCount) :
    (∃ t1, t.AddMultipleContributions s = .ok t1 ∧
      t1.AddMultipleContributions s = .ok t1 ∧
      (t.AddMultipleContributions s >>= fun u => u.AddMultipleContributions s) = .ok t1) ∧
    ((∀ i < t.m_leafCount, s[i]? = some '1' → t.HasContribution i = .ok true) →
      t.AddMultipleContributions s = .ok t ∧
      ∃ str, t.TreeToString = .ok str ∧
        (t.AddMultipleContributions s >>= fun u => u.TreeToString) = .ok str) := by
  constructor
  · obtain ⟨t1, h1, h2⟩ :=
      AddMultipleContributions_twice t s hwf hs (fun h => Or.inl (own_leaf_root hwf hc h))
    exact ⟨t1, h1, h2, by rw [h1]; exact h2⟩
  · intro hown
    exact AddMultipleContributions_noop t s hwf hs (fun i hi hsi => by
      have := hown i hi hsi
      rw [HasContribution_eq hwf hi, ok_true_iff] at this
      exact this)

theorem AddMultipleContributions_idempotent_witness :
    (∃ t1, exTree5.AddMultipleContributions ['1', '0', '0', '1', '1'] = .ok t1 ∧
      t1.AddMultipleContributions ['1', '0', '0', '1', '1'] = .ok t1 ∧
      (exTree5.AddMultipleContributions ['1', '0', '0', '1', '1'] >>=
        fun u => u.AddMultipleContributions ['1', '0', '0', '1', '1']) = .ok t1) ∧
    (exTree5.AddMultipleContributions ['0', '1', '0', '0', '0'] = .ok exTree5 ∧
      ∃ str, exTree5.TreeToString = .ok str ∧
        (exTree5.AddMultipleContributions ['0', '1', '0', '0', '0'] >>=
          fun u => u.TreeToString) = .ok str) :=
  ⟨(AddMultipleContributions_idempotent exTree5 ['1', '0', '0', '1', '1']
      (by decide) (by decide) (by decide)).1,
   (AddMultipleContributions_idempotent exTree5 ['0', '1', '0', '0', '0']
      (by decide) (by decide) (by decide)).2 (by decide)⟩

/-- Two bitmaps of a tree that agree on the leaves and both satisfy invariant
(a) are equal. -/
theorem bitmap_unique (cap : Nat) (v w : List Bool) (hv : v.length = 2 * cap - 1)
    (hw : w.length = 2 * cap - 1)
    (hiv : ∀ i < cap - 1, bit v i = (bit v (2 * i + 1) && bit v (2 * i + 2)))
    (hiw : ∀ i < cap - 1, bit w i = (bit w (2 * i + 1) && bit w (2 * i + 2)))
    (hleaf : ∀ j, cap - 1 ≤ j → bit v j = bit w j) : v = w := by
  apply bitmap_ext (by omega)
  have hall : ∀ k j, 2 * cap - 1 - j ≤ k → j < 2 * cap - 1 → bit v j = bit w j := by
    intro k
    induction k with
    | zero => intro j h1 h2; omega
    | succ k ih =>
      intro j hk hj
      by_cases hl : cap - 1 ≤ j
      · exact hleaf j hl
      · rw [hiv j (by omega), hiw j (by omega), ih (2 * j + 1) (by omega) (by omega),
          ih (2 * j + 2) (by omega) (by omega)]
  intro j hj
  exact hall _ j (Nat.le_refl _) (by omega)

theorem orStrings_spec (a b : List Char) (n : Nat) (ha : a.length = n) (hb : b.length = n) :
    (orStrings a b).length = n ∧
    ∀ i < n, ((orStrings a b)[i]? = some '1' ↔ a[i]? = some '1' ∨ b[i]? = some '1') := by
  refine ⟨by simp [orStrings, ha, hb], fun i hi => ?_⟩
  unfold orStrings
  rw [List.getElem?_zipWith, List.getElem?_eq_getElem (show i < a.length by omega),
    List.getElem?_eq_getElem (show i < b.length by omega)]
  simp only [Option.some.injEq]
  by_cases h : a[i] = '1' ∨ b[i] = '1'
  · simp [h]
  · simp [h]

/-- Where the calls are defined, two batched updates give the same bitmap in
either order, and the same as one update with the position-wise OR. -/
theorem AddMultipleContributions_order (t : KeyGenerationTree) (a b : List Char)
    (hwf : WellFormed t) (hinv : InternalInv t) (ha : a.length = t.m_leafCount)
    (hb : b.length = t.m_leafCount) (hsafe : t.m_capacity = 1 → bit t.m_owned 0 = true) :
    ∃ t1, (t.AddMultipleContributions a >>= fun u => u.AddMultipleContributions b) = .ok t1 ∧
      (t.AddMultipleContributions b >>= fun u => u.AddMultipleContributions a) = .ok t1 ∧
      t.AddMultipleContributions (orStrings a b) = .ok t1 := by
  obtain ⟨h1, h2, h3, h4⟩ := hwf.shape
  obtain ⟨hol, hor⟩ := orStrings_spec a b t.m_leafCount ha hb
  -- two calls in a row
  have two : ∀ x y : List Char, x.length = t.m_leafCount → y.length = t.m_leafCount →
      ∃ ow, (t.AddMultipleContributions x >>= fun u => u.AddMultipleContributions y)
          = .ok { t with m_owned := ow } ∧ ow.length = t.m_owned.length ∧
        (∀ j, t.m_capacity - 1 ≤ j → (bit ow j = true ↔ bit t.m_owned j = true ∨
          ∃ i < t.m_leafCount, j = t.m_capacity - 1 + i ∧
            (x[i]? = some '1' ∨ y[i]? = some '1'))) ∧
        InternalInv { t with m_owned := ow } := by
    intro x y hx hy
    obtain ⟨ow1, hr1, hl1, hm1, hf1, hi1⟩ :=
      AddMultipleContributions_spec t x hwf hx (fun h => Or.inl (hsafe h))
    have hwf1 := hwf.with_owned hl1
    obtain ⟨ow2, hr2, hl2, hm2, hf2, hi2⟩ :=
      AddMultipleContributions_spec { t with m_owned := ow1 } y hwf1 hy
        (fun h => Or.inl (hm1 0 (hsafe h)))
    simp only at hr2 hl2 hm2 hf2 hi2
    refine ⟨ow2, by rw [hr1]; exact hr2, by omega, fun j hj => ?_, hi2 (hi1 hinv)⟩
    rw [hf2 j hj, hf1 j hj]
    constructor
    · rintro ((h | ⟨i, hi, hji, hxi⟩) | ⟨i, hi, hji, hyi⟩)
      · exact Or.inl h
      · exact Or.inr ⟨i, hi, hji, Or.inl hxi⟩
      · exact Or.inr ⟨i, hi, hji, Or.inr hyi⟩
    · rintro (h | ⟨i, hi, hji, hxi | hyi⟩)
      · exact Or.inl (Or.inl h)
      · exact Or.inl (Or.inr ⟨i, hi, hji, hxi⟩)
      · exact Or.inr ⟨i, hi, hji, hyi⟩
  obtain ⟨owab, hrab, hlab, hfab, hiab⟩ := two a b ha hb
  obtain ⟨owba, hrba, hlba, hfba, hiba⟩ := two b a hb ha
  obtain ⟨owor, hror, hlor, _, hfor, hior⟩ :=
    AddMultipleContributions_spec t (orStrings a b) hwf hol (fun h => Or.inl (hsafe h))
  have e1 : owba = owab := by
    apply bitmap_unique t.m_capacity owba owab (by omega) (by omega) hiba hiab
    intro j hj
    rw [Bool.eq_iff_iff, hfba j hj, hfab j hj]
    constructor
    · rintro (h | ⟨i, hi, hji, h⟩)
      · exact Or.inl h
      · exact Or.inr ⟨i, hi, hji, h.symm⟩
    · rintro (h | ⟨i, hi, hji, h⟩)
      · exact Or.inl h
      · exact Or.inr ⟨i, hi, hji, h.symm⟩
  have e2 : owor = owab := by
    apply bitmap_unique t.m_capacity owor owab (by omega) (by omega) (hior hinv) hiab
    intro j hj
    rw [Bool.eq_iff_iff, hfor j hj, hfab j hj]
    constructor
    · rintro (h | ⟨i, hi, hji, h⟩)
      · exact Or.inl h
      · exact Or.inr ⟨i, hi, hji, (hor i hi).1 h⟩
    · rintro (h | ⟨i, hi, hji, h⟩)
      · exact Or.inl h
      · exact Or.inr ⟨i, hi, hji, (hor i hi).2 h⟩
  refine ⟨_, hrab, ?_, ?_⟩
  · rw [hrba, e1]
  · rw [hror, e2]

theorem AddMultipleContributions_order_witness :
    ∃ t1, (exTree5.AddMultipleContributions ['1', '0', '0', '1', '0'] >>=
        fun u => u.AddMultipleContributions ['0', '0', '1', '1', '0']) = .ok t1 ∧
      (exTree5.AddMultipleContributions ['0', '0', '1', '1', '0'] >>=
        fun u => u.AddMultipleContributions ['1', '0', '0', '1', '0']) = .ok t1 ∧
      exTree5.AddMultipleContributions
        (orStrings ['1', '0', '0', '1', '0'] ['0', '0', '1', '1', '0']) = .ok t1 :=
  AddMultipleContributions_order exTree5 ['1', '0', '0', '1', '0'] ['0', '0', '1', '1', '0']
    (by decide) (by decide) (by decide) (by decide) (by decide)

/-- C15: on a tree built for `N ≥ 1` participants whose bitmap satisfies the
tree invariant (of its parts (a), (b), (c), the parts (a), every internal node
is owned iff both its children are, and (c), the own leaf is owned, are used),
for all strings `a`, `b` of length `N`: `AddMultipleContributions(a)` followed
by `AddMultipleContributions(b)` returns, `b` followed by `a` returns the same
tree, bitmap included, and so does one call with the position-wise OR of `a`
and `b`. -/
theorem AddMultipleContributions_order_independent (t : KeyGenerationTree) (a b : List Char)
    (hwf : WellFormed t) (hinv : InternalInv t) (hc : OwnLeafOwned t)
    (ha : a.length = t.m_leafCount) (hb : b.length = t.m_leafCount) :
    ∃ t1, (t.AddMultipleContributions a >>= fun u => u.AddMultipleContributions b) = .ok t1 ∧
      (t.AddMultipleContributions b >>= fun u => u.AddMultipleContributions a) = .ok t1 ∧
      (orStrings a b).length = t.m_leafCount ∧
      (∀ i < t.m_leafCount,
        ((orStrings a b)[i]? = some '1' ↔ a[i]? = some '1' ∨ b[i]? = some '1')) ∧
      t.AddMultipleContributions (orStrings a b) = .ok t1 := by
  obtain ⟨t1, h1, h2, h3⟩ :=
    AddMultipleContributions_order t a b hwf hinv ha hb (own_leaf_root hwf hc)
  obtain ⟨hl, hor⟩ := orStrings_spec a b t.m_leafCount ha hb
  exact ⟨t1, h1, h2, hl, hor, h3⟩

theorem AddMultipleContributions_order_independent_witness :
    ∃ t1, (exTree5.AddMultipleContributions ['1', '0', '0', '1', '0'] >>=
        fun u => u.AddMultipleContributions ['0', '0', '1', '1', '0']) = .ok t1 ∧
      (exTree5.AddMultipleContributions ['0', '0', '1', '1', '0'] >>=
        fun u => u.AddMultipleContributions ['1', '0', '0', '1', '0']) = .ok t1 ∧
      (orStrings ['1', '0', '0', '1', '0'] ['0', '0', '1', '1', '0']).length
        = exTree5.m_leafCount ∧
      (∀ i < exTree5.m_leafCount,
        ((orStrings ['1', '0', '0', '1', '0'] ['0', '0', '1', '1', '0'])[i]? = some '1' ↔
          (['1', '0', '0', '1', '0'] : List Char)[i]? = some '1' ∨
          (['0', '0', '1', '1', '0'] : List Char)[i]? = some '1')) ∧
      exTree5.AddMultipleContributions
        (orStrings ['1', '0', '0', '1', '0'] ['0', '0', '1', '1', '0']) = .ok t1 :=
  AddMultipleContributions_order_independent exTree5 ['1', '0', '0', '1', '0']
    ['0', '0', '1', '1', '0'] (by decide) (by decide) (by decide) (by decide) (by decide)

end BatchedUpdates

section MatrixStrings

open KeyMatrix

/-! ## KeyMatrix: StringToMatrix -/

theorem identity_rows (n i : Nat) (f : Nat → Nat → Bool) (hi : i < n) :
    ((List.range n).map (fun i => (List.range n).map (fun j => f i j))).getD i []
      = (List.range n).map (fun j => f i j) := by
  rw [List.getD_eq_getElem?_getD, List.getElem?_eq_getElem (by simpa using hi)]
  simp

/-- The matrix of the constructor is square and holds exactly the diagonal. -/
theorem KeyMatrix_ctor_spec (n id : Nat) :
    Square (KeyMatrix.KeyMatrix n id) ∧
    ∀ i < n, ∀ j < n, cell (KeyMatrix.KeyMatrix n id).m_matrix i j = decide (i = j) := by
  refine ⟨⟨by simp [KeyMatrix.KeyMatrix], fun i hi => ?_⟩, fun i hi j hj => ?_⟩
  · have hi' : i < n := hi
    show (List.getD (List.map _ _) i []).length = n
    rw [identity_rows n i (fun i j => decide (i = j)) hi']
    simp
  · show cell (List.map _ _) i j = _
    unfold cell
    rw [identity_rows n i (fun i j => decide (i = j)) hi]
    unfold bit
    rw [List.getD_eq_getElem?_getD, List.getElem?_eq_getElem (by simpa using hj)]
    simp

/-- `StringToMatrix` on a string that every computed index stays inside: the
result has the receiver's size and id, and cell `(i, j)` tells whether the
character at index `(i * N + j) mod 2^32` is `'1'`. -/
theorem StringToMatrix_spec (m : KeyMatrix) (s : List Char)
    (hidx : ∀ i < m.m_networkSize, ∀ j < m.m_networkSize,
      (i * m.m_networkSize + j) % U32 ≤ s.length) :
    ∃ mat, m.StringToMatrix s
        = .ok { m_matrix := mat, m_networkSize := m.m_networkSize, m_nodeId := m.m_nodeId } ∧
      mat.length = m.m_networkSize ∧
      (∀ i < m.m_networkSize, (mat.getD i []).length = m.m_networkSize) ∧
      ∀ i < m.m_networkSize, ∀ j < m.m_networkSize,
        cell mat i j = decide (s.getD ((i * m.m_networkSize + j) % U32) (Char.ofNat 0) = '1') := by
  obtain ⟨mat, hrun, hlen, hrows, hcells⟩ := foldlM_range2_inv
    (fun mat i j => StringToMatrix.step m s mat i j)
    (fun i j (mat : List (List Bool)) => mat.length = m.m_networkSize ∧
      (∀ k < m.m_networkSize, (mat.getD k []).length = m.m_networkSize) ∧
      ∀ k l, l < m.m_networkSize → (k < i ∨ (k = i ∧ l < j)) →
        cell mat k l = decide (s.getD ((k * m.m_networkSize + l) % U32) (Char.ofNat 0) = '1'))
    m.m_networkSize m.m_networkSize
    (InitializeMatrix KeyMatrix_default m.m_networkSize m.m_nodeId).m_matrix
    ⟨(KeyMatrix_ctor_spec m.m_networkSize m.m_nodeId).1.1,
      (KeyMatrix_ctor_spec m.m_networkSize m.m_nodeId).1.2, fun k l _ h => by omega⟩
    (by
      rintro i j mat hi hj ⟨hlen, hrows, hcells⟩
      have hi' : i < mat.length := by omega
      have hj' : j < (mat.getD i []).length := by rw [hrows i hi]; exact hj
      have hw := fun b => writeCell_spec b hi' hj'
      unfold StringToMatrix.step readChar
      simp only [if_pos (hidx i hi j hj), bind, Except.bind]
      by_cases hc : s.getD ((i * m.m_networkSize + j) % U32) (Char.ofNat 0) = '1'
      · rw [if_pos hc]
        obtain ⟨h1, h2, h3, h4⟩ := hw true
        refine ⟨_, h1, by rw [h2]; exact hlen, fun k hk => by rw [h3]; exact hrows k hk,
          fun k l hl hkl => ?_⟩
        rw [h4]
        by_cases hcur : k = i ∧ l = j
        · rw [if_pos hcur, hcur.1, hcur.2]; exact (decide_eq_true hc).symm
        · rw [if_neg hcur]; exact hcells k l hl (by omega)
      · rw [if_neg hc]
        obtain ⟨h1, h2, h3, h4⟩ := hw false
        refine ⟨_, h1, by rw [h2]; exact hlen, fun k hk => by rw [h3]; exact hrows k hk,
          fun k l hl hkl => ?_⟩
        rw [h4]
        by_cases hcur : k = i ∧ l = j
        · rw [if_pos hcur, hcur.1, hcur.2]; exact (decide_eq_false hc).symm
        · rw [if_neg hcur]; exact hcells k l hl (by omega))
    (by
      rintro i mat hi ⟨hlen, hrows, hcells⟩
      exact ⟨hlen, hrows, fun k l hl hkl => hcells k l hl (by omega)⟩)
  refine ⟨mat, ?_, hlen, hrows, fun i hi j hj => hcells i j hj (Or.inl hi)⟩
  unfold StringToMatrix
  simp only [hrun, bind, Except.bind, pure, Except.pure]
  rfl

end MatrixStrings

section MatrixRoundTrip

open KeyMatrix

/-! ## KeyMatrix: serialization round trip, strings of the wrong length -/

/-- For `N = 65537` the index `65536 * N + 2` wraps to `65538 = 1 * N + 1` in
`uint32_t`, so cell `(65536, 2)` of the matrix read back from the string of the
identity matrix is the diagonal cell `(1, 1)`. -/
theorem StringToMatrix_wraps (n id : Nat) (hn : n = 65537) :
    Square (KeyMatrix.KeyMatrix n id) ∧
    ∃ s m1, (KeyMatrix.KeyMatrix n id).MatrixToString = .ok s ∧
      (KeyMatrix.KeyMatrix n id).StringToMatrix s = .ok m1 ∧
      (KeyMatrix.KeyMatrix n id).HasKeyContribution 65536 2 = .ok false ∧
      m1.HasKeyContribution 65536 2 = .ok true := by
  obtain ⟨hsq, hid⟩ := KeyMatrix_ctor_spec n id
  have hN : (KeyMatrix.KeyMatrix n id).m_networkSize = n := rfl
  have hnn : n * n = 4295098369 := by rw [hn]
  obtain ⟨s, hs, hlen, _, hget⟩ := MatrixToString_spec _ hsq
  rw [hN] at hlen hget
  have hidx : ∀ i < (KeyMatrix.KeyMatrix n id).m_networkSize,
      ∀ j < (KeyMatrix.KeyMatrix n id).m_networkSize,
      (i * (KeyMatrix.KeyMatrix n id).m_networkSize + j) % U32 ≤ s.length := by
    intro i _ j _
    have h := Nat.mod_lt (i * (KeyMatrix.KeyMatrix n id).m_networkSize + j)
      (show 0 < U32 by decide)
    have hU : U32 = 4294967296 := rfl
    omega
  obtain ⟨mat, hrun, hl, hrows, hcells⟩ := StringToMatrix_spec _ s hidx
  rw [hN] at hl hrows hcells
  have h1 : (1 : Nat) < n := by omega
  have h2 : (2 : Nat) < n := by omega
  have h3 : (65536 : Nat) < n := by omega
  refine ⟨hsq, s, _, hs, hrun, ?_, ?_⟩
  · unfold HasKeyContribution
    rw [readCell_ok hsq h3 h2, hid 65536 h3 2 h2]
    rfl
  · unfold HasKeyContribution
    show readCell mat 65536 2 = _
    rw [readCell_raw (by omega) (by rw [hrows 65536 h3]; exact h2), hcells 65536 h3 2 h2]
    have e : (65536 * n + 2) % U32 = 1 * n + 1 := by
      show (65536 * n + 2) % 4294967296 = 1 * n + 1
      omega
    rw [e, List.getD_eq_getElem?_getD, hget 1 h1 1 h1, hid 1 h1 1 h1]
    rfl

/-- C17 as stated fails: for the identity matrix of `N = 65537` participants,
the matrix that `StringToMatrix` returns for `MatrixToString()` holds
contribution `(65536, 2)`, which the matrix itself does not. -/
theorem matrix_roundtrip_wraps :
    Square (KeyMatrix.KeyMatrix 65537 0) ∧
    ∃ s m1, (KeyMatrix.KeyMatrix 65537 0).MatrixToString = .ok s ∧
      (KeyMatrix.KeyMatrix 65537 0).StringToMatrix s = .ok m1 ∧
      (KeyMatrix.KeyMatrix 65537 0).HasKeyContribution 65536 2 = .ok false ∧
      m1.HasKeyContribution 65536 2 = .ok true :=
  StringToMatrix_wraps 65537 0 rfl

/-- C17: for every `N x N` matrix with `N * N ≤ 2^32`, `MatrixToString()` is a
string over `'0'`, `'1'` of length `N * N` whose character at `i * N + j` is
`'1'` iff `HasKeyContribution(i, j)`, and `StringToMatrix` of that string
returns a matrix equal to the receiver, so with the same `HasKeyContribution`,
`IsFull1`, `SelfIsFull1`, `CalculateCR` and `CalculateFD`. -/
theorem matrix_serialization_roundtrip (m : KeyMatrix) (hsq : Square m)
    (hN : m.m_networkSize * m.m_networkSize ≤ U32) :
    ∃ s, m.MatrixToString = .ok s ∧ s.length = m.m_networkSize * m.m_networkSize ∧
      (∀ c ∈ s, c = '0' ∨ c = '1') ∧
      (∀ i < m.m_networkSize, ∀ j < m.m_networkSize,
        (s[i * m.m_networkSize + j]? = some '1' ↔ m.HasKeyContribution i j = .ok true)) ∧
      ∃ m1, m.StringToMatrix s = .ok m1 ∧ m1 = m ∧
        (∀ i j, m1.HasKeyContribution i j = m.HasKeyContribution i j) ∧
        m1.IsFull1 = m.IsFull1 ∧ m1.SelfIsFull1 = m.SelfIsFull1 ∧
        (∀ k, m1.CalculateCR k = m.CalculateCR k) ∧
        (∀ k, m1.CalculateFD k = m.CalculateFD k) := by
  obtain ⟨s, hs, hlen, hchars, hget⟩ := MatrixToString_spec m hsq
  have hlt : ∀ i < m.m_networkSize, ∀ j < m.m_networkSize,
      (i * m.m_networkSize + j) % U32 = i * m.m_networkSize + j := by
    intro i hi j hj
    apply Nat.mod_eq_of_lt
    have h3 := Nat.mul_le_mul_right m.m_networkSize (show i + 1 ≤ m.m_networkSize from hi)
    rw [Nat.succ_mul] at h3
    omega
  have hidx : ∀ i < m.m_networkSize, ∀ j < m.m_networkSize,
      (i * m.m_networkSize + j) % U32 ≤ s.length := by
    intro i hi j hj
    rw [hlt i hi j hj, hlen]
    have h3 := Nat.mul_le_mul_right m.m_networkSize (show i + 1 ≤ m.m_networkSize from hi)
    rw [Nat.succ_mul] at h3
    omega
  obtain ⟨mat, hrun, hl, hrows, hcells⟩ := StringToMatrix_spec m s hidx
  have hmat : mat = m.m_matrix := by
    apply matrix_ext hl hsq.1 hrows hsq.2
    intro i hi j hj
    rw [hcells i hi j hj, hlt i hi j hj, List.getD_eq_getElem?_getD, hget i hi j hj]
    cases cell m.m_matrix i j <;> rfl
  have hm : ({ m_matrix := mat, m_networkSize := m.m_networkSize, m_nodeId := m.m_nodeId }
      : KeyMatrix) = m := by
    rw [hmat]
  refine ⟨s, hs, hlen, hchars, fun i hi j hj => ?_, _, hrun, hm, ?_⟩
  · unfold HasKeyContribution
    rw [hget i hi j hj, readCell_ok hsq hi hj]
    cases cell m.m_matrix i j <;> simp
  · rw [hm]
    exact ⟨fun _ _ => rfl, rfl, rfl, fun _ => rfl, fun _ => rfl⟩

theorem matrix_serialization_roundtrip_witness :
    ∃ s, exMatrix1.MatrixToString = .ok s ∧
      s.length = exMatrix1.m_networkSize * exMatrix1.m_networkSize ∧
      (∀ c ∈ s, c = '0' ∨ c = '1') ∧
      (∀ i < exMatrix1.m_networkSize, ∀ j < exMatrix1.m_networkSize,
        (s[i * exMatrix1.m_networkSize + j]? = some '1' ↔
          exMatrix1.HasKeyContribution i j = .ok true)) ∧
      ∃ m1, exMatrix1.StringToMatrix s = .ok m1 ∧ m1 = exMatrix1 ∧
        (∀ i j, m1.HasKeyContribution i j = exMatrix1.HasKeyContribution i j) ∧
        m1.IsFull1 = exMatrix1.IsFull1 ∧ m1.SelfIsFull1 = exMatrix1.SelfIsFull1 ∧
        (∀ k, m1.CalculateCR k = exMatrix1.CalculateCR k) ∧
        (∀ k, m1.CalculateFD k = exMatrix1.CalculateFD k) :=
  matrix_serialization_roundtrip exMatrix1 (by decide) (by decide)

theorem writeCell_error {mat : List (List Bool)} {i j : Nat} {b : Bool} {e : Error}
    (h : writeCell mat i j b = .error e) : e = .undefined_behaviour := by
  unfold writeCell at h
  split at h
  · cases hw : writeBit (mat.getD i []) j b with
    | error e1 =>
      rw [hw] at h
      simp only [bind, Except.bind] at h
      injection h with h
      rw [← h]; exact writeBit_error hw
    | ok row =>
      rw [hw] at h
      simp [bind, Except.bind, pure, Except.pure] at h
  · injection h with h; exact h.symm

/-- `StringToMatrix` fails in one way only: by indexing out of range. -/
theorem StringToMatrix_error (m : KeyMatrix) (s : List Char) (e : Error)
    (h : m.StringToMatrix s = .error e) : e = .undefined_behaviour := by
  unfold StringToMatrix at h
  simp only [bind, Except.bind, pure, Except.pure] at h
  split at h
  · rename_i e1 hloop
    injection h with h
    rw [← h]
    refine foldlM_error_inv _ (fun e => e = .undefined_behaviour) (fun i mat e2 hrow => ?_)
      _ _ e1 hloop
    refine foldlM_error_inv _ (fun e => e = .undefined_behaviour) (fun j mat2 e3 hst => ?_)
      _ _ e2 hrow
    unfold StringToMatrix.step readChar at hst
    simp only [bind, Except.bind] at hst
    split at hst
    · rename_i c hc
      split at hc
      · simp at hc
      · injection hst with hst
        injection hc with hc
        rw [← hst, ← hc]
    · split at hst
      · exact writeCell_error hst
      · exact writeCell_error hst
  · simp at h

/-- C19: `StringToMatrix` has no length check. For the matrix of three
participants (nine cells) a string of ten characters and a string of eight
characters both give a matrix (the eighth index of the short string reads the
character past its end as `'0'`), and a string of one character is indexed out
of range; in no case is the outcome `invalid_argument`. -/
theorem StringToMatrix_wrong_length :
    Square exMatrix1 ∧ exMatrix1.m_networkSize = 3 ∧
    exSnapshotLong.length = 10 ∧
    exMatrix1.StringToMatrix exSnapshotLong
      = .ok { m_matrix := [[true, true, false], [false, true, false], [false, false, true]],
              m_networkSize := 3, m_nodeId := 0 } ∧
    exSnapshotShort.length = 8 ∧
    exMatrix1.StringToMatrix exSnapshotShort
      = .ok { m_matrix := [[true, true, false], [false, true, false], [false, false, false]],
              m_networkSize := 3, m_nodeId := 0 } ∧
    exMatrix1.StringToMatrix ['1'] = .error .undefined_behaviour ∧
    (∀ s : List Char, exMatrix1.StringToMatrix s ≠ .error .invalid_argument) := by
  refine ⟨by decide, rfl, rfl, by decide, rfl, by decide, by decide, fun s h => ?_⟩
  exact absurd (StringToMatrix_error exMatrix1 s _ h) (by decide)

end MatrixRoundTrip

section MatrixConstruction

open KeyMatrix

/-! ## KeyMatrix: construction and ReceiveKeyContribution -/

theorem resize_length {α : Type} (l : List α) (n : Nat) (d : α) : (resize l n d).length = n := by
  simp only [resize, List.length_append, List.length_take, List.length_replicate]
  omega

theorem cell_set_row (mat : List (List Bool)) (i k l : Nat) (row : List Bool) (hk : k ≠ i) :
    cell (mat.set i row) k l = cell mat k l := by
  unfold cell
  rw [getD_set_rows, if_neg (fun h => hk h.1.symm)]

/-- One round of the outer loop fills row `i` and keeps the other rows. -/
theorem InitializeMatrix_row_spec (n : Nat) (mat : List (List Bool)) (i : Nat)
    (hlen : mat.length = n) (hi : i < n) :
    ∃ mat1, InitializeMatrix.row n mat i = .ok mat1 ∧ mat1.length = n ∧
      (mat1.getD i []).length = n ∧
      (∀ k, k ≠ i → mat1.getD k [] = mat.getD k []) ∧
      ∀ l < n, cell mat1 i l = decide (i = l) := by
  unfold InitializeMatrix.row
  rw [if_pos (by omega)]
  obtain ⟨mat1, hrun, h1, h2, h3, h4⟩ := foldlM_range_inv
    (fun mat j => writeCell mat i j (decide (i = j)))
    (fun j (m1 : List (List Bool)) => m1.length = n ∧ (m1.getD i []).length = n ∧
      (∀ k, k ≠ i → m1.getD k [] = mat.getD k []) ∧ ∀ l < j, cell m1 i l = decide (i = l))
    n (mat.set i (resize (mat.getD i []) n false))
    ⟨by simp [hlen], by rw [getD_set_rows, if_pos ⟨rfl, by omega⟩, resize_length],
      fun k hk => by rw [getD_set_rows, if_neg (fun h => hk h.1.symm)],
      fun l hl => by omega⟩
    (by
      rintro j m1 hj ⟨h1, h2, h3, h4⟩
      obtain ⟨w1, w2, w3, w4⟩ := writeCell_spec (decide (i = j)) (show i < m1.length by omega)
        (show j < (m1.getD i []).length by omega)
      refine ⟨_, w1, by rw [w2]; exact h1, by rw [w3]; exact h2, fun k hk => ?_, fun l hl => ?_⟩
      · rw [getD_set_rows, if_neg (fun h => hk h.1.symm)]
        exact h3 k hk
      · rw [w4]
        by_cases hlj : l = j
        · rw [if_pos ⟨rfl, hlj⟩, hlj]
        · rw [if_neg (fun h => hlj h.2)]
          exact h4 l (by omega))
  exact ⟨mat1, hrun, h1, h2, h3, fun l hl => h4 l hl⟩

/-- The loops of the constructor and of `InitializeMatrix` return the identity
matrix, whatever matrix they start from. -/
theorem InitializeMatrix_loops_spec (prior : List (List Bool)) (n : Nat) :
    InitializeMatrix.loops prior n
      = .ok ((List.range n).map (fun i => (List.range n).map (fun j => decide (i = j)))) := by
  unfold InitializeMatrix.loops
  obtain ⟨mat, hrun, h1, h2, h3⟩ := foldlM_range_inv
    (fun mat i => InitializeMatrix.row n mat i)
    (fun i (m1 : List (List Bool)) => m1.length = n ∧ (∀ k < i, (m1.getD k []).length = n) ∧
      ∀ k < i, ∀ l < n, cell m1 k l = decide (k = l))
    n (resize prior n [])
    ⟨resize_length _ _ _, fun k hk => by omega, fun k hk => by omega⟩
    (by
      rintro i m1 hi ⟨h1, h2, h3⟩
      obtain ⟨m2, r1, r2, r3, r4, r5⟩ := InitializeMatrix_row_spec n m1 i h1 hi
      refine ⟨m2, r1, r2, fun k hk => ?_, fun k hk l hl => ?_⟩
      · by_cases hki : k = i
        · rw [hki]; exact r3
        · rw [r4 k hki]; exact h2 k (by omega)
      · by_cases hki : k = i
        · rw [hki]; exact r5 l hl
        · unfold cell
          rw [r4 k hki]
          exact h3 k (by omega) l hl)
  rw [hrun]
  congr 1
  obtain ⟨hsq, hid⟩ := KeyMatrix_ctor_spec n 0
  exact matrix_ext h1 hsq.1 h2 hsq.2 (fun i hi j hj => (h3 i hi j hj).trans (hid i hi j hj).symm)

/-- C25: the loops of the constructor (on the empty matrix) and of
`InitializeMatrix` (on any matrix the object holds) return the matrix of
`KeyMatrix(N, selfId)`, resp. `InitializeMatrix(N, selfId)`, with size `N` and
id `selfId`, and on it `HasKeyContribution(i, j)` is `i == j` for all
`i, j < N`. -/
theorem KeyMatrix_fresh_identity (N selfId : Nat) (prior : KeyMatrix) :
    (InitializeMatrix.loops [] N = .ok (KeyMatrix.KeyMatrix N selfId).m_matrix ∧
      (KeyMatrix.KeyMatrix N selfId).m_networkSize = N ∧
      (KeyMatrix.KeyMatrix N selfId).m_nodeId = selfId ∧
      ∀ i < N, ∀ j < N,
        (KeyMatrix.KeyMatrix N selfId).HasKeyContribution i j = .ok (decide (i = j))) ∧
    (InitializeMatrix.loops prior.m_matrix N = .ok (prior.InitializeMatrix N selfId).m_matrix ∧
      (prior.InitializeMatrix N selfId).m_networkSize = N ∧
      (prior.InitializeMatrix N selfId).m_nodeId = selfId ∧
      ∀ i < N, ∀ j < N,
        (prior.InitializeMatrix N selfId).HasKeyContribution i j = .ok (decide (i = j))) := by
  obtain ⟨hsq, hid⟩ := KeyMatrix_ctor_spec N selfId
  refine ⟨⟨InitializeMatrix_loops_spec [] N, rfl, rfl, fun i hi j hj => ?_⟩,
    ⟨InitializeMatrix_loops_spec prior.m_matrix N, rfl, rfl, fun i hi j hj => ?_⟩⟩
  · unfold HasKeyContribution
    rw [readCell_ok hsq hi hj, hid i hi j hj]
  · have hsq2 : Square (prior.InitializeMatrix N selfId) := hsq
    unfold HasKeyContribution
    rw [readCell_ok hsq2 hi hj]
    exact congrArg Except.ok (hid i hi j hj)

/-- `ReceiveKeyContribution(c)` on a square matrix with `selfId, c < N`: it
returns, and sets cell `(selfId, c)` only. -/
theorem ReceiveKeyContribution_spec (m : KeyMatrix) (c : Nat) (hsq : Square m)
    (hself : m.m_nodeId < m.m_networkSize) (hc : c < m.m_networkSize) :
    ∃ mat, m.ReceiveKeyContribution c = .ok { m with m_matrix := mat } ∧
      Square { m with m_matrix := mat } ∧
      ∀ i j, cell mat i j = if i = m.m_nodeId ∧ j = c then true else cell m.m_matrix i j := by
  obtain ⟨w1, w2, w3, w4⟩ := writeCell_spec true (show m.m_nodeId < m.m_matrix.length by
    rw [hsq.1]; exact hself) (show c < (m.m_matrix.getD m.m_nodeId []).length by
    rw [hsq.2 _ hself]; exact hc)
  refine ⟨_, ?_, ⟨by rw [w2]; exact hsq.1, fun i hi => by rw [w3]; exact hsq.2 i hi⟩, w4⟩
  unfold ReceiveKeyContribution
  rw [w1]
  rfl

/-- C26: for a square matrix with `selfId < N` and `c < N`,
`ReceiveKeyContribution(c)` returns a matrix in which `HasKeyContribution(selfId,
c)` is true and every other cell, `N` and `selfId` are as before. -/
theorem ReceiveKeyContribution_frame (m : KeyMatrix) (c : Nat) (hsq : Square m)
    (hself : m.m_nodeId < m.m_networkSize) (hc : c < m.m_networkSize) :
    ∃ m1, m.ReceiveKeyContribution c = .ok m1 ∧
      m1.m_networkSize = m.m_networkSize ∧ m1.m_nodeId = m.m_nodeId ∧ Square m1 ∧
      m1.HasKeyContribution m.m_nodeId c = .ok true ∧
      (∀ i < m.m_networkSize, ∀ j < m.m_networkSize, (i, j) ≠ (m.m_nodeId, c) →
        m1.HasKeyContribution i j = m.HasKeyContribution i j) ∧
      (∀ i j, (i, j) ≠ (m.m_nodeId, c) → cell m1.m_matrix i j = cell m.m_matrix i j) := by
  obtain ⟨mat, hrun, hsq1, hcell⟩ := ReceiveKeyContribution_spec m c hsq hself hc
  refine ⟨_, hrun, rfl, rfl, hsq1, ?_, fun i hi j hj hne => ?_, fun i j hne => ?_⟩
  · unfold HasKeyContribution
    rw [readCell_ok hsq1 hself hc]
    show Except.ok (cell mat m.m_nodeId c) = _
    rw [hcell, if_pos ⟨rfl, rfl⟩]
  · unfold HasKeyContribution
    rw [readCell_ok hsq1 hi hj, readCell_ok hsq hi hj]
    show Except.ok (cell mat i j) = _
    rw [hcell, if_neg (fun h => hne (by rw [h.1, h.2]))]
  · show cell mat i j = _
    rw [hcell, if_neg (fun h => hne (by rw [h.1, h.2]))]

theorem ReceiveKeyContribution_frame_witness :
    ∃ m1, exMatrix1.ReceiveKeyContribution 2 = .ok m1 ∧
      m1.m_networkSize = exMatrix1.m_networkSize ∧ m1.m_nodeId = exMatrix1.m_nodeId ∧
      Square m1 ∧ m1.HasKeyContribution exMatrix1.m_nodeId 2 = .ok true ∧
      (∀ i < exMatrix1.m_networkSize, ∀ j < exMatrix1.m_networkSize,
        (i, j) ≠ (exMatrix1.m_nodeId, 2) →
        m1.HasKeyContribution i j = exMatrix1.HasKeyContribution i j) ∧
      (∀ i j, (i, j) ≠ (exMatrix1.m_nodeId, 2) →
        cell m1.m_matrix i j = cell exMatrix1.m_matrix i j) :=
  ReceiveKeyContribution_frame exMatrix1 2 (by decide) (by decide) (by decide)

end MatrixConstruction

section MatrixQueries

open KeyMatrix

/-! ## KeyMatrix: IsFull1, forwarding degree, random draws -/

theorem IsFull1_eq {m : KeyMatrix} (hsq : Square m) :
    m.IsFull1 = .ok ((List.range m.m_networkSize).all (fun i =>
      (List.range m.m_networkSize).all (fun j => cell m.m_matrix i j))) := by
  unfold IsFull1
  apply allTrueM_eq
  intro i hi
  apply allTrueM_eq
  intro j hj
  exact readCell_ok hsq (List.mem_range.1 hi) (List.mem_range.1 hj)

/-- Receiving every contribution `0 .. n-1` on the fresh matrix fills the local
row and leaves the other rows as constructed. -/
theorem receive_all_spec (n id : Nat) (hid : id < n) :
    ∃ m1, (List.range n).foldlM (fun mm c => mm.ReceiveKeyContribution c)
        (KeyMatrix.KeyMatrix n id) = .ok m1 ∧
      Square m1 ∧ m1.m_networkSize = n ∧ m1.m_nodeId = id ∧
      (∀ j < n, cell m1.m_matrix id j = true) ∧
      ∀ i, i ≠ id → ∀ j, cell m1.m_matrix i j = cell (KeyMatrix.KeyMatrix n id).m_matrix i j := by
  obtain ⟨m1, hrun, h1, h2, h3, h4, h5⟩ := foldlM_range_inv
    (fun mm c => mm.ReceiveKeyContribution c)
    (fun c (mm : KeyMatrix) => Square mm ∧ mm.m_networkSize = n ∧ mm.m_nodeId = id ∧
      (∀ j < c, cell mm.m_matrix id j = true) ∧
      ∀ i, i ≠ id → ∀ j, cell mm.m_matrix i j = cell (KeyMatrix.KeyMatrix n id).m_matrix i j)
    n (KeyMatrix.KeyMatrix n id)
    ⟨(KeyMatrix_ctor_spec n id).1, rfl, rfl, fun j hj => by omega, fun _ _ _ => rfl⟩
    (by
      rintro c mm hc ⟨h1, h2, h3, h4, h5⟩
      obtain ⟨mat, hrun, hsq1, hcell⟩ := ReceiveKeyContribution_spec mm c h1
        (by rw [h2, h3]; exact hid) (by rw [h2]; exact hc)
      refine ⟨_, hrun, hsq1, h2, h3, fun j hj => ?_, fun i hi j => ?_⟩
      · show cell mat id j = true
        rw [hcell]
        by_cases hjc : j = c
        · rw [if_pos ⟨h3.symm, hjc⟩]
        · rw [if_neg (fun h => hjc h.2)]
          exact h4 j (by omega)
      · show cell mat i j = _
        rw [hcell, if_neg (fun h => hi (h.1.trans h3))]
        exact h5 i hi j)
  exact ⟨m1, hrun, h1, h2, h3, h4, h5⟩

/-- C27: for a square matrix with `selfId < N`, `IsFull1()` returns, and returns
true iff every cell `(i, j)` with `i, j < N` is true; `IsFull1()` true implies
`SelfIsFull1()` true; and for every `N ≥ 2` the matrix that participant 0
reaches from construction by `ReceiveKeyContribution(0), ..., (N-1)` has
`SelfIsFull1()` true and `IsFull1()` false. -/
theorem IsFull1_stronger (m : KeyMatrix) (hsq : Square m)
    (hself : m.m_nodeId < m.m_networkSize) :
    (∃ b, m.IsFull1 = .ok b ∧
      (b = true ↔ ∀ i < m.m_networkSize, ∀ j < m.m_networkSize,
        m.HasKeyContribution i j = .ok true)) ∧
    (m.IsFull1 = .ok true → m.SelfIsFull1 = .ok true) ∧
    ∀ n, 2 ≤ n → ∃ (calls : List Nat) (m1 : KeyMatrix),
      calls.foldlM (fun mm c => mm.ReceiveKeyContribution c) (KeyMatrix.KeyMatrix n 0) = .ok m1 ∧
      m1.SelfIsFull1 = .ok true ∧ m1.IsFull1 = .ok false := by
  have hall : ((List.range m.m_networkSize).all (fun i =>
      (List.range m.m_networkSize).all (fun j => cell m.m_matrix i j)) = true) ↔
      ∀ i < m.m_networkSize, ∀ j < m.m_networkSize, cell m.m_matrix i j = true := by
    simp only [List.all_eq_true, List.mem_range]
  refine ⟨⟨_, IsFull1_eq hsq, ?_⟩, fun h => ?_, fun n hn => ?_⟩
  · rw [hall]
    constructor
    · intro h i hi j hj
      unfold HasKeyContribution
      rw [readCell_ok hsq hi hj, h i hi j hj]
    · intro h i hi j hj
      have := h i hi j hj
      unfold HasKeyContribution at this
      rw [readCell_ok hsq hi hj] at this
      injection this
  · rw [IsFull1_eq hsq] at h
    injection h with h
    rw [hall] at h
    rw [SelfIsFull1_eq hsq hself]
    congr 1
    simp only [List.all_eq_true, List.mem_range]
    exact fun j hj => h _ hself j hj
  · obtain ⟨m1, hrun, h1, h2, h3, h4, h5⟩ := receive_all_spec n 0 (by omega)
    refine ⟨List.range n, m1, hrun, ?_, ?_⟩
    · rw [SelfIsFull1_eq h1 (by rw [h2, h3]; omega)]
      congr 1
      simp only [List.all_eq_true, List.mem_range]
      intro j hj
      rw [h3]
      exact h4 j (by rw [h2] at hj; exact hj)
    · rw [IsFull1_eq h1]
      congr 1
      rw [Bool.eq_false_iff]
      intro h
      simp only [List.all_eq_true, List.mem_range] at h
      have hc := h 1 (by rw [h2]; omega) 0 (by rw [h2]; omega)
      rw [h5 1 (by decide) 0, (KeyMatrix_ctor_spec n 0).2 1 (by omega) 0 (by omega)] at hc
      exact absurd hc (by decide)

theorem IsFull1_stronger_witness :
    (∃ b, exMatrix2.IsFull1 = .ok b ∧
      (b = true ↔ ∀ i < exMatrix2.m_networkSize, ∀ j < exMatrix2.m_networkSize,
        exMatrix2.HasKeyContribution i j = .ok true)) ∧
    (exMatrix2.IsFull1 = .ok true → exMatrix2.SelfIsFull1 = .ok true) ∧
    ∀ n, 2 ≤ n → ∃ (calls : List Nat) (m1 : KeyMatrix),
      calls.foldlM (fun mm c => mm.ReceiveKeyContribution c) (KeyMatrix.KeyMatrix n 0) = .ok m1 ∧
      m1.SelfIsFull1 = .ok true ∧ m1.IsFull1 = .ok false :=
  IsFull1_stronger exMatrix2 (by decide) (by decide)

/-- Exactly one index below `n` passes a test that singles out `c < n`. -/
theorem countP_range_single (f : Nat → Bool) (c : Nat) :
    ∀ n, c < n → (∀ i < n, f i = decide (i = c)) → (List.range n).countP f = 1 := by
  intro n
  induction n with
  | zero => intro h; omega
  | succ n ih =>
    intro hc hf
    rw [List.range_succ, List.countP_append]
    by_cases hcn : c = n
    · have h0 : (List.range n).countP f = 0 := by
        rw [List.countP_eq_zero]
        intro a ha
        have han := List.mem_range.1 ha
        rw [hf a (by omega)]
        simp only [decide_eq_true_eq]
        omega
      rw [h0]
      simp [hf n (by omega), hcn]
    · rw [ih (by omega) (fun i hi => hf i (by omega))]
      have : f n = false := by
        rw [hf n (by omega)]
        simp only [decide_eq_false_iff_not]
        omega
      simp [this]

/-- C28: for a square matrix and `c < N`, `CalculateFD(c)` returns `k / N` with
`k` the number of rows `i < N` whose cell `(i, c)` is true, a value in `[0, 1]`;
it is at least `1 / N` when the diagonal is all true, and exactly `1 / N` on
the freshly constructed matrix. -/
theorem CalculateFD_fraction (m : KeyMatrix) (c : Nat) (hsq : Square m)
    (hc : c < m.m_networkSize) :
    ∃ fd, m.CalculateFD c = .ok fd ∧
      fd.num = (List.range m.m_networkSize).countP (fun i => cell m.m_matrix i c) ∧
      fd.den = m.m_networkSize ∧ fd.num ≤ fd.den ∧
      fd.toRat = (fd.num : ℚ) / (m.m_networkSize : ℚ) ∧ 0 ≤ fd.toRat ∧ fd.toRat ≤ 1 ∧
      (DiagonalTrue m → 1 ≤ fd.num ∧ (1 : ℚ) / (m.m_networkSize : ℚ) ≤ fd.toRat) ∧
      ∀ selfId, (KeyMatrix.KeyMatrix m.m_networkSize selfId).CalculateFD c
        = .ok { num := 1, den := m.m_networkSize } := by
  have hN : (0 : ℚ) < (m.m_networkSize : ℚ) := by
    have : 0 < m.m_networkSize := by omega
    exact_mod_cast this
  have hk : (List.range m.m_networkSize).countP (fun i => cell m.m_matrix i c)
      ≤ m.m_networkSize := by
    have := List.countP_le_length (fun i => cell m.m_matrix i c) (l := List.range m.m_networkSize)
    simpa using this
  refine ⟨_, CalculateFD_eq hsq hc, rfl, rfl, hk, rfl, ?_, ?_, fun hd => ?_, fun selfId => ?_⟩
  · exact div_nonneg (Nat.cast_nonneg _) (Nat.cast_nonneg _)
  · show ((_ : Nat) : ℚ) / ((m.m_networkSize : Nat) : ℚ) ≤ 1
    rw [div_le_one hN]
    exact_mod_cast hk
  · have h1 : 1 ≤ (List.range m.m_networkSize).countP (fun i => cell m.m_matrix i c) := by
      apply List.countP_pos_iff.2
      exact ⟨c, List.mem_range.2 hc, hd c hc⟩
    refine ⟨h1, ?_⟩
    show (1 : ℚ) / _ ≤ ((_ : Nat) : ℚ) / ((m.m_networkSize : Nat) : ℚ)
    rw [div_le_div_iff_of_pos_right hN]
    exact_mod_cast h1
  · obtain ⟨hsq1, hid⟩ := KeyMatrix_ctor_spec m.m_networkSize selfId
    have e := CalculateFD_eq hsq1 (c := c) hc
    rw [e]
    congr 2
    exact countP_range_single _ c _ hc (fun i hi => hid i hi c hc)

theorem CalculateFD_fraction_witness :
    ∃ fd, exMatrix1.CalculateFD 1 = .ok fd ∧
      fd.num = (List.range exMatrix1.m_networkSize).countP
        (fun i => cell exMatrix1.m_matrix i 1) ∧
      fd.den = exMatrix1.m_networkSize ∧ fd.num ≤ fd.den ∧
      fd.toRat = (fd.num : ℚ) / (exMatrix1.m_networkSize : ℚ) ∧ 0 ≤ fd.toRat ∧ fd.toRat ≤ 1 ∧
      (DiagonalTrue exMatrix1 →
        1 ≤ fd.num ∧ (1 : ℚ) / (exMatrix1.m_networkSize : ℚ) ≤ fd.toRat) ∧
      ∀ selfId, (KeyMatrix.KeyMatrix exMatrix1.m_networkSize selfId).CalculateFD 1
        = .ok { num := 1, den := exMatrix1.m_networkSize } :=
  CalculateFD_fraction exMatrix1 1 (by decide) (by decide)

end MatrixQueries

section MatrixDraws

open KeyMatrix

/-! ## KeyMatrix: range of a random draw, MergeMatrix on different sizes -/

/-- C29 as stated fails: with `RAND_MAX = 2147483647`, the value `rand()`
returns at most, the draw for `r = RAND_MAX` is exactly 1. -/
theorem RandomVariable_reaches_one :
    (2147483647 : Nat) ≤ 2147483647 ∧
    (RandomVariable 2147483647 2147483647).toRat = 1 ∧
    ¬ (RandomVariable 2147483647 2147483647).toRat < 1 := by
  have e : (RandomVariable 2147483647 2147483647).toRat = 1 := by
    simp only [RandomVariable, Ratio.toRat]
    norm_num
  exact ⟨Nat.le_refl _, e, by rw [e]; exact lt_irrefl 1⟩

/-- C29: for `RAND_MAX ≥ 1` and every `r` with `0 ≤ r ≤ RAND_MAX`, the draw
`r / RAND_MAX` lies in the closed interval `[0, 1]`; it is below 1 iff
`r < RAND_MAX` and equals 1 iff `r = RAND_MAX`. -/
theorem RandomVariable_range (RAND_MAX r : Nat) (h1 : 1 ≤ RAND_MAX) (h2 : r ≤ RAND_MAX) :
    0 ≤ (RandomVariable RAND_MAX r).toRat ∧ (RandomVariable RAND_MAX r).toRat ≤ 1 ∧
    ((RandomVariable RAND_MAX r).toRat < 1 ↔ r < RAND_MAX) ∧
    ((RandomVariable RAND_MAX r).toRat = 1 ↔ r = RAND_MAX) := by
  have hpos : (0 : ℚ) < (RAND_MAX : ℚ) := by
    have : 0 < RAND_MAX := by omega
    exact_mod_cast this
  simp only [RandomVariable, Ratio.toRat]
  refine ⟨div_nonneg (Nat.cast_nonneg _) (Nat.cast_nonneg _), ?_, ?_, ?_⟩
  · rw [div_le_one hpos]
    exact_mod_cast h2
  · rw [div_lt_one hpos]
    exact Nat.cast_lt
  · rw [div_eq_one_iff_eq (ne_of_gt hpos)]
    exact Nat.cast_inj

theorem RandomVariable_range_witness :
    0 ≤ (RandomVariable 32767 5).toRat ∧ (RandomVariable 32767 5).toRat ≤ 1 ∧
    ((RandomVariable 32767 5).toRat < 1 ↔ 5 < 32767) ∧
    ((RandomVariable 32767 5).toRat = 1 ↔ 5 = 32767) :=
  RandomVariable_range 32767 5 (by decide) (by decide)

theorem readCell_error {mat : List (List Bool)} {i j : Nat} {e : Error}
    (h : readCell mat i j = .error e) : e = .undefined_behaviour := by
  unfold readCell at h
  split at h
  · exact readBit_error h
  · injection h with h; exact h.symm

/-- `MergeMatrix` fails in one way only: by indexing out of range. -/
theorem MergeMatrix_error (m r : KeyMatrix) (e : Error) (h : m.MergeMatrix r = .error e) :
    e = .undefined_behaviour := by
  unfold MergeMatrix at h
  simp only [bind, Except.bind, pure, Except.pure] at h
  split at h
  · rename_i e1 hloop
    injection h with h
    rw [← h]
    refine foldlM_error_inv _ (fun e => e = .undefined_behaviour) (fun i mat e2 hrow => ?_)
      _ _ e1 hloop
    refine foldlM_error_inv _ (fun e => e = .undefined_behaviour) (fun j mat2 e3 hst => ?_)
      _ _ e2 hrow
    unfold MergeMatrix.step at hst
    simp only [bind, Except.bind, pure, Except.pure] at hst
    split at hst
    · rename_i e4 ha
      injection hst with hst
      rw [← hst]; exact readCell_error ha
    · rename_i a ha
      split at hst
      · exact writeCell_error hst
      · split at hst
        · rename_i e5 hv
          injection hst with hst
          rw [← hst]; exact readCell_error hv
        · exact writeCell_error hst
  · simp at h

/-- C21: `MergeMatrix` has no size check. The fresh matrix of two participants
merged with the matrix of three takes over cell `(0, 1)` and returns; the
matrix of three merged with the fresh matrix of two reads cell `(0, 2)` of the
received matrix, outside its `2 x 2` range; `MergeMatrix` never ends in an
error other than such a read. -/
theorem MergeMatrix_size_mismatch :
    (KeyMatrix.KeyMatrix 2 0).m_networkSize ≠ exMatrix1.m_networkSize ∧
    (KeyMatrix.KeyMatrix 2 0).MergeMatrix exMatrix1
      = .ok { m_matrix := [[true, true], [false, true]], m_networkSize := 2, m_nodeId := 0 } ∧
    (KeyMatrix.KeyMatrix 2 0).HasKeyContribution 0 1 = .ok false ∧
    exMatrix1.MergeMatrix (KeyMatrix.KeyMatrix 2 0) = .error .undefined_behaviour ∧
    (∀ m r : KeyMatrix, m.MergeMatrix r ≠ .error .invalid_argument) := by
  refine ⟨by decide, by decide, by decide, by decide, fun m r h => ?_⟩
  exact absurd (MergeMatrix_error m r _ h) (by decide)

end MatrixDraws

section ReceivedMessage

open KeyMatrix

/-! ## AppReceiver: the contribution string of a received message -/

/-- The loop of `Receive` over the positions of the received string never looks
at the characters: for a string of length `N` it returns the matrix with the
whole local row true and the other rows as before. -/
theorem Receive_contributions_fills_row (m : KeyMatrix) (s : List Char) (hsq : Square m)
    (hself : m.m_nodeId < m.m_networkSize) (hs : s.length = m.m_networkSize) :
    ∃ m1, AppReceiver.Receive.contributions m.m_nodeId m s = .ok m1 ∧
      Square m1 ∧ m1.m_networkSize = m.m_networkSize ∧ m1.m_nodeId = m.m_nodeId ∧
      (∀ j < m.m_networkSize, cell m1.m_matrix m.m_nodeId j = true) ∧
      (∀ i, i ≠ m.m_nodeId → ∀ j, cell m1.m_matrix i j = cell m.m_matrix i j) ∧
      m1.SelfIsFull1 = .ok true := by
  unfold AppReceiver.Receive.contributions
  rw [hs]
  obtain ⟨m1, hrun, h1, h2, h3, h4, h5⟩ := foldlM_range_inv
    (fun mm i => AppReceiver.Receive.step m.m_nodeId mm i)
    (fun c (mm : KeyMatrix) => Square mm ∧ mm.m_networkSize = m.m_networkSize ∧
      mm.m_nodeId = m.m_nodeId ∧ (∀ j < c, cell mm.m_matrix m.m_nodeId j = true) ∧
      ∀ i, i ≠ m.m_nodeId → ∀ j, cell mm.m_matrix i j = cell m.m_matrix i j)
    m.m_networkSize m ⟨hsq, rfl, rfl, fun j hj => by omega, fun _ _ _ => rfl⟩
    (by
      rintro c mm hc ⟨h1, h2, h3, h4, h5⟩
      have hr := readCell_ok h1 (show m.m_nodeId < mm.m_networkSize by rw [h2]; exact hself)
        (show c < mm.m_networkSize by rw [h2]; exact hc)
      unfold AppReceiver.Receive.step HasKeyContribution
      simp only [hr, bind, Except.bind, pure, Except.pure]
      by_cases hb : cell mm.m_matrix m.m_nodeId c = true
      · rw [if_pos hb]
        refine ⟨mm, rfl, h1, h2, h3, fun j hj => ?_, h5⟩
        by_cases hjc : j = c
        · rw [hjc]; exact hb
        · exact h4 j (by omega)
      · rw [if_neg hb]
        obtain ⟨mat, hrun, hsq1, hcell⟩ := ReceiveKeyContribution_spec mm c h1
          (by rw [h2, h3]; exact hself) (by rw [h2]; exact hc)
        refine ⟨_, hrun, hsq1, h2, h3, fun j hj => ?_, fun i hi j => ?_⟩
        · show cell mat m.m_nodeId j = true
          rw [hcell]
          by_cases hjc : j = c
          · rw [if_pos ⟨h3.symm, hjc⟩]
          · rw [if_neg (fun h => hjc h.2)]
            exact h4 j (by omega)
        · show cell mat i j = _
          rw [hcell, if_neg (fun h => hi (h.1.trans h3))]
          exact h5 i hi j)
  refine ⟨m1, hrun, h1, h2, h3, h4, h5, ?_⟩
  rw [SelfIsFull1_eq h1 (by rw [h2, h3]; exact hself)]
  congr 1
  simp only [List.all_eq_true, List.mem_range]
  intro j hj
  rw [h3]
  exact h4 j (by rw [h2] at hj; exact hj)

theorem Receive_contributions_fills_row_witness :
    ∃ m1, AppReceiver.Receive.contributions exMatrix1.m_nodeId exMatrix1 ['0', '0', '0'] = .ok m1 ∧
      Square m1 ∧ m1.m_networkSize = exMatrix1.m_networkSize ∧
      m1.m_nodeId = exMatrix1.m_nodeId ∧
      (∀ j < exMatrix1.m_networkSize, cell m1.m_matrix exMatrix1.m_nodeId j = true) ∧
      (∀ i, i ≠ exMatrix1.m_nodeId → ∀ j, cell m1.m_matrix i j = cell exMatrix1.m_matrix i j) ∧
      m1.SelfIsFull1 = .ok true :=
  Receive_contributions_fills_row exMatrix1 ['0', '0', '0'] (by decide) (by decide) (by decide)

/-- C30: the loop of `Receive` over the received contribution string does not
test `s[i] == '1'`. For participant 0 of three, freshly set up, and the string
`"010"`: the loop calls `ReceiveKeyContribution` for positions 1 and 2, so the
local row holds contribution 2, which the string does not mark and the tree,
after `AddMultipleContributions("010")`, does not hold; the whole `Receive`
with the identity snapshot sets `m_isCompleted` while `HasCompleteKey()` is
false. -/
theorem Receive_ignores_marks :
    KeyGenerationTree.KeyGenerationTree 3 0 = .ok exReceiver.m_keyTree ∧
    exReceiver.m_keyMatrix.HasKeyContribution 0 2 = .ok false ∧
    AppReceiver.Receive.contributions exReceiver.m_nodeId exReceiver.m_keyMatrix ['0', '1', '0']
      = .ok { m_matrix := [[true, true, true], [false, true, false], [false, false, true]],
              m_networkSize := 3, m_nodeId := 0 } ∧
    (AppReceiver.Receive.contributions exReceiver.m_nodeId exReceiver.m_keyMatrix
        ['0', '1', '0'] >>= fun m => m.HasKeyContribution 0 2) = .ok true ∧
    (exReceiver.m_keyTree.AddMultipleContributions ['0', '1', '0'] >>=
        fun t => t.HasContribution 2) = .ok false ∧
    (exReceiver.Receive ['0', '1', '0'] ['1', '0', '0', '0', '1', '0', '0', '0', '1'] >>=
        fun a => pure (a.m_isCompleted, a.m_keyTree.HasCompleteKey))
      = .ok (true, .ok false) := by
  decide

end ReceivedMessage

section TreeDeserialization

open KeyGenerationTree

/-! ## KeyGenerationTree: StringToTree and the invariant -/

/-- C22 as stated fails: on the tree of two participants the string `"100"`,
of length `2 * capacity - 1` over `'0'`, `'1'`, is taken over as it is, and
afterwards the root is owned while its child 1 is not. -/
theorem StringToTree_breaks_invariant :
    KeyGenerationTree.KeyGenerationTree 2 0 = .ok exTree2 ∧
    (['1', '0', '0'] : List Char).length = 2 * exTree2.m_capacity - 1 ∧
    exTree2.StringToTree ['1', '0', '0']
      = .ok { exTree2 with m_owned := [true, false, false] } ∧
    (0 < exTree2.m_capacity - 1 ∧ bit [true, false, false] 0 = true ∧
      bit [true, false, false] (2 * 0 + 1) = false) := by
  decide

/-- C22: for a well-formed tree and a string `s` of length `2 * capacity - 1`,
`StringToTree(s)` returns the tree whose node `i` is owned iff `s[i]` is `'1'`.
So afterwards every owned internal node has both children owned iff `s` itself
says so: iff every internal position marked `'1'` has both child positions
marked `'1'`. This is the case when `s` is the `TreeToString()` of a tree of
the same participant count that satisfies the invariant. -/
theorem StringToTree_invariant_iff (t : KeyGenerationTree) (s : List Char)
    (hwf : WellFormed t) (hs : s.length = 2 * t.m_capacity - 1) :
    ∃ t1, t.StringToTree s = .ok t1 ∧ WellFormed t1 ∧ t1.m_capacity = t.m_capacity ∧
      (∀ i < 2 * t.m_capacity - 1, (bit t1.m_owned i = true ↔ s[i]? = some '1')) ∧
      ((∀ i < t1.m_capacity - 1, bit t1.m_owned i = true →
          bit t1.m_owned (2 * i + 1) = true ∧ bit t1.m_owned (2 * i + 2) = true) ↔
        (∀ i < t.m_capacity - 1, s[i]? = some '1' →
          s[2 * i + 1]? = some '1' ∧ s[2 * i + 2]? = some '1')) ∧
      ∀ u, WellFormed u → u.m_leafCount = t.m_leafCount → InternalInv u →
        u.TreeToString = .ok s → InternalInv t1 := by
  obtain ⟨hnc, hlen⟩ := hwf.nodeCount
  obtain ⟨ow, hrun, hl, hbit⟩ := StringToTree_spec t s hlen (by omega)
  have hb : ∀ i < 2 * t.m_capacity - 1, (bit ow i = true ↔ s[i]? = some '1') := by
    intro i hi
    rw [hbit i (by omega)]
    simp
  refine ⟨_, hrun, hwf.with_owned hl, rfl, hb, ?_, fun u hu hN hinv hstr => ?_⟩
  · show (∀ i < t.m_capacity - 1, bit ow i = true →
      bit ow (2 * i + 1) = true ∧ bit ow (2 * i + 2) = true) ↔ _
    constructor
    · intro h i hi hsi
      have := h i hi ((hb i (by omega)).2 hsi)
      exact ⟨(hb _ (by omega)).1 this.1, (hb _ (by omega)).1 this.2⟩
    · intro h i hi hbi
      have := h i hi ((hb i (by omega)).1 hbi)
      exact ⟨(hb _ (by omega)).2 this.1, (hb _ (by omega)).2 this.2⟩
  · obtain ⟨hncu, hlenu⟩ := hu.nodeCount
    have hcap : u.m_capacity = t.m_capacity := WellFormed.capacity_eq hwf hu hN.symm
    obtain ⟨s', hrun', hsl', hget'⟩ := TreeToString_spec u hlenu
    rw [hrun'] at hstr
    injection hstr with hstr
    subst hstr
    have e : ow = u.m_owned := by
      apply bitmap_ext (by omega)
      intro j hj
      rw [hbit j (by omega), hget' j (by omega)]
      cases bit u.m_owned j <;> simp
    show ∀ i < t.m_capacity - 1, bit ow i = (bit ow (2 * i + 1) && bit ow (2 * i + 2))
    rw [e, ← hcap]
    exact hinv

theorem StringToTree_invariant_iff_witness :
    ∃ t1, exNode0.StringToTree ['0', '0', '1', '0', '0', '1', '1'] = .ok t1 ∧ WellFormed t1 ∧
      t1.m_capacity = exNode0.m_capacity ∧
      (∀ i < 2 * exNode0.m_capacity - 1,
        (bit t1.m_owned i = true ↔ (['0', '0', '1', '0', '0', '1', '1'] : List Char)[i]? = some '1')) ∧
      ((∀ i < t1.m_capacity - 1, bit t1.m_owned i = true →
          bit t1.m_owned (2 * i + 1) = true ∧ bit t1.m_owned (2 * i + 2) = true) ↔
        (∀ i < exNode0.m_capacity - 1,
          (['0', '0', '1', '0', '0', '1', '1'] : List Char)[i]? = some '1' →
            (['0', '0', '1', '0', '0', '1', '1'] : List Char)[2 * i + 1]? = some '1' ∧
            (['0', '0', '1', '0', '0', '1', '1'] : List Char)[2 * i + 2]? = some '1')) ∧
      ∀ u, WellFormed u → u.m_leafCount = exNode0.m_leafCount → InternalInv u →
        u.TreeToString = .ok ['0', '0', '1', '0', '0', '1', '1'] → InternalInv t1 :=
  StringToTree_invariant_iff exNode0 ['0', '0', '1', '0', '0', '1', '1'] (by decide) (by decide)

end TreeDeserialization

section TreeConstruction

open KeyGenerationTree

/-! ## KeyGenerationTree: the constructor -/

theorem CeilLog2_le (n k : Nat) (h1 : 1 ≤ n) (h2 : n ≤ 2 ^ k) (h3 : n < U32) :
    CeilLog2 n ≤ k := by
  have e : (n + U32 - 1) % U32 = n - 1 := by
    simp only [U32] at h3 ⊢
    omega
  unfold CeilLog2
  rw [e]
  have := CeilLog2_loop_upper (n - 1) (n - 1) 0 k (by omega)
  omega

theorem le_two_pow_CeilLog2_u32 (n : Nat) (h1 : 1 ≤ n) (h3 : n < U32) :
    n ≤ 2 ^ CeilLog2 n := by
  have e : (n + U32 - 1) % U32 = n - 1 := by
    simp only [U32] at h3 ⊢
    omega
  unfold CeilLog2
  rw [e]
  obtain ⟨_, hlow⟩ := CeilLog2_loop_lower (n - 1) (n - 1) 0 (Nat.le_refl _)
  simp only [Nat.sub_zero] at hlow
  omega

/-- Loop rule for a `for` loop that counts down from `n - 1` to `0`. -/
theorem foldlM_range_rev_inv {σ : Type} (body : σ → Nat → Except Error σ) (P : Nat → σ → Prop) :
    ∀ (n : Nat) (s0 : σ), P n s0 →
      (∀ i s, i < n → P (i + 1) s → ∃ s', body s i = .ok s' ∧ P i s') →
      ∃ s', (List.range n).reverse.foldlM body s0 = .ok s' ∧ P 0 s' := by
  intro n
  induction n with
  | zero => intro s0 h0 _; exact ⟨s0, rfl, h0⟩
  | succ n ih =>
    intro s0 h0 hstep
    obtain ⟨s1, hb, hP⟩ := hstep n s0 (by omega) h0
    obtain ⟨s2, hrun, hP2⟩ := ih s1 hP (fun i s hi hPi => hstep i s (by omega) hPi)
    refine ⟨s2, ?_, hP2⟩
    rw [List.range_succ, List.reverse_append, List.reverse_singleton, List.singleton_append,
      List.foldlM_cons, hb]
    exact hrun

theorem bit_replicate_false (n j : Nat) : bit (List.replicate n false) j = false := by
  unfold bit
  rw [List.getD_eq_getElem?_getD]
  by_cases h : j < n
  · rw [List.getElem?_eq_getElem (by simpa using h)]
    simp
  · rw [List.getElem?_eq_none (by simpa using h)]
    rfl

/-- Loop (1) of the constructor: the padding leaves, and nothing else, are set. -/
theorem ctor_padding_spec (t0 : KeyGenerationTree) (hN : t0.m_leafCount ≤ t0.m_capacity)
    (hc : t0.m_capacity ≤ 2147483648) (h1 : 1 ≤ t0.m_capacity) :
    ∃ owned1, (List.range (t0.m_capacity - t0.m_leafCount)).foldlM
        (fun owned k => writeBit owned (LeafToNodeIndex t0 (t0.m_leafCount + k)) true)
        (List.replicate (2 * t0.m_capacity - 1) false) = .ok owned1 ∧
      owned1.length = 2 * t0.m_capacity - 1 ∧
      ∀ j, (bit owned1 j = true ↔
        (t0.m_capacity - 1 + t0.m_leafCount ≤ j ∧ j < 2 * t0.m_capacity - 1)) := by
  obtain ⟨owned1, hrun, hl, hb⟩ := foldlM_range_inv
    (fun owned k => writeBit owned (LeafToNodeIndex t0 (t0.m_leafCount + k)) true)
    (fun k (owned : List Bool) => owned.length = 2 * t0.m_capacity - 1 ∧
      ∀ j, (bit owned j = true ↔
        (t0.m_capacity - 1 + t0.m_leafCount ≤ j ∧ j < t0.m_capacity - 1 + t0.m_leafCount + k)))
    (t0.m_capacity - t0.m_leafCount) (List.replicate (2 * t0.m_capacity - 1) false)
    ⟨by simp, fun j => by rw [bit_replicate_false]; constructor
                          · intro h; exact absurd h (by decide)
                          · intro h; omega⟩
    (by
      rintro k owned hk ⟨hl, hb⟩
      have e : LeafToNodeIndex t0 (t0.m_leafCount + k)
          = t0.m_capacity - 1 + t0.m_leafCount + k := by
        simp only [LeafToNodeIndex, U32]
        omega
      simp only [e]
      refine ⟨_, writeBit_ok true (by omega), by simp [hl], fun j => ?_⟩
      by_cases hj : j = t0.m_capacity - 1 + t0.m_leafCount + k
      · rw [hj, bit_set_self true (by omega)]
        constructor
        · intro _; omega
        · intro _; rfl
      · rw [bit_set_ne true (fun h => hj h.symm), hb j]
        constructor
        · intro h; omega
        · intro h; omega)
  refine ⟨owned1, hrun, hl, fun j => ?_⟩
  rw [hb j]
  constructor
  · intro h; omega
  · intro h; omega

/-- Loop (2) of the constructor: it keeps the leaves and makes every internal
node owned iff both its children are. -/
theorem ctor_bottom_up_spec (cap : Nat) (hc : cap ≤ 2147483648) (owned1 : List Bool)
    (hl : owned1.length = 2 * cap - 1) (hfalse : ∀ j < cap - 1, bit owned1 j = false) :
    ∃ owned2, (List.range (cap - 1)).reverse.foldlM (fun owned idx => do
        let both ← bothOwned owned idx
        if both then writeBit owned idx true else pure owned) owned1 = .ok owned2 ∧
      owned2.length = 2 * cap - 1 ∧
      (∀ j, cap - 1 ≤ j → bit owned2 j = bit owned1 j) ∧
      ∀ i < cap - 1, bit owned2 i = (bit owned2 (2 * i + 1) && bit owned2 (2 * i + 2)) := by
  obtain ⟨owned2, hrun, h1, h2, h3, _⟩ := foldlM_range_rev_inv
    (fun owned idx => do
      let both ← bothOwned owned idx
      if both then writeBit owned idx true else pure owned)
    (fun i (owned : List Bool) => owned.length = 2 * cap - 1 ∧
      (∀ j, cap - 1 ≤ j → bit owned j = bit owned1 j) ∧
      (∀ j, i ≤ j → j < cap - 1 →
        bit owned j = (bit owned (2 * j + 1) && bit owned (2 * j + 2))) ∧
      ∀ j < i, bit owned j = false)
    (cap - 1) owned1 ⟨hl, fun _ _ => rfl, fun j h1 h2 => by omega, hfalse⟩
    (by
      rintro i owned hi ⟨h1, h2, h3, h4⟩
      have hboth := bothOwned_ok hc h1 hi
      simp only [hboth, bind, Except.bind, pure, Except.pure]
      by_cases hb : (bit owned (2 * i + 1) && bit owned (2 * i + 2)) = true
      · rw [if_pos hb]
        refine ⟨_, writeBit_ok true (by omega), by simp [h1], fun j hj => ?_, fun j hj1 hj2 => ?_,
          fun j hj => ?_⟩
        · rw [bit_set_ne true (show i ≠ j by omega)]
          exact h2 j hj
        · rw [bit_set_ne true (show i ≠ 2 * j + 1 by omega),
            bit_set_ne true (show i ≠ 2 * j + 2 by omega)]
          by_cases hji : j = i
          · rw [hji, bit_set_self true (by omega), hb]
          · rw [bit_set_ne true (fun h => hji h.symm)]
            exact h3 j (by omega) hj2
        · rw [bit_set_ne true (show i ≠ j by omega)]
          exact h4 j (by omega)
      · rw [if_neg hb]
        refine ⟨owned, rfl, h1, h2, fun j hj1 hj2 => ?_, fun j hj => h4 j (by omega)⟩
        by_cases hji : j = i
        · rw [hji, h4 i (by omega)]
          simp only [Bool.not_eq_true] at hb
          exact hb.symm
        · exact h3 j (by omega) hj2)
  exact ⟨owned2, hrun, h1, h2, fun i hi => h3 i (by omega) hi⟩

end TreeConstruction

section TreeConstructor

open KeyGenerationTree

theorem ok_bind {α β : Type} (x : α) (f : α → Except Error β) :
    (Except.ok x >>= f) = f x := rfl

/-- The constructor for `1 ≤ N ≤ 2^31` and `nodeId < N`: it returns the object
with the sizes computed from `N` and a bitmap in which the padding leaves and
the leaf of `nodeId` are the owned leaves and every internal node is owned iff
both its children are. -/
theorem ctor_spec (N id : Nat) (h1 : 1 ≤ N) (h2 : N ≤ 2147483648) (hid : id < N) :
    ∃ owned, KeyGenerationTree.KeyGenerationTree N id = .ok
        { m_nodeId := id, m_leafCount := N, m_capacity := 2 ^ CeilLog2 N,
          m_depth := CeilLog2 N, m_nodeCount := 2 * 2 ^ CeilLog2 N - 1, m_owned := owned } ∧
      owned.length = 2 * 2 ^ CeilLog2 N - 1 ∧
      (∀ i < 2 ^ CeilLog2 N - 1, bit owned i = (bit owned (2 * i + 1) && bit owned (2 * i + 2))) ∧
      (∀ leaf < 2 ^ CeilLog2 N, N ≤ leaf → bit owned (2 ^ CeilLog2 N - 1 + leaf) = true) ∧
      ∀ i < N, bit owned (2 ^ CeilLog2 N - 1 + i) = decide (i = id) := by
  have hd : CeilLog2 N ≤ 31 :=
    CeilLog2_le N 31 h1 (by norm_num; omega) (by simp only [U32]; omega)
  have hNle : N ≤ 2 ^ CeilLog2 N := le_two_pow_CeilLog2_u32 N h1 (by simp only [U32]; omega)
  have hp : 2 ^ CeilLog2 N ≤ 2147483648 := by
    calc 2 ^ CeilLog2 N ≤ 2 ^ 31 := Nat.pow_le_pow_right (by norm_num) hd
      _ = 2147483648 := by norm_num
  have hpos : 0 < 2 ^ CeilLog2 N := Nat.pow_pos (by norm_num)
  have hcm : 2 ^ CeilLog2 N % U32 = 2 ^ CeilLog2 N :=
    Nat.mod_eq_of_lt (by simp only [U32]; omega)
  have hnc : (2 * 2 ^ CeilLog2 N + U32 - 1) % U32 = 2 * 2 ^ CeilLog2 N - 1 := by
    simp only [U32]; omega
  unfold KeyGenerationTree.KeyGenerationTree
  rw [if_neg (by omega), if_neg (by omega)]
  generalize hdd : CeilLog2 N = d at hd hNle hp hpos hcm hnc ⊢
  dsimp only
  rw [hcm]
  generalize hcc : 2 ^ d = cap at hNle hp hpos hcm hnc ⊢
  rw [hnc]
  have hwf : ∀ ow : List Bool, ow.length = 2 * cap - 1 → WellFormed
      { m_nodeId := id, m_leafCount := N, m_capacity := cap, m_depth := d,
        m_nodeCount := 2 * cap - 1, m_owned := ow } := by
    intro ow how
    exact ⟨h1, by show N ≤ _; omega, hdd.symm, by show cap = 2 ^ d % U32; rw [hcc, hcm],
      by show 2 * cap - 1 = _; rw [hnc], how⟩
  obtain ⟨owned1, hrun1, hl1, hb1⟩ := ctor_padding_spec
    { m_nodeId := id, m_leafCount := N, m_capacity := cap, m_depth := d,
      m_nodeCount := 2 * cap - 1, m_owned := List.replicate (2 * cap - 1) false }
    hNle (by show cap ≤ _; omega) hpos
  simp only at hrun1 hl1 hb1
  obtain ⟨owned2, hrun2, hl2, hleaf2, hinv2⟩ := ctor_bottom_up_spec cap (by omega)
    owned1 hl1 (fun j hj => by
      rw [Bool.eq_false_iff]
      intro h
      have := (hb1 j).1 h
      omega)
  obtain ⟨owned3, hrun3, hl3, hmono3, hleaf3, _, hinv3⟩ :=
    AddContribution_spec _ id (hwf owned2 hl2) hid
  simp only at hrun3 hl3 hmono3 hleaf3 hinv3
  refine ⟨owned3, ?_, by rw [hl3]; exact hl2, hinv3 hinv2, fun leaf hleaf hN => ?_,
    fun i hi => ?_⟩
  · rw [hrun1, ok_bind, hrun2, ok_bind]
    exact hrun3
  · apply hmono3
    rw [hleaf2 _ (by omega), hb1]
    omega
  · have hiff := hleaf3 (cap - 1 + i) (by omega)
    have hfalse : bit owned2 (cap - 1 + i) = false := by
      rw [hleaf2 _ (by omega), Bool.eq_false_iff]
      intro h
      have := (hb1 _).1 h
      omega
    rw [hfalse] at hiff
    rw [Bool.eq_iff_iff, hiff]
    simp only [decide_eq_true_eq]
    constructor
    · rintro (h | h)
      · exact absurd h (by decide)
      · omega
    · intro h; right; omega

end TreeConstructor

section TreeConstructorCases

open KeyGenerationTree

/-- A sequence that returns `b`: its first part returned some `a`, and the rest,
run on `a`, returned `b`. -/
theorem bind_ok_inv {α β : Type} (x : Except Error α) (f : α → Except Error β) (b : β)
    (h : (x >>= f) = Except.ok b) : ∃ a, f a = Except.ok b ∧ x = Except.ok a :=
  match x, h with
  | Except.ok a, h => ⟨a, h, rfl⟩
  | Except.error _, h => Except.noConfusion h

/-- `CeilLog2(N)` is 32 for `2^31 < N < 2^32`. -/
theorem CeilLog2_large (N : Nat) (h1 : 2147483648 < N) (h2 : N < U32) : CeilLog2 N = 32 := by
  have hNle : N ≤ 2 ^ CeilLog2 N := le_two_pow_CeilLog2_u32 N (by omega) h2
  have hup : CeilLog2 N ≤ 32 :=
    CeilLog2_le N 32 (by omega) (by simp only [U32] at h2; norm_num; omega) h2
  by_contra hne
  have h31 : CeilLog2 N ≤ 31 := by omega
  have : 2 ^ CeilLog2 N ≤ 2 ^ 31 := Nat.pow_le_pow_right (by norm_num) h31
  have e : (2 : Nat) ^ 31 = 2147483648 := by norm_num
  omega

/-- The constructor for `2^31 < N < 2^32`: `CeilLog2(N)` is 32, the shift
`1u << 32` is undefined, and no object is built. -/
theorem ctor_large (N id : Nat) (h1 : 2147483648 < N) (h2 : N < U32) :
    KeyGenerationTree.KeyGenerationTree N id = .error .undefined_behaviour := by
  have hd : CeilLog2 N ≥ 32 := by rw [CeilLog2_large N h1 h2]
  unfold KeyGenerationTree.KeyGenerationTree
  rw [if_neg (by omega), if_pos hd]

/-- The constructor rejects `networkSize == 0`. -/
theorem ctor_zero (id : Nat) :
    KeyGenerationTree.KeyGenerationTree 0 id = .error .invalid_argument := by
  unfold KeyGenerationTree.KeyGenerationTree
  rw [if_pos rfl]

/-- The constructor for `1 ≤ N ≤ 2^31` and `nodeId < N` returns a well-formed
tree that satisfies invariants (a) and (b) and owns, of the real leaves, the
one of `nodeId`. -/
theorem ctor_fresh (N id : Nat) (h1 : 1 ≤ N) (h2 : N ≤ 2147483648) (hid : id < N) :
    ∃ t, KeyGenerationTree.KeyGenerationTree N id = .ok t ∧ WellFormed t ∧
      t.m_leafCount = N ∧ t.m_nodeId = id ∧ t.m_capacity = 2 ^ CeilLog2 N ∧
      InternalInv t ∧ PaddingOwned t ∧
      ∀ i < N, bit t.m_owned (t.m_capacity - 1 + i) = decide (i = id) := by
  obtain ⟨owned, hrun, hl, hinv, hpad, hleaf⟩ := ctor_spec N id h1 h2 hid
  have hd : CeilLog2 N ≤ 31 :=
    CeilLog2_le N 31 h1 (by norm_num; omega) (by simp only [U32]; omega)
  have hp : 2 ^ CeilLog2 N ≤ 2147483648 := by
    calc 2 ^ CeilLog2 N ≤ 2 ^ 31 := Nat.pow_le_pow_right (by norm_num) hd
      _ = 2147483648 := by norm_num
  have hpos : 0 < 2 ^ CeilLog2 N := Nat.pow_pos (by norm_num)
  have hcm : 2 ^ CeilLog2 N = 2 ^ CeilLog2 N % U32 :=
    (Nat.mod_eq_of_lt (by simp only [U32]; omega)).symm
  have hnc : 2 * 2 ^ CeilLog2 N - 1 = (2 * 2 ^ CeilLog2 N + U32 - 1) % U32 := by
    simp only [U32]; omega
  refine ⟨_, hrun, ?_, ?_, ?_, ?_, ?_, ?_, ?_⟩
  · unfold WellFormed
    dsimp only
    exact ⟨h1, by omega, rfl, hcm, hnc, hl⟩
  · dsimp only
  · dsimp only
  · dsimp only
  · unfold InternalInv
    dsimp only
    exact hinv
  · unfold PaddingOwned
    dsimp only
    exact hpad
  · dsimp only
    exact hleaf

/-- The constructor returns an object only for `1 ≤ N ≤ 2^31` and `nodeId < N`. -/
theorem ctor_ok_bounds (N id : Nat) (t : KeyGenerationTree) (hN : N < U32)
    (h : KeyGenerationTree.KeyGenerationTree N id = .ok t) :
    1 ≤ N ∧ N ≤ 2147483648 ∧ id < N := by
  have h1 : 1 ≤ N := by
    by_contra h0
    have : N = 0 := by omega
    rw [this, ctor_zero] at h
    exact absurd h (by simp)
  have h2 : N ≤ 2147483648 := by
    by_contra hbig
    rw [ctor_large N id (by omega) hN] at h
    exact absurd h (by simp)
  refine ⟨h1, h2, ?_⟩
  by_contra hid
  have hd : ¬ CeilLog2 N ≥ 32 := by
    have := CeilLog2_le N 31 h1 (by norm_num; omega) hN
    omega
  unfold KeyGenerationTree.KeyGenerationTree at h
  rw [if_neg (by omega), if_neg hd] at h
  generalize CeilLog2 N = d at h
  dsimp only at h
  obtain ⟨owned1, h, _⟩ := bind_ok_inv _ _ _ h
  obtain ⟨owned2, h, _⟩ := bind_ok_inv _ _ _ h
  unfold AddContribution at h
  dsimp only at h
  rw [if_pos (by omega)] at h
  exact absurd h (by simp)

end TreeConstructorCases

section TreeFresh

open KeyGenerationTree

/-! ## KeyGenerationTree: sizes and state of a fresh tree -/

/-- C23: for `1 ≤ N ≤ 2^31`, the capacity `1u << CeilLog2(N)` of the constructor
is `2^CeilLog2(N)` without wrap-around and the smallest power of two that is at
least `N` (`CeilLog2(1) = 0`); the node count `2u * capacity - 1` is
`2 * capacity - 1`; in every tree the constructor returns, and in every tree of
these sizes, leaf `k` is stored at node `capacity - 1 + k`, and the leaf nodes
are exactly the indices `capacity - 1 .. 2 * capacity - 2`. -/
theorem tree_sizing (N : Nat) (h1 : 1 ≤ N) (h2 : N ≤ 2147483648) :
    CeilLog2 1 = 0 ∧
    2 ^ CeilLog2 N % U32 = 2 ^ CeilLog2 N ∧
    N ≤ 2 ^ CeilLog2 N ∧ (∀ k, N ≤ 2 ^ k → 2 ^ CeilLog2 N ≤ 2 ^ k) ∧
    (2 * (2 ^ CeilLog2 N % U32) + U32 - 1) % U32 = 2 * 2 ^ CeilLog2 N - 1 ∧
    (∀ t, WellFormed t → t.m_leafCount = N →
      t.m_capacity = 2 ^ CeilLog2 N ∧ t.m_nodeCount = 2 * t.m_capacity - 1 ∧
      t.m_owned.length = 2 * t.m_capacity - 1 ∧
      (∀ k < t.m_capacity, t.LeafToNodeIndex k = t.m_capacity - 1 + k) ∧
      (∀ j, (t.m_capacity - 1 ≤ j ∧ j ≤ 2 * t.m_capacity - 2) ↔
        ∃ k < t.m_capacity, t.LeafToNodeIndex k = j)) ∧
    (∀ id t, KeyGenerationTree.KeyGenerationTree N id = .ok t →
      WellFormed t ∧ t.m_leafCount = N) := by
  obtain ⟨hle, h31⟩ := le_two_pow_CeilLog2 N h1 h2
  have hp : 2 ^ CeilLog2 N ≤ 2147483648 := by
    calc 2 ^ CeilLog2 N ≤ 2 ^ 31 := Nat.pow_le_pow_right (by norm_num) h31
      _ = 2147483648 := by norm_num
  have hpos : 0 < 2 ^ CeilLog2 N := Nat.pow_pos (by norm_num)
  have hcm : 2 ^ CeilLog2 N % U32 = 2 ^ CeilLog2 N :=
    Nat.mod_eq_of_lt (by simp only [U32]; omega)
  have hNU : N < U32 := by simp only [U32]; omega
  refine ⟨rfl, hcm, hle, fun k hk => ?_, ?_, fun t hwf hN => ?_, fun id t hrun => ?_⟩
  · exact Nat.pow_le_pow_right (by norm_num) (CeilLog2_le N k h1 hk hNU)
  · rw [hcm]
    simp only [U32]
    omega
  · obtain ⟨s1, s2, s3, s4⟩ := hwf.shape
    obtain ⟨hnc, hlen⟩ := hwf.nodeCount
    have hcap : t.m_capacity = 2 ^ CeilLog2 N := by
      obtain ⟨_, _, hd, hc, _, _⟩ := hwf
      rw [hc, hd, hN, hcm]
    refine ⟨hcap, hnc, s4, fun k hk => LeafToNodeIndex_eq hwf hk, fun j => ?_⟩
    constructor
    · rintro ⟨hj1, hj2⟩
      refine ⟨j - (t.m_capacity - 1), by omega, ?_⟩
      rw [LeafToNodeIndex_eq hwf (by omega)]
      omega
    · rintro ⟨k, hk, hkj⟩
      rw [LeafToNodeIndex_eq hwf hk] at hkj
      omega
  · obtain ⟨b1, b2, b3⟩ := ctor_ok_bounds N id t hNU hrun
    obtain ⟨t1, hrun1, hwf1, hN1, _⟩ := ctor_fresh N id b1 b2 b3
    rw [hrun1] at hrun
    injection hrun with hrun
    rw [← hrun]
    exact ⟨hwf1, hN1⟩

theorem tree_sizing_witness :
    CeilLog2 1 = 0 ∧
    2 ^ CeilLog2 5 % U32 = 2 ^ CeilLog2 5 ∧
    5 ≤ 2 ^ CeilLog2 5 ∧ (∀ k, 5 ≤ 2 ^ k → 2 ^ CeilLog2 5 ≤ 2 ^ k) ∧
    (2 * (2 ^ CeilLog2 5 % U32) + U32 - 1) % U32 = 2 * 2 ^ CeilLog2 5 - 1 ∧
    (∀ t, WellFormed t → t.m_leafCount = 5 →
      t.m_capacity = 2 ^ CeilLog2 5 ∧ t.m_nodeCount = 2 * t.m_capacity - 1 ∧
      t.m_owned.length = 2 * t.m_capacity - 1 ∧
      (∀ k < t.m_capacity, t.LeafToNodeIndex k = t.m_capacity - 1 + k) ∧
      (∀ j, (t.m_capacity - 1 ≤ j ∧ j ≤ 2 * t.m_capacity - 2) ↔
        ∃ k < t.m_capacity, t.LeafToNodeIndex k = j)) ∧
    (∀ id t, KeyGenerationTree.KeyGenerationTree 5 id = .ok t →
      WellFormed t ∧ t.m_leafCount = 5) :=
  tree_sizing 5 (by decide) (by decide)

/-- C24 as stated fails: for `N = 2^31 + 1` and `selfId = 0`, `CeilLog2(N)` is
32 and the capacity `1u << 32` is undefined (a shift by the width of the
type); every power of two that a `uint32_t` holds is below `N`, so no capacity
has room for the `N` leaves, and no tree with the properties of a fresh tree
is constructed although `N` is not 0. -/
theorem KeyGenerationTree_large_undefined :
    (2147483649 : Nat) ≠ 0 ∧ (0 : Nat) < 2147483649 ∧ (2147483649 : Nat) < U32 ∧
    CeilLog2 2147483649 = 32 ∧
    (∀ k, 2 ^ k < U32 → 2 ^ k < 2147483649) ∧
    KeyGenerationTree.KeyGenerationTree 2147483649 0 = .error .undefined_behaviour := by
  refine ⟨by decide, by decide, by decide, CeilLog2_large 2147483649 (by decide) (by decide),
    fun k hk => ?_, ctor_large 2147483649 0 (by decide) (by decide)⟩
  have hk32 : k < 32 := by
    by_contra h
    have : (2 : Nat) ^ 32 ≤ 2 ^ k := Nat.pow_le_pow_right (by norm_num) (by omega)
    have e : (2 : Nat) ^ 32 = 4294967296 := by norm_num
    simp only [U32] at hk
    omega
  have : (2 : Nat) ^ k ≤ 2 ^ 31 := Nat.pow_le_pow_right (by norm_num) (by omega)
  have e : (2 : Nat) ^ 31 = 2147483648 := by norm_num
  omega

/-- C24: construction with `N == 0` throws `invalid_argument`; for every `N` with
`1 ≤ N ≤ 2^31` and `selfId < N` the constructor returns a tree in which
`HasContribution(i)` is `i == selfId` for every `i < N`,
`GetContributionCount()` is 1, every padding leaf is owned, every internal node
is owned iff both its children are, and `HasCompleteKey()` is `N == 1`. -/
theorem KeyGenerationTree_fresh (N selfId : Nat) (h2 : N ≤ 2147483648) (hid : selfId < N) :
    (∀ id, KeyGenerationTree.KeyGenerationTree 0 id = .error .invalid_argument) ∧
    ∃ t, KeyGenerationTree.KeyGenerationTree N selfId = .ok t ∧ WellFormed t ∧
      t.m_leafCount = N ∧ t.m_nodeId = selfId ∧
      (∀ i < N, t.HasContribution i = .ok (decide (i = selfId))) ∧
      t.GetContributionCount = .ok 1 ∧
      PaddingOwned t ∧ InternalInv t ∧
      t.HasCompleteKey = .ok (decide (N = 1)) := by
  refine ⟨ctor_zero, ?_⟩
  obtain ⟨t, hrun, hwf, hN, hself, hcap, hinv, hpad, hleaf⟩ :=
    ctor_fresh N selfId (by omega) h2 hid
  refine ⟨t, hrun, hwf, hN, hself, fun i hi => ?_, ?_, hpad, hinv, ?_⟩
  · rw [HasContribution_eq hwf (by rw [hN]; exact hi), hleaf i hi]
  · rw [GetContributionCount_eq hwf, hN]
    congr 1
    exact countP_range_single _ selfId N hid hleaf
  · rw [HasCompleteKey_eq hwf]
    congr 1
    rw [Bool.eq_iff_iff, root_owned_iff hwf hinv hpad, hN]
    simp only [decide_eq_true_eq]
    constructor
    · intro h
      by_contra hne
      have h0 : bit t.m_owned (t.m_capacity - 1 + (if selfId = 0 then 1 else 0)) = true :=
        h _ (by split <;> omega)
      rw [hleaf _ (by split <;> omega)] at h0
      simp only [decide_eq_true_eq] at h0
      split at h0 <;> omega
    · intro h i hi
      rw [hleaf i hi]
      simp only [decide_eq_true_eq]
      omega

theorem KeyGenerationTree_fresh_witness :
    (∀ id, KeyGenerationTree.KeyGenerationTree 0 id = .error .invalid_argument) ∧
    ∃ t, KeyGenerationTree.KeyGenerationTree 5 1 = .ok t ∧ WellFormed t ∧
      t.m_leafCount = 5 ∧ t.m_nodeId = 1 ∧
      (∀ i < 5, t.HasContribution i = .ok (decide (i = 1))) ∧
      t.GetContributionCount = .ok 1 ∧
      PaddingOwned t ∧ InternalInv t ∧
      t.HasCompleteKey = .ok (decide (5 = 1)) :=
  KeyGenerationTree_fresh 5 1 (by decide) (by decide)

end TreeFresh

section MatrixConstructionExample

open KeyMatrix

theorem KeyMatrix_fresh_identity_witness :
    (InitializeMatrix.loops [] 3 = .ok (KeyMatrix.KeyMatrix 3 0).m_matrix ∧
      (KeyMatrix.KeyMatrix 3 0).m_networkSize = 3 ∧
      (KeyMatrix.KeyMatrix 3 0).m_nodeId = 0 ∧
      ∀ i < 3, ∀ j < 3,
        (KeyMatrix.KeyMatrix 3 0).HasKeyContribution i j = .ok (decide (i = j))) ∧
    (InitializeMatrix.loops exMatrix2.m_matrix 3 = .ok (exMatrix2.InitializeMatrix 3 0).m_matrix ∧
      (exMatrix2.InitializeMatrix 3 0).m_networkSize = 3 ∧
      (exMatrix2.InitializeMatrix 3 0).m_nodeId = 0 ∧
      ∀ i < 3, ∀ j < 3,
        (exMatrix2.InitializeMatrix 3 0).HasKeyContribution i j = .ok (decide (i = j))) :=
  KeyMatrix_fresh_identity 3 0 exMatrix2

end MatrixConstructionExample

section MatrixReachable

open KeyMatrix

/-! ## KeyMatrix: the diagonal in every reachable state -/

/-- One call on a square matrix with an all-true diagonal: what it returns is
again square, of the same size and id, with an all-true diagonal; and it
returns when `selfId < N`. -/
theorem matrix_call_step (m : KeyMatrix) (c : MatrixCall) (hsq : Square m)
    (hdiag : DiagonalTrue m) (hc : c.WellFormed m.m_networkSize) :
    (∀ m1, c.run m = .ok m1 → Square m1 ∧ m1.m_networkSize = m.m_networkSize ∧
      m1.m_nodeId = m.m_nodeId ∧ DiagonalTrue m1) ∧
    (m.m_nodeId < m.m_networkSize → ∃ m1, c.run m = .ok m1) := by
  cases c with
  | receive k =>
    have hk : k < m.m_networkSize := hc
    by_cases hself : m.m_nodeId < m.m_networkSize
    · obtain ⟨mat, hrun, hsq1, hcell⟩ := ReceiveKeyContribution_spec m k hsq hself hk
      refine ⟨fun m1 h => ?_, fun _ => ⟨_, hrun⟩⟩
      have e : MatrixCall.run m (.receive k) = m.ReceiveKeyContribution k := rfl
      rw [e, hrun] at h
      injection h with h
      subst h
      refine ⟨hsq1, rfl, rfl, fun i hi => ?_⟩
      show cell mat i i = true
      rw [hcell]
      split
      · rfl
      · exact hdiag i hi
    · refine ⟨fun m1 h => ?_, fun h => absurd h hself⟩
      have e : MatrixCall.run m (.receive k) = m.ReceiveKeyContribution k := rfl
      rw [e] at h
      unfold ReceiveKeyContribution writeCell at h
      rw [if_neg (by rw [hsq.1]; exact hself)] at h
      exact absurd h (by simp [bind, Except.bind])
  | merge r =>
    obtain ⟨hsqr, hN⟩ : Square r ∧ r.m_networkSize = m.m_networkSize := hc
    obtain ⟨mat, hrun, hlen, hrows, hcells⟩ := MergeMatrix_spec m r hsq hsqr hN.symm
    refine ⟨fun m1 h => ?_, fun _ => ⟨_, hrun⟩⟩
    have e : MatrixCall.run m (.merge r) = m.MergeMatrix r := rfl
    rw [e, hrun] at h
    injection h with h
    subst h
    refine ⟨⟨hlen, hrows⟩, rfl, rfl, fun i hi => ?_⟩
    show cell mat i i = true
    rw [hcells i hi i hi, hdiag i hi]
    rfl

theorem matrix_calls_spec (calls : List MatrixCall) :
    ∀ m : KeyMatrix, Square m → DiagonalTrue m →
      (∀ c ∈ calls, c.WellFormed m.m_networkSize) →
      (∀ m1, runMatrixCalls m calls = .ok m1 → Square m1 ∧
        m1.m_networkSize = m.m_networkSize ∧ m1.m_nodeId = m.m_nodeId ∧ DiagonalTrue m1) ∧
      (m.m_nodeId < m.m_networkSize → ∃ m1, runMatrixCalls m calls = .ok m1) := by
  induction calls with
  | nil =>
    intro m hsq hdiag _
    refine ⟨fun m1 h => ?_, fun _ => ⟨m, rfl⟩⟩
    have e : runMatrixCalls m [] = .ok m := rfl
    rw [e] at h
    injection h with h
    subst h
    exact ⟨hsq, rfl, rfl, hdiag⟩
  | cons c cs ih =>
    intro m hsq hdiag hargs
    obtain ⟨hstep, htot⟩ := matrix_call_step m c hsq hdiag (hargs c (List.mem_cons_self _ _))
    have e : runMatrixCalls m (c :: cs) = (c.run m >>= fun m1 => runMatrixCalls m1 cs) := by
      unfold runMatrixCalls
      rw [List.foldlM_cons]
    refine ⟨fun m2 h => ?_, fun hself => ?_⟩
    · rw [e] at h
      obtain ⟨m1, h2, h1⟩ := bind_ok_inv _ _ _ h
      obtain ⟨s1, s2, s3, s4⟩ := hstep m1 h1
      obtain ⟨r1, r2, r3, r4⟩ := (ih m1 s1 s4
        (fun c' hc' => by rw [s2]; exact hargs c' (List.mem_cons_of_mem _ hc'))).1 m2 h2
      exact ⟨r1, by rw [r2, s2], by rw [r3, s3], r4⟩
    · obtain ⟨m1, h1⟩ := htot hself
      obtain ⟨s1, s2, s3, s4⟩ := hstep m1 h1
      obtain ⟨m2, h2⟩ := (ih m1 s1 s4
        (fun c' hc' => by rw [s2]; exact hargs c' (List.mem_cons_of_mem _ hc'))).2
        (by rw [s2, s3]; exact hself)
      exact ⟨m2, by rw [e, h1]; exact h2⟩

/-- C31: for every sequence of `ReceiveKeyContribution(c)` with `c < N` and
`MergeMatrix(r)` with square `N x N` matrices `r` (their diagonal may be false)
on the matrix `KeyMatrix(N, selfId)`: the matrix the sequence returns has `N`
rows of `N` cells, the same `N` and `selfId`, and `HasKeyContribution(i, i)` is
true for all `i < N`; and the sequence does return when `selfId < N`. -/
theorem diagonal_invariant (N selfId : Nat) (calls : List MatrixCall)
    (hcalls : ∀ c ∈ calls, c.WellFormed N) :
    (∀ m1, runMatrixCalls (KeyMatrix.KeyMatrix N selfId) calls = .ok m1 →
      Square m1 ∧ m1.m_networkSize = N ∧ m1.m_nodeId = selfId ∧ DiagonalTrue m1 ∧
      ∀ i < N, m1.HasKeyContribution i i = .ok true) ∧
    (selfId < N → ∃ m1, runMatrixCalls (KeyMatrix.KeyMatrix N selfId) calls = .ok m1) := by
  obtain ⟨hsq, hid⟩ := KeyMatrix_ctor_spec N selfId
  have hdiag : DiagonalTrue (KeyMatrix.KeyMatrix N selfId) := by
    intro i hi
    rw [hid i hi i hi]
    exact decide_eq_true rfl
  obtain ⟨hpart, htot⟩ := matrix_calls_spec calls (KeyMatrix.KeyMatrix N selfId) hsq hdiag hcalls
  refine ⟨fun m1 h => ?_, htot⟩
  obtain ⟨r1, r2, r3, r4⟩ := hpart m1 h
  refine ⟨r1, r2, r3, r4, fun i hi => ?_⟩
  have hi' : i < m1.m_networkSize := by rw [r2]; exact hi
  unfold HasKeyContribution
  rw [readCell_ok r1 hi' hi', r4 i hi']

theorem diagonal_invariant_witness :
    (KeyMatrix.KeyMatrix 3 0).StringToMatrix (List.replicate 9 '0') = .ok exZeroMatrix ∧
    ((∀ m1, runMatrixCalls (KeyMatrix.KeyMatrix 3 0) exMatrixCalls = .ok m1 →
      Square m1 ∧ m1.m_networkSize = 3 ∧ m1.m_nodeId = 0 ∧ DiagonalTrue m1 ∧
      ∀ i < 3, m1.HasKeyContribution i i = .ok true) ∧
    ((0 : Nat) < 3 → ∃ m1, runMatrixCalls (KeyMatrix.KeyMatrix 3 0) exMatrixCalls = .ok m1)) :=
  ⟨by decide, diagonal_invariant 3 0 exMatrixCalls (by
    intro c hc
    simp only [exMatrixCalls, List.mem_cons, List.mem_singleton, List.not_mem_nil, or_false] at hc
    rcases hc with h | h | h | h <;> subst h
    · show 1 < 3; decide
    · show Square exZeroMatrix ∧ exZeroMatrix.m_networkSize = 3; decide
    · show 2 < 3; decide
    · show Square exMatrix1 ∧ exMatrix1.m_networkSize = 3; decide)⟩

end MatrixReachable

section MatrixComplementRate

open KeyMatrix

/-! ## KeyMatrix: the complement rate stays below 1 -/

/-- A test that implies another and fails at a member where the other holds
counts at least one member less. -/
theorem countP_succ_le (p q : Nat → Bool) (x0 : Nat) (hq : q x0 = true) (hp : p x0 = false) :
    ∀ l : List Nat, x0 ∈ l → (∀ x ∈ l, p x = true → q x = true) →
      l.countP p + 1 ≤ l.countP q := by
  intro l
  induction l with
  | nil => intro h; exact absurd h (List.not_mem_nil _)
  | cons a l ih =>
    intro hmem himp
    have hmono : l.countP p ≤ l.countP q :=
      List.countP_mono_left (fun x hx h => himp x (List.mem_cons_of_mem _ hx) h)
    rw [List.countP_cons, List.countP_cons]
    by_cases ha : a = x0
    · rw [ha, hq, hp]
      simp only [if_true, Bool.false_eq_true, if_false]
      omega
    · have hin : x0 ∈ l := by
        rcases List.mem_cons.1 hmem with h | h
        · exact absurd h.symm ha
        · exact h
      have := ih hin (fun x hx h => himp x (List.mem_cons_of_mem _ hx) h)
      by_cases hpa : p a = true
      · rw [hpa, himp a (List.mem_cons_self _ _) hpa]
        simp only [if_true]
        omega
      · rw [if_neg hpa]
        by_cases hqa : q a = true
        · rw [if_pos hqa]; omega
        · rw [if_neg hqa]; omega

/-- C32: for a square matrix with an all-true diagonal and `self`, `neighbor`
below `N`, the difference count of `CalculateCR(neighbor)` is at most the union
count minus 1 (the neighbor's own contribution is in the union and not in the
difference), and the union count is at most `N`; so the value is at most
`(N - 1) / N` and below 1. -/
theorem CalculateCR_below_one (m : KeyMatrix) (nb : Nat) (hsq : Square m)
    (hdiag : DiagonalTrue m) (hself : m.m_nodeId < m.m_networkSize)
    (hnb : nb < m.m_networkSize) :
    ∃ cr, m.CalculateCR nb = .ok cr ∧ CalculateCR.counts m nb = .ok (cr.num, cr.den) ∧
      cr.num + 1 ≤ cr.den ∧ cr.den ≤ m.m_networkSize ∧
      cr.toRat ≤ ((m.m_networkSize : ℚ) - 1) / (m.m_networkSize : ℚ) ∧ cr.toRat < 1 := by
  have hnum : (List.range m.m_networkSize).countP
        (fun j => cell m.m_matrix m.m_nodeId j && !cell m.m_matrix nb j) + 1 ≤
      (List.range m.m_networkSize).countP
        (fun j => cell m.m_matrix m.m_nodeId j || cell m.m_matrix nb j) := by
    apply countP_succ_le _ _ nb
    · simp only [hdiag nb hnb, Bool.or_true]
    · simp only [hdiag nb hnb, Bool.not_true, Bool.and_false]
    · exact List.mem_range.2 hnb
    · intro x _ hx
      simp only [Bool.and_eq_true] at hx
      simp only [hx.1, Bool.true_or]
  have hden : (List.range m.m_networkSize).countP
      (fun j => cell m.m_matrix m.m_nodeId j || cell m.m_matrix nb j) ≤ m.m_networkSize := by
    have := List.countP_le_length
      (fun j => cell m.m_matrix m.m_nodeId j || cell m.m_matrix nb j)
      (l := List.range m.m_networkSize)
    simpa using this
  refine ⟨_, CalculateCR_eq hsq hself hnb, CalculateCR_counts_eq hsq hself hnb, hnum, hden, ?_, ?_⟩
  · generalize (List.range m.m_networkSize).countP
      (fun j => cell m.m_matrix m.m_nodeId j && !cell m.m_matrix nb j) = a at hnum ⊢
    generalize (List.range m.m_networkSize).countP
      (fun j => cell m.m_matrix m.m_nodeId j || cell m.m_matrix nb j) = b at hnum hden ⊢
    show (a : ℚ) / (b : ℚ) ≤ _
    have hb : (0 : ℚ) < (b : ℚ) := by
      have : 0 < b := by omega
      exact_mod_cast this
    have hN : (0 : ℚ) < (m.m_networkSize : ℚ) := by
      have : 0 < m.m_networkSize := by omega
      exact_mod_cast this
    have h1 : (a : ℚ) + 1 ≤ (b : ℚ) := by exact_mod_cast hnum
    have h2 : (b : ℚ) ≤ (m.m_networkSize : ℚ) := by exact_mod_cast hden
    rw [div_le_div_iff₀ hb hN]
    nlinarith
  · generalize (List.range m.m_networkSize).countP
      (fun j => cell m.m_matrix m.m_nodeId j && !cell m.m_matrix nb j) = a at hnum ⊢
    generalize (List.range m.m_networkSize).countP
      (fun j => cell m.m_matrix m.m_nodeId j || cell m.m_matrix nb j) = b at hnum hden ⊢
    show (a : ℚ) / (b : ℚ) < 1
    have hb : (0 : ℚ) < (b : ℚ) := by
      have : 0 < b := by omega
      exact_mod_cast this
    rw [div_lt_one hb]
    have : a < b := by omega
    exact_mod_cast this

theorem CalculateCR_below_one_witness :
    ∃ cr, exMatrix1.CalculateCR 1 = .ok cr ∧
      CalculateCR.counts exMatrix1 1 = .ok (cr.num, cr.den) ∧
      cr.num + 1 ≤ cr.den ∧ cr.den ≤ exMatrix1.m_networkSize ∧
      cr.toRat ≤ ((exMatrix1.m_networkSize : ℚ) - 1) / (exMatrix1.m_networkSize : ℚ) ∧
      cr.toRat < 1 :=
  CalculateCR_below_one exMatrix1 1 (by decide) (by decide) (by decide) (by decide)

end MatrixComplementRate

section TreeIndices

open KeyGenerationTree

/-! ## KeyGenerationTree: indices of AddMultipleContributions -/

/-- For two or more participants `AddMultipleContributions` on a string of the
right length returns on every bitmap of `2 * capacity - 1` bits: every read and
write, checked against the length of the bitmap, is inside it. -/
theorem AddMultipleContributions_in_range (t : KeyGenerationTree) (s : List Char)
    (hwf : WellFormed t) (hs : s.length = t.m_leafCount) (hN : 2 ≤ t.m_leafCount) :
    ∃ t1, t.AddMultipleContributions s = .ok t1 ∧
      t1.m_owned.length = 2 * t.m_capacity - 1 := by
  obtain ⟨_, h2, _, h4⟩ := hwf.shape
  obtain ⟨owned', hrun, hlen, _⟩ :=
    AddMultipleContributions_spec t s hwf hs (fun h => by omega)
  exact ⟨_, hrun, by rw [← h4]; exact hlen⟩

theorem AddMultipleContributions_in_range_witness :
    ∃ t1, exTree5.AddMultipleContributions ['1', '0', '1', '1', '0'] = .ok t1 ∧
      t1.m_owned.length = 2 * exTree5.m_capacity - 1 :=
  AddMultipleContributions_in_range exTree5 ['1', '0', '1', '1', '0'] (by decide) (by decide)
    (by decide)

/-- C33: for one participant (capacity 1, a bitmap of one bit), with the node
not owned as `StringToTree("0")` leaves it, `AddMultipleContributions("1")`
writes bit 0 and `BubbleUpMerge` then puts `Parent(0) = (0 - 1) / 2 = 2^31 - 1`,
computed in `uint32_t`, into its set and reads the bitmap at that index, which
is not below `2 * capacity - 1 = 1`. -/
theorem AddMultipleContributions_index_single_node :
    (KeyGenerationTree.KeyGenerationTree 1 0 >>= fun t => t.StringToTree ['0']) = .ok exTree1 ∧
    WellFormed exTree1 ∧ exTree1.m_leafCount = 1 ∧
    exTree1.m_owned.length = 2 * exTree1.m_capacity - 1 ∧
    (['1'] : List Char).length = exTree1.m_leafCount ∧
    BubbleUpMerge.collect { exTree1 with m_owned := [true] } = .ok [2147483647] ∧
    Parent (exTree1.LeafToNodeIndex 0) = 2147483647 ∧
    ¬ (2147483647 < 2 * exTree1.m_capacity - 1) ∧
    readBit [true] (Parent (exTree1.LeafToNodeIndex 0)) = .error .undefined_behaviour ∧
    BubbleUpMerge { exTree1 with m_owned := [true] } = .error .undefined_behaviour ∧
    exTree1.AddMultipleContributions ['1'] = .error .undefined_behaviour := by
  decide

end TreeIndices

section BubbleRounds

open KeyGenerationTree

/-! ## KeyGenerationTree: the rounds of BubbleUpMerge -/

/-- The loop of `BubbleUpMerge` on a set of internal nodes all below the round
budget: it returns within the budget, with the bitmap of `BubbleUpMerge.loop`;
the indices it sets come in strictly falling order, each is at most a member
of the set, was not owned before, and the bitmap changes at these indices
only. -/
theorem bubble_trace_spec (cap : Nat) (hc2 : 2 ≤ cap) (hc : cap ≤ 2147483648) :
    ∀ (fuel : Nat) (owned : List Bool) (nodes : List Nat),
      owned.length = 2 * cap - 1 → (∀ x ∈ nodes, x < cap - 1 ∧ x < fuel) →
      ∃ owned' log rounds, BubbleUpMerge.trace fuel owned nodes = .ok (owned', log, rounds) ∧
        BubbleUpMerge.loop fuel owned nodes = .ok owned' ∧
        rounds ≤ fuel ∧
        log.Pairwise (fun a b => b < a) ∧
        (∀ i ∈ log, (∃ x ∈ nodes, i ≤ x) ∧ bit owned i = false) ∧
        (∀ j, bit owned' j = (bit owned j || decide (j ∈ log))) := by
  intro fuel
  induction fuel with
  | zero =>
    intro owned nodes hlen hnodes
    have hnil : nodes = [] := by
      cases nodes with
      | nil => rfl
      | cons x xs => exact absurd (hnodes x (List.mem_cons_self _ _)).2 (by omega)
    subst hnil
    exact ⟨owned, [], 0, by simp [BubbleUpMerge.trace], by simp [BubbleUpMerge.loop],
      Nat.le_refl _, List.Pairwise.nil, fun i hi => absurd hi (List.not_mem_nil _),
      fun j => by simp⟩
  | succ fuel ih =>
    intro owned nodes hlen hnodes
    by_cases hnil : nodes = []
    · subst hnil
      exact ⟨owned, [], 0, by simp [BubbleUpMerge.trace], by simp [BubbleUpMerge.loop],
        Nat.zero_le _, List.Pairwise.nil, fun i hi => absurd hi (List.not_mem_nil _),
        fun j => by simp⟩
    · have hmem := setMax_mem hnil
      obtain ⟨hidx, hidxf⟩ := hnodes _ hmem
      have hrest : ∀ x ∈ setErase nodes (setMax nodes), x < cap - 1 ∧ x < setMax nodes := by
        intro x hx
        obtain ⟨hx1, hx2⟩ := mem_setErase.1 hx
        have := le_setMax hx1
        exact ⟨(hnodes x hx1).1, by omega⟩
      have hrestf : ∀ x ∈ setErase nodes (setMax nodes), x < cap - 1 ∧ x < fuel := by
        intro x hx
        obtain ⟨h1, h2⟩ := hrest x hx
        exact ⟨h1, by omega⟩
      have hempty : nodes.isEmpty = false := by
        cases nodes with
        | nil => exact absurd rfl hnil
        | cons _ _ => rfl
      -- a round that writes nothing
      have hskip : ∃ owned' log rounds,
          (BubbleUpMerge.trace fuel owned (setErase nodes (setMax nodes)) >>=
            fun r => (pure (r.1, r.2.1, r.2.2 + 1) : Except Error (List Bool × List Nat × Nat)))
            = .ok (owned', log, rounds) ∧
          BubbleUpMerge.loop fuel owned (setErase nodes (setMax nodes)) = .ok owned' ∧
          rounds ≤ fuel + 1 ∧ log.Pairwise (fun a b => b < a) ∧
          (∀ i ∈ log, (∃ x ∈ nodes, i ≤ x) ∧ bit owned i = false) ∧
          (∀ j, bit owned' j = (bit owned j || decide (j ∈ log))) := by
        obtain ⟨owned', log, rounds, ht, hl, hr, hp, hi, hb⟩ :=
          ih owned (setErase nodes (setMax nodes)) hlen hrestf
        refine ⟨owned', log, rounds + 1, by rw [ht]; rfl, hl, by omega, hp, fun i hil => ?_, hb⟩
        obtain ⟨⟨x, hx, hix⟩, hbi⟩ := hi i hil
        exact ⟨⟨x, (mem_setErase.1 hx).1, hix⟩, hbi⟩
      unfold BubbleUpMerge.trace BubbleUpMerge.loop
      simp only [hempty, Bool.false_eq_true, if_false,
        readBit_ok (show setMax nodes < owned.length by omega), bind, Except.bind]
      cases hb : bit owned (setMax nodes)
      · simp only [Bool.false_eq_true, if_false, bothOwned_ok hc hlen hidx]
        cases hboth : (bit owned (2 * setMax nodes + 1) && bit owned (2 * setMax nodes + 2))
        · simp only [Bool.false_eq_true, if_false]
          simpa only [bind, Except.bind] using hskip
        · simp only [if_true, writeBit_ok true (show setMax nodes < owned.length by omega)]
          have hnodes1 : ∀ x ∈ (if setMax nodes ≠ 0 then Parent (setMax nodes) ::
              setErase nodes (setMax nodes) else setErase nodes (setMax nodes)),
              (x < cap - 1 ∧ x < fuel) ∧ x < setMax nodes := by
            intro x hx
            by_cases h0 : setMax nodes = 0
            · simp only [h0, ne_eq, not_true_eq_false, if_false] at hx
              have := hrest x (by rw [h0]; exact hx)
              omega
            · simp only [ne_eq, h0, not_false_eq_true, if_true] at hx
              rcases List.mem_cons.1 hx with h | h
              · subst h
                simp only [Parent, U32]
                omega
              · exact ⟨hrestf x h, (hrest x h).2⟩
          obtain ⟨owned', log, rounds, ht, hl, hr, hp, hi, hbits⟩ :=
            ih (owned.set (setMax nodes) true) _ (by simpa using hlen)
              (fun x hx => (hnodes1 x hx).1)
          have hlt : ∀ i ∈ log, i < setMax nodes := by
            intro i hil
            obtain ⟨⟨x, hx, hix⟩, _⟩ := hi i hil
            have := (hnodes1 x hx).2
            omega
          refine ⟨owned', setMax nodes :: log, rounds + 1, by rw [ht]; rfl, hl, by omega,
            List.Pairwise.cons hlt hp, fun i hil => ?_, fun j => ?_⟩
          · rcases List.mem_cons.1 hil with h | h
            · rw [h]
              exact ⟨⟨_, hmem, Nat.le_refl _⟩, hb⟩
            · obtain ⟨_, hbi⟩ := hi i h
              have hne : setMax nodes ≠ i := by have := hlt i h; omega
              rw [bit_set_ne true hne] at hbi
              exact ⟨⟨_, hmem, by have := hlt i h; omega⟩, hbi⟩
          · rw [hbits j]
            by_cases hj : j = setMax nodes
            · rw [hj, bit_set_self true (by omega)]
              simp
            · rw [bit_set_ne true (fun h => hj h.symm)]
              simp [hj]
      · simp only [if_true]
        simpa only [bind, Except.bind] using hskip

end BubbleRounds

section BubbleTermination

open KeyGenerationTree

/-- Four leaves owned and no internal node: the loop sets nodes 2, 1 and 0, in
this order, in three rounds. -/
theorem bubble_trace_example :
    BubbleUpMerge.collect { exNode0 with m_owned := [false, false, false, true, true, true, true] }
      = .ok [2, 2, 1, 1] ∧
    BubbleUpMerge.trace 3 [false, false, false, true, true, true, true] [2, 2, 1, 1]
      = .ok ([true, true, true, true, true, true, true], [2, 1, 0], 3) := by
  decide

/-- C34: for two or more participants and every bitmap of `2 * capacity - 1`
bits, `BubbleUpMerge` returns: its loop, which removes the greatest index of
the set in every round and inserts at most the parent of that index, ends
after at most `greatest + 1 ≤ capacity - 1` rounds. The indices it sets are
internal nodes in strictly falling order, so none is set twice; each was not
owned before and is owned afterwards, and no other bit changes. -/
theorem BubbleUpMerge_terminates (t : KeyGenerationTree) (hwf : WellFormed t)
    (hN : 2 ≤ t.m_leafCount) :
    ∃ nodes owned' log rounds,
      BubbleUpMerge.collect t = .ok nodes ∧
      BubbleUpMerge.trace (setMax nodes + 1) t.m_owned nodes = .ok (owned', log, rounds) ∧
      t.BubbleUpMerge = .ok { t with m_owned := owned' } ∧
      rounds ≤ setMax nodes + 1 ∧ setMax nodes + 1 ≤ t.m_capacity - 1 ∧
      log.Pairwise (fun a b => b < a) ∧ log.Nodup ∧
      (∀ i ∈ log, i < t.m_capacity - 1 ∧ bit t.m_owned i = false ∧ bit owned' i = true) ∧
      (∀ j, j ∉ log → bit owned' j = bit t.m_owned j) := by
  obtain ⟨h1, h2, h3, h4⟩ := hwf.shape
  have hc2 : 2 ≤ t.m_capacity := by omega
  obtain ⟨nodes, hcol, hint, _⟩ := collect_spec t hwf hc2
  obtain ⟨owned', log, rounds, ht, hl, hr, hp, hi, hb⟩ :=
    bubble_trace_spec t.m_capacity hc2 h3 (setMax nodes + 1) t.m_owned nodes h4
      (fun x hx => ⟨hint x hx, Nat.lt_succ_of_le (le_setMax hx)⟩)
  have hmax : setMax nodes + 1 ≤ t.m_capacity - 1 := by
    by_cases hnil : nodes = []
    · rw [hnil]
      show 0 + 1 ≤ _
      omega
    · have := hint _ (setMax_mem hnil)
      omega
  refine ⟨nodes, owned', log, rounds, hcol, ht, ?_, hr, hmax, hp,
    hp.imp (fun h => Nat.ne_of_gt h), fun i hil => ?_, fun j hj => ?_⟩
  · unfold BubbleUpMerge
    simp [hcol, hl, bind, Except.bind, pure, Except.pure]
  · obtain ⟨⟨x, hx, hix⟩, hbi⟩ := hi i hil
    have := hint x hx
    refine ⟨by omega, hbi, ?_⟩
    rw [hb i]
    simp [hil]
  · rw [hb j]
    simp [hj]

theorem BubbleUpMerge_terminates_witness :
    ∃ nodes owned' log rounds,
      BubbleUpMerge.collect exTree5 = .ok nodes ∧
      BubbleUpMerge.trace (setMax nodes + 1) exTree5.m_owned nodes
        = .ok (owned', log, rounds) ∧
      exTree5.BubbleUpMerge = .ok { exTree5 with m_owned := owned' } ∧
      rounds ≤ setMax nodes + 1 ∧ setMax nodes + 1 ≤ exTree5.m_capacity - 1 ∧
      log.Pairwise (fun a b => b < a) ∧ log.Nodup ∧
      (∀ i ∈ log, i < exTree5.m_capacity - 1 ∧ bit exTree5.m_owned i = false ∧
        bit owned' i = true) ∧
      (∀ j, j ∉ log → bit owned' j = bit exTree5.m_owned j) :=
  BubbleUpMerge_terminates exTree5 (by decide) (by decide)

end BubbleTermination

end EAGKA
